import Mathlib

/-!
# SSIM core (`src/src/ssim.cpp`): a shallow embedding and its properties

The embedding follows the C++ source function by function.

* `Float` values are elements of a linear ordered field `K` (exact arithmetic); the
  library calls `std::exp` and the constant `M_PI` are the parameters `expf` and `pi`.
* Float memory is a map `Mem K = Int → K`; a `Float*` is an integer address into it.
  The source image is a map `Int → Nat` (8-bit samples) relative to its data pointer.
* `uint32_t` and `int32_t` arithmetic is written with explicit wrapping (`u32`, `i32`);
  `size_t` arithmetic with `% 2 ^ 64`. Pointer offsets are unbounded integers.
* Counted `for` loops whose counter is not touched by the body are `forRange`; the two
  tile loops of `compute_ssim`, whose 32-bit counter advances by 64 and can wrap, are
  the fuel-bounded `tileLoop`.
-/

namespace rmgr.ssim

/-! ## Machine arithmetic and memory -/

/-- Wrapping of an integer to `uint32_t`. -/
def u32 (n : Int) : Int := n % 2 ^ 32

/-- Conversion of an integer to `int32_t` (two's complement). -/
def i32 (n : Int) : Int := (n + 2 ^ 31) % 2 ^ 32 - 2 ^ 31

/-- Float memory: the value stored at each address. -/
abbrev Mem (K : Type) := Int → K

/-- Store `v` at address `p`. -/
def write {K : Type} (m : Mem K) (p : Int) (v : K) : Mem K :=
  fun q => if q = p then v else m q

/-- A counted loop `for (i = lo; i < lo + n; ++i) s = body i s`. -/
def forRange {σ : Type} (lo : Int) : Nat → (Int → σ → σ) → σ → σ
  | 0, _, s => s
  | n + 1, body, s => forRange (lo + 1) n body (body lo s)

/-- The value of `EINVAL` in `<cerrno>`. -/
def EINVAL : Int := 22

/-- The value of `ENOMEM` in `<cerrno>`. -/
def ENOMEM : Int := 12

/-- The constant `CACHE_ALIGNMENT`. -/
def CACHE_ALIGNMENT : Nat := 64

/-- The value of `sizeof(Float)`. -/
def sizeofFloat : Nat := 4

/-- The function `align_up`: `(size + (alignment-1)) & ~(alignment-1)` in `size_t`. -/
def align_up (size alignment : Nat) : Nat :=
  Nat.land ((size + (alignment - 1)) % 2 ^ 64) (2 ^ 64 - 1 - (alignment - 1))

/-! ## `class Image` -/

/-- The data members of `class Image`; `m_buffer` holds the allocated floats, addressed
from the start of the allocation, and `m_size` is the number of floats allocated. -/
structure Image (K : Type) where
  m_buffer : Mem K
  m_size : Nat
  m_width : Nat
  m_height : Nat
  m_stride : Nat
  m_margin : Nat

/-- The local `actualWidth` of `Image::init` (a `uint32_t`). -/
def Image.actualWidth (width margin : Nat) : Nat := (width + 2 * margin) % 2 ^ 32

/-- The local `actualHeight` of `Image::init` (a `uint32_t`). -/
def Image.actualHeight (height margin : Nat) : Nat := (height + 2 * margin) % 2 ^ 32

/-- The local `bufStride` of `Image::init`, in floats. -/
def Image.bufStride (width margin : Nat) : Nat :=
  align_up (Image.actualWidth width margin * sizeofFloat) CACHE_ALIGNMENT / sizeofFloat

/-- The local `bufSize` of `Image::init`: the number of bytes requested, a `size_t`. -/
def Image.bufSize (width height margin : Nat) : Nat :=
  (Image.bufStride width margin * Image.actualHeight height margin * sizeofFloat) % 2 ^ 64

/-- `Image::init(width, height, margin)`. The allocator slot is `g_alloc size alignment`,
which yields the fresh (uninitialised) block or `none` for `NULL`. -/
def Image.init {K : Type} (g_alloc : Nat → Nat → Option (Mem K))
    (width height margin : Nat) : Except Int (Image K) :=
  match g_alloc (Image.bufSize width height margin) CACHE_ALIGNMENT with
  | none => .error (-ENOMEM)
  | some buf =>
    .ok { m_buffer := buf
          m_size := Image.bufSize width height margin / sizeofFloat
          m_width := width
          m_height := height
          m_stride := Image.bufStride width margin
          m_margin := margin }

/-- The C library `memcpy` on floats: `n` elements from `src` to `dst`, in ascending
order. -/
def memcpy {K : Type} (m : Mem K) (dst src : Int) (n : Nat) : Mem K :=
  forRange 0 n (fun i m => write m (dst + i) (m (src + i))) m

/-- Loop state of the row-filling loops of `Image::init` and `retrieve_tile`: the float
memory, the source pointer `s` (an offset from the image data pointer) and the
destination pointer `d`. -/
structure FillCursor (K : Type) where
  m : Mem K
  s : Int
  d : Int

/-- One row of the ingestion loop shared by `Image::init` and `retrieve_tile`:
`nLeft` copies of the sample at `s`, then `nData` samples stepping `s` by `step`, then
`nRight` copies of `d[-1]`; finally `s += sStride; d += dStride`. -/
def fillRow {K : Type} [NatCast K] (data : Int → Nat) (nLeft nData nRight : Nat)
    (step sStride dStride : Int) (c : FillCursor K) : FillCursor K :=
  -- Left margin
  let c := forRange 0 nLeft (fun _ c => { c with m := write c.m c.d (data c.s), d := c.d + 1 }) c
  -- Actual data
  let c := forRange 0 nData
    (fun _ c => { m := write c.m c.d (data c.s), d := c.d + 1, s := c.s + step }) c
  -- Right margin
  let right := c.m (c.d - 1)
  let c := forRange 0 nRight (fun _ c => { c with m := write c.m c.d right, d := c.d + 1 }) c
  { c with s := c.s + sStride, d := c.d + dStride }

/-- `Image::init(data, width, height, step, stride, margin)`: allocation as in
`Image.init`, then ingestion with border replication. -/
def Image.initData {K : Type} [NatCast K] (g_alloc : Nat → Nat → Option (Mem K))
    (data : Int → Nat) (width height : Nat) (step stride : Int) (margin : Nat) :
    Except Int (Image K) :=
  let actualWidth := Image.actualWidth width margin
  let bufStride := Image.bufStride width margin
  match g_alloc (Image.bufSize width height margin) CACHE_ALIGNMENT with
  | none => .error (-ENOMEM)
  | some buf =>
    let sStride : Int := stride - step * width
    let dStride : Int := (bufStride : Int) - actualWidth
    let c := forRange 0 height
      (fun _ c => fillRow data margin width margin step sStride dStride c)
      { m := buf, s := 0, d := (margin : Int) * bufStride }
    -- Top and bottom margins
    let firstRow : Int := (margin : Int) * bufStride
    let lastRow : Int := c.d - bufStride
    let m := forRange 1 margin
      (fun y m =>
        let m := memcpy m (firstRow - y * bufStride) firstRow actualWidth
        memcpy m (lastRow + y * bufStride) lastRow actualWidth) c.m
    .ok { m_buffer := m
          m_size := Image.bufSize width height margin / sizeofFloat
          m_width := width
          m_height := height
          m_stride := bufStride
          m_margin := margin }

/-- `Image::operator[](y)`: the address, inside `m_buffer`, of logical row `y`, column 0.
The sum `y + m_margin` is taken in `uint32_t` and converted to `int32_t`. -/
def Image.row {K : Type} (img : Image K) (y : Int) : Int :=
  i32 (u32 (y + img.m_margin)) * (img.m_stride : Int) + img.m_margin

/-- The element `img[y][x]`. -/
def Image.at {K : Type} (img : Image K) (y x : Int) : K :=
  img.m_buffer (img.row y + x)

/-! ## Elementwise multiply -/

/-- Loop state of the tile `multiply`: memory and the three moving pointers. -/
structure MulCursor (K : Type) where
  m : Mem K
  product : Int
  a : Int
  b : Int

/-- `multiply(Float* product, const Float* a, const Float* b, width, height, stride)`.
All three pointers address the same float memory, so they may alias. -/
def multiply {K : Type} [Mul K] (m : Mem K) (product a b : Int) (width height : Nat)
    (stride : Int) : Mem K :=
  (forRange 0 height
    (fun _ (c : MulCursor K) =>
      let c := forRange 0 width
        (fun _ (c : MulCursor K) =>
          { m := write c.m c.product (c.m c.a * c.m c.b)
            product := c.product + 1, a := c.a + 1, b := c.b + 1 }) c
      { c with a := c.a + (stride - width)
               b := c.b + (stride - width)
               product := c.product + (stride - width) })
    ({ m := m, product := product, a := a, b := b } : MulCursor K)).m

/-- Loop state of the `Image` overload of `multiply`: the product buffer and the three
moving pointers, each into its own buffer. -/
structure ImgMulCursor (K : Type) where
  m : Mem K
  pp : Int
  pa : Int
  pb : Int

/-- `multiply(Image& product, const Image& a, const Image& b)` for a `product` that is
neither `a` nor `b`, as in every call of the whole-image path. -/
def Image.multiply {K : Type} [Mul K] (g_alloc : Nat → Nat → Option (Mem K))
    (a b : Image K) : Except Int (Image K) :=
  match Image.init g_alloc a.m_width a.m_height a.m_margin with
  | .error err => .error err
  | .ok product =>
    let w := (a.m_width + 2 * a.m_margin) % 2 ^ 32
    let h := (a.m_height + 2 * a.m_margin) % 2 ^ 32
    let c := forRange 0 h
      (fun _ (c : ImgMulCursor K) =>
        let c := forRange 0 w
          (fun _ (c : ImgMulCursor K) =>
            { m := write c.m c.pp (a.m_buffer c.pa * b.m_buffer c.pb)
              pp := c.pp + 1, pa := c.pa + 1, pb := c.pb + 1 }) c
        { c with pa := c.pa + ((a.m_stride : Int) - w)
                 pb := c.pb + ((b.m_stride : Int) - w)
                 pp := c.pp + ((product.m_stride : Int) - w) })
      ({ m := product.m_buffer, pp := 0, pa := 0, pb := 0 } : ImgMulCursor K)
    .ok { product with m_buffer := c.m }

/-! ## Gaussian kernel -/

/-- `gaussian_kernel(x, y, sigma)`; `expf` is `std::exp` and `pi` is `M_PI`. -/
def gaussian_kernel {K : Type} [Field K] (expf : K → K) (pi : K) (x y : Int) (sigma : K) : K :=
  let sigma2 := sigma * sigma
  let numerator := expf (-((x * x + y * y : Int) : K) / (2 * sigma2))
  let denominator := (2 * pi) * sigma2
  numerator / denominator

/-- Loop state of `precompute_gaussian_kernel`: the kernel array and the running sum. -/
structure KernelState (K : Type) where
  kernel : Mem K
  sum : K

/-- The first part of `precompute_gaussian_kernel` ("Compute kernel, exploiting (some)
symmetries"); the macro `k(x,y)` is `kernel[(y)*size + (x)]`. -/
def kernelFill {K : Type} [Field K] (expf : K → K) (pi : K)
    (kernel : Mem K) (radius : Int) (sigma : K) : KernelState K :=
  let size : Int := 2 * radius + 1
  let st : KernelState K := { kernel := kernel, sum := 0 }
  let st := forRange 0 (radius + 1).toNat
    (fun y st =>
      let st := forRange 0 (radius + 1).toNat
        (fun x st =>
          let v := gaussian_kernel expf pi (x - radius) (y - radius) sigma
          { kernel := write st.kernel (y * size + x) v, sum := st.sum + v }) st
      forRange (radius + 1) (size - (radius + 1)).toNat
        (fun x st =>
          let v := st.kernel (y * size + (size - 1 - x))
          { kernel := write st.kernel (y * size + x) v, sum := st.sum + v }) st) st
  forRange (radius + 1) (size - (radius + 1)).toNat
    (fun y st =>
      forRange 0 size.toNat
        (fun x st =>
          let v := st.kernel ((size - 1 - y) * size + x)
          { kernel := write st.kernel (y * size + x) v, sum := st.sum + v }) st) st

/-- `precompute_gaussian_kernel(kernel, radius, sigma)`: the filling part, then
"Normalize kernel". -/
def precompute_gaussian_kernel {K : Type} [Field K] (expf : K → K) (pi : K)
    (kernel : Mem K) (radius : Int) (sigma : K) : Mem K :=
  let size : Int := 2 * radius + 1
  let st := kernelFill expf pi kernel radius sigma
  forRange 0 (size * size).toNat
    (fun i kernel => write kernel i (kernel i / st.sum)) st.kernel

/-! ## Gaussian convolution -/

/-- Loop state of the two inner loops of `gaussian_blur`: the accumulator `val` and the
kernel pointer `k`. -/
structure TapState (K : Type) where
  val : K
  k : Int

/-- The two inner loops of `gaussian_blur`: the value accumulated for the output pixel
`(xd, yd)` from the memory `m`, reading rows through `srce + ys * srceStride`. -/
def blurPixel {K : Type} [Field K] (m : Mem K) (srce srceStride : Int) (kernel : Mem K)
    (radius : Int) (xd yd : Int) : K :=
  (forRange (yd - radius) (yd + radius + 1 - (yd - radius)).toNat
    (fun ys t =>
      let row := srce + ys * srceStride
      forRange (xd - radius) (xd + radius + 1 - (xd - radius)).toNat
        (fun xs t => { val := t.val + kernel t.k * m (row + xs), k := t.k + 1 }) t)
    ({ val := 0, k := 0 } : TapState K)).val

/-- Loop state of the outer loops of `gaussian_blur`: memory and the moving `dest`. -/
structure BlurCursor (K : Type) where
  m : Mem K
  dest : Int

/-- The pointer overload `gaussian_blur(dest, destStride, srce, srceStride, width,
height, kernel, radius)`: the memory afterwards and the returned `int`. -/
def gaussian_blur {K : Type} [Field K] (m : Mem K) (dest destStride srce srceStride : Int)
    (width height : Int) (kernel : Mem K) (radius : Int) : Mem K × Int :=
  let c := forRange 0 height.toNat
    (fun yd c =>
      let c := forRange 0 width.toNat
        (fun xd c =>
          { m := write c.m c.dest (blurPixel c.m srce srceStride kernel radius xd yd)
            dest := c.dest + 1 }) c
      { c with dest := c.dest + (destStride - width) })
    ({ m := m, dest := dest } : BlurCursor K)
  (c.m, 0)

/-- The `Image` overload `gaussian_blur(dest, srce, kernel, radius)`: `dest` is
re-initialised with no margin and filled from `srce[ys][xs]`. -/
def Image.gaussian_blur {K : Type} [Field K] (g_alloc : Nat → Nat → Option (Mem K))
    (srce : Image K) (kernel : Mem K) (radius : Int) : Except Int (Image K) :=
  match Image.init g_alloc srce.m_width srce.m_height 0 with
  | .error err => .error err
  | .ok dest =>
    let width := i32 srce.m_width
    let height := i32 srce.m_height
    let m := forRange 0 height.toNat
      (fun yd m =>
        forRange 0 width.toNat
          (fun xd m =>
            let t := forRange (yd - radius) (yd + radius + 1 - (yd - radius)).toNat
              (fun ys t =>
                forRange (xd - radius) (xd + radius + 1 - (xd - radius)).toNat
                  (fun xs t => { val := t.val + kernel t.k * srce.at ys xs, k := t.k + 1 }) t)
              ({ val := 0, k := 0 } : TapState K)
            write m (dest.row yd + xd) t.val) m) dest.m_buffer
    .ok { dest with m_buffer := m }

/-! ## Tile loader -/

/-- The "Bottom margin" block of `retrieve_tile`: the last row written is copied into the
rows `sy2 ≤ dy < dy2`. -/
def bottomMargin {K : Type} (c : FillCursor K) (dy2 sy2 : Int) (tileStride : Int)
    (tileRowSize : Nat) : FillCursor K :=
  if dy2 > sy2 then
    let lastRow := c.d - tileStride
    forRange sy2 (dy2 - sy2).toNat
      (fun _ (c : FillCursor K) =>
        { c with m := memcpy c.m c.d lastRow tileRowSize, d := c.d + tileStride }) c
  else c

/-- The "Top margin" block of `retrieve_tile`: the first row written is copied into the
rows `dy1 ≤ dy < sy1`. -/
def topMargin {K : Type} (c : FillCursor K) (tile : Int) (dy1 sy1 : Int) (tileStride : Int)
    (tileRowSize : Nat) : Mem K :=
  if dy1 < sy1 then
    let firstRow := tile + tileStride * (sy1 - dy1)
    (forRange dy1 (sy1 - dy1).toNat
      (fun _ (c : FillCursor K) =>
        { c with m := memcpy c.m c.d firstRow tileRowSize, d := c.d + tileStride })
      { c with d := tile }).m
  else c.m

/-- `retrieve_tile(tile, tileWidth, tileHeight, tileStride, margin, x, y, imgData,
imgWidth, imgHeight, imgStep, imgStride)`. The `uint32_t` sums are converted to
`int32_t` as in the source. -/
def retrieve_tile {K : Type} [NatCast K] (m : Mem K) (tile : Int)
    (tileWidth tileHeight tileStride margin x y : Nat)
    (imgData : Int → Nat) (imgWidth imgHeight : Nat) (imgStep imgStride : Int) : Mem K :=
  let dx1 : Int := i32 (u32 ((x : Int) - margin))
  let dy1 : Int := i32 (u32 ((y : Int) - margin))
  let dx2 : Int := i32 (u32 ((x : Int) + tileWidth + margin))
  let dy2 : Int := i32 (u32 ((y : Int) + tileHeight + margin))
  let sx1 : Int := max dx1 0
  let sy1 : Int := max dy1 0
  let sx2 : Int := min dx2 (i32 imgWidth)
  let sy2 : Int := min dy2 (i32 imgHeight)
  let rowLen : Int := u32 ((tileWidth : Int) + 2 * margin)
  let s : Int := sx1 * imgStep + sy1 * imgStride
  let d : Int := tile + (tileStride : Int) * (sy1 - dy1)
  let sStride : Int := imgStride - imgStep * (sx2 - sx1)
  let dStride : Int := (tileStride : Int) - rowLen
  let c := forRange sy1 (sy2 - sy1).toNat
    (fun _ c => fillRow imgData (sx1 - dx1).toNat (sx2 - sx1).toNat (dx2 - sx2).toNat
      imgStep sStride dStride c)
    ({ m := m, s := s, d := d } : FillCursor K)
  let tileRowSize : Nat := rowLen.toNat
  let c := bottomMargin c dy2 sy2 tileStride tileRowSize
  topMargin c tile dy1 sy1 tileStride tileRowSize

/-! ## Orchestrator -/

/-- The constant `tileSize` of `compute_ssim`. -/
def tileSize : Nat := 64

/-- The constant `radius` of `compute_ssim`. -/
def radius : Nat := 5

/-- The constant `tileStride` of `compute_ssim`. -/
def tileStride : Nat := tileSize + 2 * radius

/-- Address of `buffer1` (`tileSize * tileSize` floats) in the tile-local memory. The six
buffers are laid out one after another, each at a 64-byte boundary. -/
def buffer1 : Int := 0
/-- Address of `buffer2` (`tileStride * tileStride` floats). -/
def buffer2 : Int := 4096
/-- Address of `buffer3`. -/
def buffer3 : Int := 9584
/-- Address of `buffer4`. -/
def buffer4 : Int := 15072
/-- Address of `buffer5`. -/
def buffer5 : Int := 20560
/-- Address of `buffer6`. -/
def buffer6 : Int := 26048

/-- The per-pixel combination of `compute_ssim` (the body of the innermost loop up to
`const double ssim`), from the five blurred values read from the tile buffers. -/
def ssimCombine {K : Type} [Field K] (c1 c2 muA muB eA2 eB2 eAB : K) : K :=
  let muA2 := muA * muA
  let muB2 := muB * muB
  let muAB := muA * muB
  let sigmaA2 := eA2 - muA2
  let sigmaB2 := eB2 - muB2
  let sigmaAB := eAB - muAB
  let numerator1 := 2 * muAB + c1
  let numerator2 := 2 * sigmaAB + c2
  let denominator1 := muA2 + muB2 + c1
  let denominator2 := sigmaA2 + sigmaB2 + c2
  let numerator := numerator1 * numerator2
  let denominator := denominator1 * denominator2
  numerator / denominator

/-- The constant `c1 = (k1 * L) * (k1 * L)` with `k1 = 0.01`, `L = UINT8_MAX`. -/
def c1 {K : Type} [Field K] : K := ((1 / 100) * 255) * ((1 / 100) * 255)

/-- The constant `c2 = (k2 * L) * (k2 * L)` with `k2 = 0.03`, `L = UINT8_MAX`. -/
def c2 {K : Type} [Field K] : K := ((3 / 100) * 255) * ((3 / 100) * 255)

/-- Loop state of the combining loops of one tile: `tileSum`, the output map (absent when
`ssimMap` is `NULL`) and the moving `ssimPtr`. -/
structure CombineState (K : Type) where
  tileSum : K
  map : Option (Mem K)
  ssimPtr : Int

/-- State of the tile loops of `compute_ssim`: the tile-local buffers, the output map
and the running `sum`. -/
structure SsimState (K : Type) where
  stack : Mem K
  map : Option (Mem K)
  sum : K

/-- A tile loop `for (uint32_t t = t0; t < bound; t += tileSize)`, the counter wrapping
at `2 ^ 32`. It runs at most `fuel` tests of the loop condition and yields `none` when
the loop has not ended by then (or its body has not). -/
def tileLoop {σ : Type} (bound : Nat) (body : Nat → σ → Option σ) : Nat → Nat → σ → Option σ
  | 0, _, _ => none
  | fuel + 1, t, s =>
    if t < bound then
      match body t s with
      | none => none
      | some s' => tileLoop bound body fuel ((t + tileSize) % 2 ^ 32) s'
    else some s

/-- The two `retrieve_tile` calls of the tile body: `a` into `buffer2`, `b` into
`buffer3`. -/
def tileLoad {K : Type} [Field K] (width height : Nat)
    (imgAData : Int → Nat) (imgAStep imgAStride : Int)
    (imgBData : Int → Nat) (imgBStep imgBStride : Int)
    (ty th tx tw : Nat) (stack : Mem K) : Mem K :=
  let a := buffer2
  let b := buffer3
  let m := retrieve_tile stack a tw th tileStride radius tx ty
    imgAData width height imgAStep imgAStride
  retrieve_tile m b tw th tileStride radius tx ty
    imgBData width height imgBStep imgBStride

/-- The three `multiply` calls of the tile body: `a2` into `buffer4`, `b2` into `buffer5`,
`ab` into `buffer6`. -/
def tileProducts {K : Type} [Field K] (tw th : Nat) (m : Mem K) : Mem K :=
  let a := buffer2
  let b := buffer3
  let a2 := buffer4
  let b2 := buffer5
  let ab := buffer6
  let m := multiply m a2 a a (tw + 2 * radius) (th + 2 * radius) tileStride
  let m := multiply m b2 b b (tw + 2 * radius) (th + 2 * radius) tileStride
  multiply m ab a b (tw + 2 * radius) (th + 2 * radius) tileStride

/-- The five `gaussian_blur` calls of the tile body; the destinations reuse the buffers
of `a`, `b`, `a2` and `b2`. -/
def tileBlurs {K : Type} [Field K] (kernel : Mem K) (tw th : Nat) (m : Mem K) : Mem K :=
  let a := buffer2
  let b := buffer3
  let a2 := buffer4
  let b2 := buffer5
  let ab := buffer6
  let muATile := buffer1
  let muBTile := buffer2
  let sigmaA2Tile := buffer3
  let sigmaB2Tile := buffer4
  let sigmaABTile := buffer5
  let off : Int := (radius : Int) * tileStride + radius
  let m := (gaussian_blur m muATile tileSize (a + off) tileStride tw th kernel radius).1
  let m := (gaussian_blur m muBTile tileSize (b + off) tileStride tw th kernel radius).1
  let m := (gaussian_blur m sigmaA2Tile tileSize (a2 + off) tileStride tw th kernel radius).1
  let m := (gaussian_blur m sigmaB2Tile tileSize (b2 + off) tileStride tw th kernel radius).1
  (gaussian_blur m sigmaABTile tileSize (ab + off) tileStride tw th kernel radius).1

/-- The first half of the body of the inner tile loop of `compute_ssim`: loading the two
bordered tiles, the three products and the five blurs. The result is the tile-local
memory in which `buffer1 .. buffer5` hold `muATile`, `muBTile`, `sigmaA2Tile`,
`sigmaB2Tile` and `sigmaABTile`. -/
def tileMoments {K : Type} [Field K] (kernel : Mem K) (width height : Nat)
    (imgAData : Int → Nat) (imgAStep imgAStride : Int)
    (imgBData : Int → Nat) (imgBStep imgBStride : Int)
    (ty th tx tw : Nat) (stack : Mem K) : Mem K :=
  tileBlurs kernel tw th (tileProducts tw th (tileLoad width height
    imgAData imgAStep imgAStride imgBData imgBStep imgBStride ty th tx tw stack))

/-- The second half of the body of the inner tile loop: the per-pixel combination over
the tile, the optional map writes and `tileSum`. -/
def tileCombine {K : Type} [Field K] (m : Mem K) (map : Option (Mem K))
    (ssimStep ssimStride : Int) (ty th tx tw : Nat) : CombineState K :=
  let muATile := buffer1
  let muBTile := buffer2
  let sigmaA2Tile := buffer3
  let sigmaB2Tile := buffer4
  let sigmaABTile := buffer5
  let ssimTile : Int := (tx : Int) * ssimStep + (ty : Int) * ssimStride
  forRange 0 th
    (fun y (cs : CombineState K) =>
      let muARow := muATile + y * tileSize
      let muBRow := muBTile + y * tileSize
      let sigmaA2Row := sigmaA2Tile + y * tileSize
      let sigmaB2Row := sigmaB2Tile + y * tileSize
      let sigmaABRow := sigmaABTile + y * tileSize
      forRange 0 tw
        (fun x (cs : CombineState K) =>
          let ssim := ssimCombine c1 c2 (m (muARow + x)) (m (muBRow + x))
            (m (sigmaA2Row + x)) (m (sigmaB2Row + x)) (m (sigmaABRow + x))
          match cs.map with
          | some map =>
            { tileSum := cs.tileSum + ssim
              map := some (write map cs.ssimPtr ssim)
              ssimPtr := cs.ssimPtr + ssimStep }
          | none => { cs with tileSum := cs.tileSum + ssim })
        { cs with ssimPtr := ssimTile + y * ssimStride })
    ({ tileSum := 0, map := map, ssimPtr := ssimTile } : CombineState K)

/-- The body of the inner tile loop of `compute_ssim` for the tile at `(tx, ty)`. -/
def tileBody {K : Type} [Field K] (kernel : Mem K) (width height : Nat)
    (imgAData : Int → Nat) (imgAStep imgAStride : Int)
    (imgBData : Int → Nat) (imgBStep imgBStride : Int)
    (ssimStep ssimStride : Int) (ty th tx : Nat) (st : SsimState K) : SsimState K :=
  let tw := min tileSize (width - tx)
  let m := tileMoments kernel width height imgAData imgAStep imgAStride
    imgBData imgBStep imgBStride ty th tx tw st.stack
  let cs := tileCombine m st.map ssimStep ssimStride ty th tx tw
  { stack := m, map := cs.map, sum := st.sum + cs.tileSum }

/-- `compute_ssim`. The image pointers and `ssimMap` are `none` for `NULL`; `junk` is the
content of the uninitialised local arrays. The result is `none` when the tile loops
have not ended within `fuel` tests each; otherwise it is the returned `float` and the
output map afterwards. -/
def compute_ssim {K : Type} [Field K] (expf : K → K) (pi : K) (fuel : Nat) (junk : Mem K)
    (width height : Nat)
    (imgAData : Option (Int → Nat)) (imgAStep imgAStride : Int)
    (imgBData : Option (Int → Nat)) (imgBStep imgBStride : Int)
    (ssimMap : Option (Mem K)) (ssimStep ssimStride : Int) : Option (K × Option (Mem K)) :=
  match imgAData, imgBData with
  | some imgA, some imgB =>
    let ssimStep := if ssimMap.isNone then 0 else ssimStep
    let ssimStride := if ssimMap.isNone then 0 else ssimStride
    -- Parameters of the gaussian blur
    let sigma : K := 3 / 2
    let kernel := precompute_gaussian_kernel expf pi junk radius sigma
    let r := tileLoop height
      (fun ty (st : SsimState K) =>
        let th := min tileSize (height - ty)
        tileLoop width
          (fun tx st => some (tileBody kernel width height imgA imgAStep imgAStride
            imgB imgBStep imgBStride ssimStep ssimStride ty th tx st))
          fuel 0 st)
      fuel 0 ({ stack := junk, map := ssimMap, sum := 0 } : SsimState K)
    match r with
    | none => none
    | some st => some (st.sum / (((width * height) % 2 ^ 32 : Nat) : K), st.map)
  | _, _ => some (-(EINVAL : K), ssimMap)

/-! ## The whole-image path of `compute_ssim` (the disabled `#else` branch) -/

/-- The cells `p + y * stride + x`, `y < height`, `x < width`, of a tile at `p`. -/
def Region (p : Int) (width height : Nat) (stride : Int) (q : Int) : Prop :=
  ∃ y x : Nat, y < height ∧ x < width ∧ q = p + y * stride + x

/-- A source tile of `multiply` is the product tile itself or shares no cell with it. -/
def SameOrDisjoint (product src : Int) (width height : Nat) (stride : Int) : Prop :=
  src = product ∨ ∀ q, Region product width height stride q → ¬ Region src width height stride q

/-- Cells written by a row-major sweep once `k` full rows and `j` cells of row `k` are
done. -/
def Done (k j : Nat) (y x : Nat) : Prop := y < k ∨ (y = k ∧ x < j)

/-- State of `multiply` after `k` rows and `j` cells of row `k`. -/
def MulInv {K : Type} [Mul K] (M : Mem K) (product a b : Int) (width : Nat) (stride : Int) (k j : Nat)
    (c : MulCursor K) : Prop :=
  c.product = product + k * stride + j ∧ c.a = a + k * stride + j ∧
  c.b = b + k * stride + j ∧
  (∀ y x : Nat, x < width → Done k j y x →
    c.m (product + y * stride + x) = M (a + y * stride + x) * M (b + y * stride + x)) ∧
  (∀ q : Int, (∀ y x : Nat, x < width → Done k j y x → q ≠ product + y * stride + x) →
    c.m q = M q)

/-- The weight `gaussian_kernel(x - r, y - r, sigma)` for the kernel cell `(x, y)`. -/
def kernelWeight {K : Type} [Field K] (expf : K → K) (pi : K) (r : Nat) (sigma : K)
    (y x : Nat) : K :=
  gaussian_kernel expf pi ((x : Int) - r) ((y : Int) - r) sigma

/-- The sum `S` of the weights over all `(2r+1)²` offsets. -/
def kernelTotal {K : Type} [Field K] (expf : K → K) (pi : K) (r : Nat) (sigma : K) : K :=
  ∑ y in Finset.range (2 * r + 1), ∑ x in Finset.range (2 * r + 1),
    kernelWeight expf pi r sigma y x

/-- State of the filling loops of `precompute_gaussian_kernel` after `k` rows and `j`
cells of row `k`: the cells done hold their weight and `sum` is the total of those. -/
def KernelInv {K : Type} [Field K] (expf : K → K) (pi : K) (r : Nat) (sigma : K)
    (k j : Nat) (st : KernelState K) : Prop :=
  (∀ y x : Nat, x < 2 * r + 1 → Done k j y x →
    st.kernel ((y : Int) * (2 * (r : Int) + 1) + x) = kernelWeight expf pi r sigma y x) ∧
  st.sum = (∑ y in Finset.range k, ∑ x in Finset.range (2 * r + 1),
      kernelWeight expf pi r sigma y x) + ∑ x in Finset.range j, kernelWeight expf pi r sigma k x

/-- The weight as the specification words it:
`w(u,v) = exp(-(u²+v²)/(2σ²)) / (2πσ²)`. -/
def gaussianWeightSpec {K : Type} [Field K] (expf : K → K) (pi : K) (sigma : K)
    (u v : Int) : K :=
  expf (-(((u ^ 2 + v ^ 2 : Int) : K)) / (2 * sigma ^ 2)) / (2 * pi * sigma ^ 2)

/-- The specification's `S`: the sum of `w` over all `(2r+1)²` offsets `(i - r, j - r)`. -/
def gaussianTotalSpec {K : Type} [Field K] (expf : K → K) (pi : K) (r : Nat) (sigma : K) : K :=
  ∑ j in Finset.range (2 * r + 1), ∑ i in Finset.range (2 * r + 1),
    gaussianWeightSpec expf pi sigma ((i : Int) - r) ((j : Int) - r)

/-- The convolution sum of the specification, read from the memory `m` through the
pointer `srce`: `Σ_{i,j ≤ 2r} kernel[j*(2r+1) + i] * srce[(y+j-r)*srceStride + (x+i-r)]`. -/
def blurSum {K : Type} [Field K] (m : Mem K) (srce srceStride : Int) (kernel : Mem K)
    (r : Nat) (x y : Int) : K :=
  ∑ j in Finset.range (2 * r + 1), ∑ i in Finset.range (2 * r + 1),
    kernel ((j : Int) * (2 * (r : Int) + 1) + i) *
      m (srce + (y + j - r) * srceStride + (x + i - r))

/-- State of the tap loops of `gaussian_blur` after `j` kernel rows and `i` taps of row
`j`. -/
def TapInv {K : Type} [Field K] (m : Mem K) (srce srceStride : Int) (kernel : Mem K)
    (r : Nat) (x y : Int) (j i : Nat) (t : TapState K) : Prop :=
  t.k = (j : Int) * (2 * (r : Int) + 1) + i ∧
  t.val = (∑ j' in Finset.range j, ∑ i' in Finset.range (2 * r + 1),
      kernel ((j' : Int) * (2 * (r : Int) + 1) + i') *
        m (srce + (y + j' - r) * srceStride + (x + i' - r))) +
    ∑ i' in Finset.range i, kernel ((j : Int) * (2 * (r : Int) + 1) + i') *
        m (srce + (y + j - r) * srceStride + (x + i' - r))

/-- State of the pixel loops of `gaussian_blur` after `k` rows and `j` pixels of row
`k`. -/
def BlurInv {K : Type} [Field K] (M : Mem K) (dest destStride srce srceStride : Int)
    (width : Nat) (kernel : Mem K) (r : Nat) (k j : Nat) (c : BlurCursor K) : Prop :=
  c.dest = dest + k * destStride + j ∧
  (∀ y x : Nat, x < width → Done k j y x →
    c.m (dest + y * destStride + x) = blurSum M srce srceStride kernel r x y) ∧
  (∀ q : Int, (∀ y x : Nat, x < width → Done k j y x → q ≠ dest + y * destStride + x) →
    c.m q = M q)

/-- Clamping of a coordinate to `[0, n-1]`: the nearest in-image coordinate. -/
def clampTo (v : Int) (n : Nat) : Int := max 0 (min v ((n : Int) - 1))

/-- The image sample at column `cx`, row `cy`, the coordinates clamped to the image. -/
def sampleAt (imgData : Int → Nat) (imgWidth imgHeight : Nat) (imgStep imgStride : Int)
    (cx cy : Int) : Nat :=
  imgData (clampTo cx imgWidth * imgStep + clampTo cy imgHeight * imgStride)

/-- The sample of an image at clamped coordinates, as a float. -/
def pixel {K : Type} [NatCast K] (img : Int → Nat) (imgWidth imgHeight : Nat)
    (imgStep imgStride : Int) (cx cy : Int) : K :=
  ((sampleAt img imgWidth imgHeight imgStep imgStride cx cy : Nat) : K)

/-- The Gaussian-weighted sum of a field `f` over the `(2·radius+1)²` window centred at
`(x, y)`. -/
def moment {K : Type} [Field K] (kernel : Mem K) (f : Int → Int → K) (x y : Int) : K :=
  ∑ j in Finset.range (2 * radius + 1), ∑ i in Finset.range (2 * radius + 1),
    kernel ((j : Int) * (2 * (radius : Int) + 1) + i) * f (x + i - radius) (y + j - radius)

/-- The SSIM value of the pixel `(x, y)` for the fields `A` and `B`: the combination of
the five windowed moments of `A`, `B`, `A·A`, `B·B` and `A·B`. -/
def ssimAt {K : Type} [Field K] (kernel : Mem K) (A B : Int → Int → K) (x y : Int) : K :=
  ssimCombine c1 c2 (moment kernel A x y) (moment kernel B x y)
    (moment kernel (fun u v => A u v * A u v) x y)
    (moment kernel (fun u v => B u v * B u v) x y)
    (moment kernel (fun u v => A u v * B u v) x y)

/-- The state of the output map once the pixels in `P` have been written: each float
either holds the value of a pixel of `P` stored at that address, or no pixel of `P` is
stored there and it is unchanged. -/
def MapInv {K : Type} (P : Nat → Nat → Prop) (val : Nat → Nat → K) (ssimStep ssimStride : Int)
    (map0 cur : Mem K) : Prop :=
  ∀ q : Int,
    (∃ x y : Nat, P x y ∧ (x : Int) * ssimStep + (y : Int) * ssimStride = q ∧ cur q = val x y) ∨
    ((∀ x y : Nat, P x y → (x : Int) * ssimStep + (y : Int) * ssimStride ≠ q) ∧ cur q = map0 q)

/-- The pixels of the tile at `(tx, ty)` of width `tw` combined once `k` rows and `j`
pixels of row `k` are done. -/
def InTile (tx ty tw k j : Nat) (X Y : Nat) : Prop :=
  ∃ x y : Nat, X = tx + x ∧ Y = ty + y ∧ x < tw ∧ Done k j y x

/-- The output map during the run: absent throughout when `ssimMap` is `NULL`;
otherwise present and in the state `MapInv` for the pixels `P` written so far. -/
def MapOk {K : Type} (P : Nat → Nat → Prop) (val : Nat → Nat → K) (ssimStep ssimStride : Int)
    (map0 cur : Option (Mem K)) : Prop :=
  match map0 with
  | none => cur = none
  | some m0 => ∃ mp, cur = some mp ∧ MapInv P val ssimStep ssimStride m0 mp

/-- The SSIM value that `compute_ssim` computes for the pixel `(x, y)` of two images: the
fields are the clamped samples and the kernel is the precomputed one. -/
def ssimPixel {K : Type} [Field K] (kernel : Mem K) (width height : Nat)
    (imgA : Int → Nat) (imgAStep imgAStride : Int)
    (imgB : Int → Nat) (imgBStep imgBStride : Int) (x y : Nat) : K :=
  ssimAt kernel (pixel imgA width height imgAStep imgAStride)
    (pixel imgB width height imgBStep imgBStride) (x : Int) (y : Int)

/-- A convolution kernel as the specification describes it: non-negative weights that
add up to one. -/
def KernelOk {K : Type} [LinearOrderedField K] (kernel : Mem K) : Prop :=
  (∀ j i : Nat, j < 2 * radius + 1 → i < 2 * radius + 1 →
    0 ≤ kernel ((j : Int) * (2 * (radius : Int) + 1) + i)) ∧
  ∑ j in Finset.range (2 * radius + 1), ∑ i in Finset.range (2 * radius + 1),
    kernel ((j : Int) * (2 * (radius : Int) + 1) + i) = 1

/-- The two tile loop headers of `compute_ssim` with the tile body replaced by a record of
the tile visited: origin `(tx, ty)` and extent `(tw, th)`, in the order of the visits. -/
def visitedTiles (fuel width height : Nat) : Option (List (Nat × Nat × Nat × Nat)) :=
  tileLoop height
    (fun ty acc =>
      let th := min tileSize (height - ty)
      tileLoop width
        (fun tx acc =>
          let tw := min tileSize (width - tx)
          some (acc ++ [(tx, ty, tw, th)]))
        fuel 0 acc)
    fuel 0 []

theorem forRange_succ_last {σ : Type} (body : Int → σ → σ) (n : Nat) :
    ∀ (lo : Int) (s : σ),
      forRange lo (n + 1) body s = body (lo + n) (forRange lo n body s) := by
  induction n with
  | zero => intro lo s; simp [forRange]
  | succ k ih =>
    intro lo s
    rw [forRange, ih (lo + 1) (body lo s)]
    have e : lo + 1 + (k : Int) = lo + ((k + 1 : Nat) : Int) := by push_cast; ring
    rw [e]
    rfl

/-- Invariant rule for a counted loop. -/
theorem forRange_inv {σ : Type} (P : Nat → σ → Prop) (lo : Int) (n : Nat)
    (body : Int → σ → σ) (s : σ) (h0 : P 0 s)
    (hstep : ∀ k, k < n → ∀ t, P k t → P (k + 1) (body (lo + k) t)) :
    P n (forRange lo n body s) := by
  induction n with
  | zero => exact h0
  | succ k ih =>
    rw [forRange_succ_last]
    exact hstep k (Nat.lt_succ_self k) _ (ih (fun j hj t ht => hstep j (Nat.lt_succ_of_lt hj) t ht))

/-! ### `align_up` -/

theorem land_mask (x k : Nat) (hk : k ≤ 64) (hx : x < 2 ^ 64) :
    Nat.land x (2 ^ 64 - 1 - (2 ^ k - 1)) = x / 2 ^ k * 2 ^ k := by
  apply Nat.eq_of_testBit_eq
  intro i
  have h1 : 2 ^ 64 - 1 - (2 ^ k - 1) = 2 ^ k * (2 ^ (64 - k) - 1) := by
    have : 2 ^ 64 = 2 ^ k * 2 ^ (64 - k) := by
      rw [← pow_add]; congr 1; omega
    have hp : 0 < 2 ^ k := Nat.pow_pos (by norm_num)
    rw [Nat.mul_sub, ← this]; omega
  show (x &&& (2 ^ 64 - 1 - (2 ^ k - 1))).testBit i = _
  rw [Nat.testBit_and, h1, Nat.testBit_mul_pow_two, Nat.testBit_two_pow_sub_one,
    Nat.mul_comm (x / 2 ^ k), Nat.testBit_mul_pow_two, ← Nat.shiftRight_eq_div_pow,
    Nat.testBit_shiftRight]
  by_cases hik : k ≤ i
  · have hxi : i < 64 ∨ x.testBit i = false := by
      by_cases h : i < 64
      · exact Or.inl h
      · right
        apply Nat.testBit_lt_two_pow
        exact lt_of_lt_of_le hx (Nat.pow_le_pow_right (by norm_num) (by omega))
    have e : k + (i - k) = i := by omega
    rcases hxi with h | h
    · simp [hik, e]; intro _; omega
    · simp [hik, e, h]
  · simp [hik]

theorem align_up_eq (size k : Nat) (hk : k ≤ 64) (hs : size + (2 ^ k - 1) < 2 ^ 64) :
    align_up size (2 ^ k) = (size + (2 ^ k - 1)) / 2 ^ k * 2 ^ k := by
  unfold align_up
  rw [Nat.mod_eq_of_lt hs, land_mask _ k hk hs]

theorem align_up_least (size k : Nat) (hk : k ≤ 64) (hs : size + (2 ^ k - 1) < 2 ^ 64) :
    size ≤ align_up size (2 ^ k) ∧ 2 ^ k ∣ align_up size (2 ^ k) ∧
      ∀ m, size ≤ m → 2 ^ k ∣ m → align_up size (2 ^ k) ≤ m := by
  rw [align_up_eq size k hk hs]
  have hp : 0 < 2 ^ k := Nat.pow_pos (by norm_num)
  generalize 2 ^ k = a at *
  refine ⟨?_, Dvd.intro_left _ rfl, ?_⟩
  · have h1 := Nat.div_add_mod (size + (a - 1)) a
    have h2 := Nat.mod_lt (size + (a - 1)) hp
    rw [Nat.mul_comm] at h1
    omega
  · rintro m hm ⟨c, rfl⟩
    rw [Nat.mul_comm a c]
    apply Nat.mul_le_mul_right
    apply Nat.le_of_lt_succ
    rw [Nat.div_lt_iff_lt_mul hp]
    have hc := Nat.mul_comm a c
    have hd : (c + 1) * a = c * a + a := by ring
    show size + (a - 1) < (c + 1) * a
    omega

theorem bufStride_eq (width margin : Nat) (hw : width + 2 * margin < 2 ^ 32) :
    Image.bufStride width margin = (width + 2 * margin + 15) / 16 * 16 := by
  unfold Image.bufStride Image.actualWidth CACHE_ALIGNMENT sizeofFloat
  rw [Nat.mod_eq_of_lt hw]
  have := align_up_eq ((width + 2 * margin) * 4) 6 (by norm_num) (by norm_num; omega)
  norm_num at this
  rw [this]
  omega

theorem bufStride_least (width margin : Nat) (hw : width + 2 * margin < 2 ^ 32) :
    width + 2 * margin ≤ Image.bufStride width margin ∧
      64 ∣ Image.bufStride width margin * sizeofFloat ∧
      ∀ s, width + 2 * margin ≤ s → 64 ∣ s * sizeofFloat → Image.bufStride width margin ≤ s := by
  rw [bufStride_eq width margin hw]
  unfold sizeofFloat
  refine ⟨by omega, by omega, ?_⟩
  intro s hs hd
  omega

theorem Image_init_ok {K : Type} (g_alloc : Nat → Nat → Option (Mem K))
    (width height margin : Nat) (img : Image K)
    (h : Image.init g_alloc width height margin = .ok img) :
    img.m_stride = Image.bufStride width margin ∧ img.m_width = width ∧
      img.m_height = height ∧ img.m_margin = margin ∧
      img.m_size = Image.bufSize width height margin / sizeofFloat ∧
      g_alloc (Image.bufSize width height margin) CACHE_ALIGNMENT = some img.m_buffer := by
  unfold Image.init at h
  split at h
  · cases h
  · rename_i buf hb
    injection h with h
    subst h
    exact ⟨rfl, rfl, rfl, rfl, rfl, hb⟩

theorem Image_initData_ok {K : Type} [NatCast K] (g_alloc : Nat → Nat → Option (Mem K))
    (data : Int → Nat) (width height : Nat) (step stride : Int) (margin : Nat) (img : Image K)
    (h : Image.initData g_alloc data width height step stride margin = .ok img) :
    img.m_stride = Image.bufStride width margin ∧ img.m_width = width ∧
      img.m_height = height ∧ img.m_margin = margin ∧
      img.m_size = Image.bufSize width height margin / sizeofFloat := by
  unfold Image.initData at h
  simp only at h
  split at h
  · cases h
  · injection h with h
    subst h
    exact ⟨rfl, rfl, rfl, rfl, rfl⟩

/-! ### C16, C17: allocation size and stride of `Image::init` -/

theorem bufSize_eq (width height margin : Nat) (hh : height + 2 * margin < 2 ^ 32)
    (hfit : Image.bufStride width margin * (height + 2 * margin) * sizeofFloat < 2 ^ 64) :
    Image.bufSize width height margin =
      Image.bufStride width margin * (height + 2 * margin) * sizeofFloat := by
  unfold Image.bufSize Image.actualHeight
  rw [Nat.mod_eq_of_lt hh, Nat.mod_eq_of_lt hfit]

/-- C16 (as amended): for `width + 2*margin` and `height + 2*margin` below `2^32` and a
byte count that fits `size_t`, `Image::init(width, height, margin)` asks the allocator
for `stride × (height + 2*margin)` floats (not `(width + 2*margin) × stride`), 64-byte
aligned, where `stride` is the least number of floats `≥ width + 2*margin` whose byte size
is a multiple of 64; it fails with `-ENOMEM` exactly when that request is refused. -/
theorem init_requests_stride_times_rows {K : Type} (g_alloc : Nat → Nat → Option (Mem K))
    (width height margin : Nat) (hw : width + 2 * margin < 2 ^ 32)
    (hh : height + 2 * margin < 2 ^ 32)
    (hfit : Image.bufStride width margin * (height + 2 * margin) * sizeofFloat < 2 ^ 64) :
    Image.init g_alloc width height margin =
        (match g_alloc (Image.bufStride width margin * (height + 2 * margin) * sizeofFloat) 64 with
         | none => .error (-ENOMEM)
         | some buf => .ok { m_buffer := buf
                             m_size := Image.bufStride width margin * (height + 2 * margin)
                             m_width := width
                             m_height := height
                             m_stride := Image.bufStride width margin
                             m_margin := margin }) ∧
      width + 2 * margin ≤ Image.bufStride width margin ∧
      64 ∣ Image.bufStride width margin * sizeofFloat ∧
      ∀ s, width + 2 * margin ≤ s → 64 ∣ s * sizeofFloat → Image.bufStride width margin ≤ s := by
  refine ⟨?_, bufStride_least width margin hw⟩
  unfold Image.init
  rw [bufSize_eq width height margin hh hfit]
  have e : Image.bufStride width margin * (height + 2 * margin) * sizeofFloat / sizeofFloat =
      Image.bufStride width margin * (height + 2 * margin) := by
    unfold sizeofFloat; omega
  rw [e]
  rfl

/-- C16, witness: a 3x1 image with margin 2 and an allocator that grants everything. -/
theorem init_requests_stride_times_rows_witness :
    Image.init (fun _ _ => some (fun _ => (0 : ℚ))) 3 1 2 =
        (match (fun _ _ => some (fun _ => (0 : ℚ)) : Nat → Nat → Option (Mem ℚ))
            (Image.bufStride 3 2 * (1 + 2 * 2) * sizeofFloat) 64 with
         | none => .error (-ENOMEM)
         | some buf => .ok { m_buffer := buf
                             m_size := Image.bufStride 3 2 * (1 + 2 * 2)
                             m_width := 3
                             m_height := 1
                             m_stride := Image.bufStride 3 2
                             m_margin := 2 }) ∧
      3 + 2 * 2 ≤ Image.bufStride 3 2 :=
  have h := init_requests_stride_times_rows (fun _ _ => some (fun _ => (0 : ℚ))) 3 1 2
    (by decide) (by decide) (by decide)
  ⟨h.1, h.2.1⟩

/-- C16, counterexample: for a 1x3 image without margin the stride is 16 floats and the
request is 192 bytes, i.e. 48 = 16 × 3 floats, not `(width + 2*margin) × stride` = 16
floats; an allocator that grants at most the 64 bytes of the latter makes `init` fail. -/
theorem init_request_counterexample :
    Image.bufStride 1 0 = 16 ∧ Image.bufSize 1 3 0 = 192 ∧
      Image.bufSize 1 3 0 ≠ (1 + 2 * 0) * Image.bufStride 1 0 * sizeofFloat ∧
      Image.init (fun size _ => if size ≤ (1 + 2 * 0) * Image.bufStride 1 0 * sizeofFloat
          then some (fun _ => (0 : ℚ)) else none) 1 3 0 = .error (-ENOMEM) := by
  refine ⟨by decide, by decide, by decide, ?_⟩
  rfl

/-- C17: after a successful `Image::init` (either overload) with `width + 2*margin` below
`2^32`, the stored stride is at least `width + 2*margin`, its byte size is a multiple of
64, and it is the least such number of floats; more generally `align_up n a` for a power
of two `a` is the least multiple of `a` that is `≥ n` (for `n + a - 1` within `size_t`). -/
theorem init_stride_is_least_aligned {K : Type} [NatCast K]
    (g_alloc : Nat → Nat → Option (Mem K)) (data : Int → Nat) (width height : Nat)
    (step stride : Int) (margin : Nat) (img : Image K)
    (hw : width + 2 * margin < 2 ^ 32)
    (h : Image.init g_alloc width height margin = .ok img ∨
      Image.initData g_alloc data width height step stride margin = .ok img) :
    (width + 2 * margin ≤ img.m_stride ∧ 64 ∣ img.m_stride * sizeofFloat ∧
      ∀ s, width + 2 * margin ≤ s → 64 ∣ s * sizeofFloat → img.m_stride ≤ s) ∧
    ∀ n k, k ≤ 64 → n + (2 ^ k - 1) < 2 ^ 64 →
      n ≤ align_up n (2 ^ k) ∧ 2 ^ k ∣ align_up n (2 ^ k) ∧
        ∀ m, n ≤ m → 2 ^ k ∣ m → align_up n (2 ^ k) ≤ m := by
  refine ⟨?_, fun n k hk hn => align_up_least n k hk hn⟩
  have hs : img.m_stride = Image.bufStride width margin := by
    rcases h with h | h
    · exact (Image_init_ok g_alloc width height margin img h).1
    · exact (Image_initData_ok g_alloc data width height step stride margin img h).1
  rw [hs]
  exact bufStride_least width margin hw

/-- C17, witness: the 3x1 image with margin 2 gets a stride of 16 floats. -/
theorem init_stride_is_least_aligned_witness :
    3 + 2 * 2 ≤ 16 ∧ 64 ∣ 16 * sizeofFloat ∧
      ∀ s, 3 + 2 * 2 ≤ s → 64 ∣ s * sizeofFloat → 16 ≤ s :=
  (init_stride_is_least_aligned (fun _ _ => some (fun _ => (0 : ℚ))) (fun _ => 0) 3 1 1 3 2
    { m_buffer := fun _ => 0, m_size := 80, m_width := 3, m_height := 1, m_stride := 16,
      m_margin := 2 } (by decide) (Or.inl rfl)).1

/-! ### Row-major addressing -/

theorem write_same {K : Type} (m : Mem K) (p : Int) (v : K) : write m p v p = v := by
  simp [write]

theorem write_other {K : Type} (m : Mem K) (p q : Int) (v : K) (h : q ≠ p) :
    write m p v q = m q := by
  simp [write, h]

/-- Row-major offsets `y * stride + x` with `x < width ≤ stride` determine `(y, x)`. -/
theorem idx_inj (stride : Int) (width : Nat) (hws : (width : Int) ≤ stride)
    (y y' x x' : Nat) (hx : x < width) (hx' : x' < width)
    (h : (y : Int) * stride + x = (y' : Int) * stride + x') : y = y' ∧ x = x' := by
  have hx1 : (x : Int) < width := by exact_mod_cast hx
  have hx2 : (x' : Int) < width := by exact_mod_cast hx'
  have hx3 : (0 : Int) ≤ x := Int.ofNat_nonneg x
  have hx4 : (0 : Int) ≤ x' := Int.ofNat_nonneg x'
  rcases lt_trichotomy y y' with hlt | heq | hgt
  · exfalso
    have h1 : (y : Int) + 1 ≤ y' := by exact_mod_cast hlt
    have h2 : ((y : Int) + 1) * stride ≤ (y' : Int) * stride :=
      mul_le_mul_of_nonneg_right h1 (by linarith)
    nlinarith
  · subst heq
    refine ⟨rfl, ?_⟩
    have : (x : Int) = x' := by linarith
    exact_mod_cast this
  · exfalso
    have h1 : (y' : Int) + 1 ≤ y := by exact_mod_cast hgt
    have h2 : ((y' : Int) + 1) * stride ≤ (y : Int) * stride :=
      mul_le_mul_of_nonneg_right h1 (by linarith)
    nlinarith

section
variable {K : Type} [Mul K]

theorem src_unwritten (product src : Int) (width height : Nat) (stride : Int)
    (hws : (width : Int) ≤ stride) (hs : SameOrDisjoint product src width height stride)
    (k j : Nat) (hk : k < height) (hj : j < width) (y x : Nat) (hx : x < width)
    (hd : Done k j y x) : src + k * stride + j ≠ product + y * stride + x := by
  intro e
  rcases hs with rfl | hdis
  · have := idx_inj stride width hws k y j x hj hx (by linarith)
    rcases hd with h | ⟨h1, h2⟩ <;> omega
  · have hy : y < height := by rcases hd with h | ⟨h1, _⟩ <;> omega
    exact hdis (product + y * stride + x) ⟨y, x, hy, hx, rfl⟩ ⟨k, j, hk, hj, e.symm⟩

theorem multiply_cell (M : Mem K) (product a b : Int) (width height : Nat) (stride : Int)
    (hws : (width : Int) ≤ stride)
    (ha : SameOrDisjoint product a width height stride)
    (hb : SameOrDisjoint product b width height stride)
    (k j : Nat) (hk : k < height) (hj : j < width) (c : MulCursor K)
    (h : MulInv M product a b width stride k j c) :
    MulInv M product a b width stride k (j + 1)
      { m := write c.m c.product (c.m c.a * c.m c.b)
        product := c.product + 1, a := c.a + 1, b := c.b + 1 } := by
  obtain ⟨hp, hca, hcb, hW, hF⟩ := h
  have ra : c.m c.a = M (a + k * stride + j) := by
    rw [hca]
    exact hF _ (fun y x hx hd => src_unwritten product a width height stride hws ha k j hk hj y x hx hd)
  have rb : c.m c.b = M (b + k * stride + j) := by
    rw [hcb]
    exact hF _ (fun y x hx hd => src_unwritten product b width height stride hws hb k j hk hj y x hx hd)
  refine ⟨by simp only [hp]; push_cast; ring, by simp only [hca]; push_cast; ring,
    by simp only [hcb]; push_cast; ring, ?_, ?_⟩
  · intro y x hx hd
    by_cases hyx : y = k ∧ x = j
    · obtain ⟨rfl, rfl⟩ := hyx
      simp only [hp, write_same, ra, rb]
    · have hd' : Done k j y x := by
        rcases hd with h | ⟨h1, h2⟩
        · exact Or.inl h
        · exact Or.inr ⟨h1, by omega⟩
      have hne : product + y * stride + x ≠ c.product := by
        rw [hp]
        intro e
        have := idx_inj stride width hws y k x j hx hj (by linarith)
        exact hyx this
      simp only [write_other _ _ _ _ hne]
      exact hW y x hx hd'
  · intro q hq
    have hne : q ≠ c.product := by
      rw [hp]; exact hq k j hj (Or.inr ⟨rfl, Nat.lt_succ_self j⟩)
    simp only [write_other _ _ _ _ hne]
    apply hF
    intro y x hx hd
    apply hq y x hx
    rcases hd with h | ⟨h1, h2⟩
    · exact Or.inl h
    · exact Or.inr ⟨h1, Nat.lt_succ_of_lt h2⟩

theorem multiply_inv (M : Mem K) (product a b : Int) (width height : Nat) (stride : Int)
    (hws : (width : Int) ≤ stride)
    (ha : SameOrDisjoint product a width height stride)
    (hb : SameOrDisjoint product b width height stride) :
    (∀ y x : Nat, y < height → x < width →
      multiply M product a b width height stride (product + y * stride + x) =
        M (a + y * stride + x) * M (b + y * stride + x)) ∧
    (∀ q : Int, (∀ y x : Nat, y < height → x < width → q ≠ product + y * stride + x) →
      multiply M product a b width height stride q = M q) := by
  have key : MulInv M product a b width stride height 0
      (forRange 0 height
        (fun _ (c : MulCursor K) =>
          let c := forRange 0 width
            (fun _ (c : MulCursor K) =>
              { m := write c.m c.product (c.m c.a * c.m c.b)
                product := c.product + 1, a := c.a + 1, b := c.b + 1 }) c
          { c with a := c.a + (stride - width)
                   b := c.b + (stride - width)
                   product := c.product + (stride - width) })
        ({ m := M, product := product, a := a, b := b } : MulCursor K)) := by
    apply forRange_inv (fun k c => MulInv M product a b width stride k 0 c)
    · refine ⟨by simp, by simp, by simp, ?_, ?_⟩
      · intro y x _ hd
        rcases hd with h | ⟨_, h⟩ <;> omega
      · intro q _; rfl
    · intro k hk c hc
      have hrow : MulInv M product a b width stride k width
          (forRange 0 width
            (fun _ (c : MulCursor K) =>
              { m := write c.m c.product (c.m c.a * c.m c.b)
                product := c.product + 1, a := c.a + 1, b := c.b + 1 }) c) := by
        apply forRange_inv (fun j c => MulInv M product a b width stride k j c)
        · exact hc
        · intro j hj t ht
          exact multiply_cell M product a b width height stride hws ha hb k j hk hj t ht
      obtain ⟨hp, hca, hcb, hW, hF⟩ := hrow
      refine ⟨by simp only [hp]; push_cast; ring, by simp only [hca]; push_cast; ring,
        by simp only [hcb]; push_cast; ring, ?_, ?_⟩
      · intro y x hx hd
        apply hW y x hx
        rcases hd with h | ⟨_, h⟩
        · rcases Nat.lt_succ_iff_lt_or_eq.mp h with h' | h'
          · exact Or.inl h'
          · exact Or.inr ⟨h', hx⟩
        · omega
      · intro q hq
        apply hF
        intro y x hx hd
        apply hq y x hx
        rcases hd with h | ⟨h1, _⟩
        · exact Or.inl (Nat.lt_succ_of_lt h)
        · exact Or.inl (by omega)
  obtain ⟨_, _, _, hW, hF⟩ := key
  constructor
  · intro y x hy hx
    exact hW y x hx (Or.inl hy)
  · intro q hq
    apply hF
    intro y x hx hd
    rcases hd with h | ⟨_, h⟩
    · exact hq y x h hx
    · omega

end

/-- C19: for `stride ≥ width`, the tile `multiply` stores in every cell
`product[y*stride + x]`, `x < width`, `y < height`, the product of the values `a` and `b`
held at that offset before the call, and leaves every other float unchanged; this holds
when `product` shares no cell with `a` (resp. `b`) and also when it is the same tile as
`a` (resp. `b`), i.e. in place. -/
theorem multiply_tile_spec {K : Type} [Mul K] (M : Mem K) (product a b : Int)
    (width height : Nat) (stride : Int) (hws : (width : Int) ≤ stride)
    (ha : a = product ∨
      ∀ q, Region product width height stride q → ¬ Region a width height stride q)
    (hb : b = product ∨
      ∀ q, Region product width height stride q → ¬ Region b width height stride q) :
    (∀ y x : Nat, y < height → x < width →
      multiply M product a b width height stride (product + y * stride + x) =
        M (a + y * stride + x) * M (b + y * stride + x)) ∧
    (∀ q : Int, (∀ y x : Nat, y < height → x < width → q ≠ product + y * stride + x) →
      multiply M product a b width height stride q = M q) :=
  multiply_inv M product a b width height stride hws ha hb

/-- C19, witness: a 2x2 tile with stride 3 multiplied in place (`product = a` at address
0) by a separate tile `b` at address 100. -/
theorem multiply_tile_spec_witness :
    multiply (fun q : Int => (q : ℚ)) 0 0 100 2 2 3 4 = 416 ∧
      multiply (fun q : Int => (q : ℚ)) 0 0 100 2 2 3 2 = 2 := by
  have h := multiply_tile_spec (fun q : Int => (q : ℚ)) 0 0 100 2 2 3 (by decide) (Or.inl rfl)
    (Or.inr (by
      rintro q ⟨y, x, hy, hx, rfl⟩ ⟨y', x', hy', hx', e⟩
      omega))
  have h1 := h.1 1 1 (by decide) (by decide)
  have h2 := h.2 2 (by
    intro y x hy hx
    omega)
  norm_num at h1 h2
  exact ⟨h1, h2⟩

section
variable {K : Type} [Field K]

theorem gaussian_kernel_even (expf : K → K) (pi : K) (x y x' y' : Int) (sigma : K)
    (h : x * x + y * y = x' * x' + y' * y') :
    gaussian_kernel expf pi x y sigma = gaussian_kernel expf pi x' y' sigma := by
  unfold gaussian_kernel
  simp only [h]

theorem kernel_cell (expf : K → K) (pi : K) (r : Nat) (sigma : K) (k j : Nat)
    (hj : j < 2 * r + 1) (st : KernelState K) (p : Int) (v : K)
    (hp : p = (k : Int) * (2 * (r : Int) + 1) + j)
    (hv : v = kernelWeight expf pi r sigma k j)
    (h : KernelInv expf pi r sigma k j st) :
    KernelInv expf pi r sigma k (j + 1)
      { kernel := write st.kernel p v, sum := st.sum + v } := by
  obtain ⟨hW, hS⟩ := h
  constructor
  · intro y x hx hd
    by_cases hyx : y = k ∧ x = j
    · obtain ⟨rfl, rfl⟩ := hyx
      simp only [hp, write_same, hv]
    · have hne : (y : Int) * (2 * (r : Int) + 1) + x ≠ p := by
        rw [hp]
        intro e
        exact hyx (idx_inj (2 * (r : Int) + 1) (2 * r + 1) (by push_cast; exact le_refl _)
          y k x j hx hj e)
      simp only [write_other _ _ _ _ hne]
      apply hW y x hx
      rcases hd with h | ⟨h1, h2⟩
      · exact Or.inl h
      · exact Or.inr ⟨h1, by omega⟩
  · simp only [hS, hv, Finset.sum_range_succ]
    ring

theorem kernel_row_done (expf : K → K) (pi : K) (r : Nat) (sigma : K) (k : Nat)
    (st : KernelState K) (h : KernelInv expf pi r sigma k (2 * r + 1) st) :
    KernelInv expf pi r sigma (k + 1) 0 st := by
  obtain ⟨hW, hS⟩ := h
  constructor
  · intro y x hx hd
    apply hW y x hx
    rcases hd with h | ⟨_, h⟩
    · rcases Nat.lt_succ_iff_lt_or_eq.mp h with h' | h'
      · exact Or.inl h'
      · exact Or.inr ⟨h', hx⟩
    · omega
  · simp only [hS, Finset.sum_range_succ, Finset.sum_range_zero, add_zero]

/-- One row of the first phase (rows `0..r`): computed half, then mirrored half. -/
theorem kernel_phase1_row (expf : K → K) (pi : K) (r : Nat) (sigma : K) (k : Nat)
    (st : KernelState K) (h : KernelInv expf pi r sigma k 0 st) :
    KernelInv expf pi r sigma (k + 1) 0
      (forRange ((r : Int) + 1) (2 * (r : Int) + 1 - ((r : Int) + 1)).toNat
        (fun x st =>
          let v := st.kernel (((0 : Int) + k) * (2 * (r : Int) + 1) + (2 * (r : Int) + 1 - 1 - x))
          { kernel := write st.kernel (((0 : Int) + k) * (2 * (r : Int) + 1) + x) v
            sum := st.sum + v })
        (forRange 0 ((r : Int) + 1).toNat
          (fun x st =>
            let v := gaussian_kernel expf pi (x - (r : Int)) (((0 : Int) + k) - (r : Int)) sigma
            { kernel := write st.kernel (((0 : Int) + k) * (2 * (r : Int) + 1) + x) v
              sum := st.sum + v }) st)) := by
  have e1 : ((r : Int) + 1).toNat = r + 1 := by omega
  have e2 : (2 * (r : Int) + 1 - ((r : Int) + 1)).toNat = r := by omega
  rw [e1, e2]
  apply kernel_row_done
  have hA : KernelInv expf pi r sigma k (r + 1)
      (forRange 0 (r + 1)
        (fun x st =>
          let v := gaussian_kernel expf pi (x - (r : Int)) (((0 : Int) + k) - (r : Int)) sigma
          { kernel := write st.kernel (((0 : Int) + k) * (2 * (r : Int) + 1) + x) v
            sum := st.sum + v }) st) := by
    apply forRange_inv (fun j st => KernelInv expf pi r sigma k j st)
    · exact h
    · intro j hj t ht
      exact kernel_cell expf pi r sigma k j (by omega) t _ _ (by ring)
        (by unfold kernelWeight; simp only [zero_add]) ht
  have hB := forRange_inv (fun j st => KernelInv expf pi r sigma k (r + 1 + j) st)
    ((r : Int) + 1) r
    (fun x st =>
      let v := st.kernel (((0 : Int) + k) * (2 * (r : Int) + 1) + (2 * (r : Int) + 1 - 1 - x))
      { kernel := write st.kernel (((0 : Int) + k) * (2 * (r : Int) + 1) + x) v
        sum := st.sum + v }) _ hA
    (by
      intro j hj t ht
      have hread : t.kernel (((0 : Int) + k) * (2 * (r : Int) + 1) +
          (2 * (r : Int) + 1 - 1 - ((r : Int) + 1 + j))) =
          kernelWeight expf pi r sigma k (r + 1 + j) := by
        have e : ((0 : Int) + k) * (2 * (r : Int) + 1) +
            (2 * (r : Int) + 1 - 1 - ((r : Int) + 1 + j)) =
            (k : Int) * (2 * (r : Int) + 1) + ((r - 1 - j : Nat) : Int) := by
          have : ((r - 1 - j : Nat) : Int) = (r : Int) - 1 - j := by omega
          rw [this]; ring
        rw [e, ht.1 k (r - 1 - j) (by omega) (Or.inr ⟨rfl, by omega⟩)]
        unfold kernelWeight
        apply gaussian_kernel_even
        have : ((r - 1 - j : Nat) : Int) = (r : Int) - 1 - j := by omega
        rw [this]; push_cast; ring
      exact kernel_cell expf pi r sigma k (r + 1 + j) (by omega) t _ _
        (by push_cast; ring) hread ht)
  have e3 : r + 1 + r = 2 * r + 1 := by ring
  simp only [e3] at hB
  exact hB

end

section
variable {K : Type} [Field K]

theorem KernelInv_congr (expf : K → K) (pi : K) (r : Nat) (sigma : K) (k k' : Nat)
    (st : KernelState K) (e : k = k') (h : KernelInv expf pi r sigma k 0 st) :
    KernelInv expf pi r sigma k' 0 st := e ▸ h

/-- One row of the second phase (rows `r+1..2r`): mirrored from row `2r - y`. -/
theorem kernel_phase2_row (expf : K → K) (pi : K) (r : Nat) (sigma : K) (k : Nat) (hk : k < r)
    (st : KernelState K) (h : KernelInv expf pi r sigma (r + 1 + k) 0 st) :
    KernelInv expf pi r sigma (r + 1 + k + 1) 0
      (forRange 0 (2 * (r : Int) + 1).toNat
        (fun x st =>
          let v := st.kernel ((2 * (r : Int) + 1 - 1 - ((r : Int) + 1 + k)) * (2 * (r : Int) + 1) + x)
          { kernel := write st.kernel (((r : Int) + 1 + k) * (2 * (r : Int) + 1) + x) v
            sum := st.sum + v }) st) := by
  have e1 : (2 * (r : Int) + 1).toNat = 2 * r + 1 := by omega
  rw [e1]
  apply kernel_row_done
  apply forRange_inv (fun j st => KernelInv expf pi r sigma (r + 1 + k) j st)
  · exact h
  · intro j hj t ht
    have hread : t.kernel ((2 * (r : Int) + 1 - 1 - ((r : Int) + 1 + k)) * (2 * (r : Int) + 1) +
        ((0 : Int) + j)) = kernelWeight expf pi r sigma (r + 1 + k) j := by
      have hc : ((r - 1 - k : Nat) : Int) = (r : Int) - 1 - k := by omega
      have e : (2 * (r : Int) + 1 - 1 - ((r : Int) + 1 + k)) * (2 * (r : Int) + 1) +
          ((0 : Int) + j) = ((r - 1 - k : Nat) : Int) * (2 * (r : Int) + 1) + j := by
        rw [hc]; ring
      rw [e, ht.1 (r - 1 - k) j hj (Or.inl (by omega))]
      unfold kernelWeight
      apply gaussian_kernel_even
      rw [hc]; push_cast; ring
    exact kernel_cell expf pi r sigma (r + 1 + k) j hj t _ _ (by push_cast; ring) hread ht

theorem kernelFill_inv (expf : K → K) (pi : K) (junk : Mem K) (r : Nat) (sigma : K) :
    KernelInv expf pi r sigma (2 * r + 1) 0 (kernelFill expf pi junk r sigma) := by
  unfold kernelFill
  simp only
  apply KernelInv_congr expf pi r sigma (r + 1 + r) (2 * r + 1) _ (by ring)
  have e2 : (2 * (r : Int) + 1 - ((r : Int) + 1)).toNat = r := by omega
  have e1 : ((r : Int) + 1).toNat = r + 1 := by omega
  rw [e2]
  refine forRange_inv (fun k st => KernelInv expf pi r sigma (r + 1 + k) 0 st) _ _ _ _ ?_ ?_
  · rw [e1]
    refine forRange_inv (fun k st => KernelInv expf pi r sigma k 0 st) _ _ _ _ ?_ ?_
    · constructor
      · intro y x _ hd
        rcases hd with h | ⟨_, h⟩ <;> omega
      · simp
    · intro k _ t ht
      have := kernel_phase1_row expf pi r sigma k t ht
      rw [e1, e2] at this
      exact this
  · intro k hk t ht
    exact kernel_phase2_row expf pi r sigma k hk t ht

theorem normalize_spec (s : K) (n : Nat) (m0 : Mem K) (q : Int) :
    forRange 0 n (fun i kernel => write kernel i (kernel i / s)) m0 q =
      if 0 ≤ q ∧ q < n then m0 q / s else m0 q := by
  have key := forRange_inv
    (fun k (m : Mem K) => ∀ q : Int, m q = if 0 ≤ q ∧ q < k then m0 q / s else m0 q)
    0 n (fun i kernel => write kernel i (kernel i / s)) m0
    (by
      intro q
      have h1 : ¬ ((0 : Int) ≤ q ∧ q < ((0 : Nat) : Int)) := by omega
      rw [if_neg h1])
    (by
      intro k _ t ht q
      show write t ((0 : Int) + k) (t ((0 : Int) + k) / s) q = _
      by_cases hq : q = (0 : Int) + k
      · subst hq
        rw [write_same, ht]
        have h1 : ¬ ((0 : Int) ≤ 0 + k ∧ (0 : Int) + k < k) := by omega
        have h2 : (0 : Int) ≤ 0 + k ∧ (0 : Int) + k < ((k + 1 : Nat) : Int) := by omega
        rw [if_neg h1, if_pos h2]
      · rw [write_other _ _ _ _ hq, ht]
        by_cases h1 : 0 ≤ q ∧ q < k
        · have h2 : 0 ≤ q ∧ q < ((k + 1 : Nat) : Int) := by omega
          rw [if_pos h1, if_pos h2]
        · have h2 : ¬ (0 ≤ q ∧ q < ((k + 1 : Nat) : Int)) := by omega
          rw [if_neg h1, if_neg h2])
  exact key q

theorem kernelFill_sum (expf : K → K) (pi : K) (junk : Mem K) (r : Nat) (sigma : K) :
    (kernelFill expf pi junk r sigma).sum = kernelTotal expf pi r sigma := by
  rw [(kernelFill_inv expf pi junk r sigma).2]
  unfold kernelTotal
  simp

/-- The array built by `precompute_gaussian_kernel`: every cell holds its Gaussian weight
divided by the total of all weights. -/
theorem precompute_gaussian_kernel_cell (expf : K → K) (pi : K) (junk : Mem K) (r : Nat)
    (sigma : K) (y x : Nat) (hy : y < 2 * r + 1) (hx : x < 2 * r + 1) :
    precompute_gaussian_kernel expf pi junk r sigma ((y : Int) * (2 * (r : Int) + 1) + x) =
      kernelWeight expf pi r sigma y x / kernelTotal expf pi r sigma := by
  unfold precompute_gaussian_kernel
  rw [normalize_spec]
  have hidx : (0 : Int) ≤ (y : Int) * (2 * (r : Int) + 1) + x ∧
      (y : Int) * (2 * (r : Int) + 1) + x <
        (((2 * (r : Int) + 1) * (2 * (r : Int) + 1)).toNat : Int) := by
    have hy' : (y : Int) + 1 ≤ 2 * (r : Int) + 1 := by exact_mod_cast hy
    have hx' : (x : Int) < 2 * (r : Int) + 1 := by exact_mod_cast hx
    have hy0 : (0 : Int) ≤ y := Int.ofNat_nonneg y
    have hx0 : (0 : Int) ≤ x := Int.ofNat_nonneg x
    have hr0 : (0 : Int) ≤ r := Int.ofNat_nonneg r
    have hm : ((y : Int) + 1) * (2 * (r : Int) + 1) ≤ (2 * (r : Int) + 1) * (2 * (r : Int) + 1) :=
      mul_le_mul_of_nonneg_right hy' (by linarith)
    have hpos : (0 : Int) ≤ (2 * (r : Int) + 1) * (2 * (r : Int) + 1) := by positivity
    rw [Int.toNat_of_nonneg hpos]
    constructor
    · positivity
    · nlinarith
  rw [if_pos hidx, (kernelFill_inv expf pi junk r sigma).1 y x hx (Or.inl hy), kernelFill_sum]

end

theorem kernelWeight_eq_spec {K : Type} [Field K] (expf : K → K) (pi : K) (r : Nat) (sigma : K)
    (y x : Nat) :
    kernelWeight expf pi r sigma y x =
      gaussianWeightSpec expf pi sigma ((x : Int) - r) ((y : Int) - r) := by
  unfold kernelWeight gaussian_kernel gaussianWeightSpec
  simp only [pow_two]

theorem kernelTotal_eq_spec {K : Type} [Field K] (expf : K → K) (pi : K) (r : Nat) (sigma : K) :
    kernelTotal expf pi r sigma = gaussianTotalSpec expf pi r sigma := by
  unfold kernelTotal gaussianTotalSpec
  simp only [kernelWeight_eq_spec]

/-- C18: the quadrant-mirroring fill of `precompute_gaussian_kernel` gives the array of
the direct evaluation: for all `x, y ≤ 2r`, `kernel[y*(2r+1) + x] = w(x-r, y-r) / S`, and
hence `kernel[y][x] = kernel[y][2r-x] = kernel[2r-y][x]`. -/
theorem kernel_matches_direct_gaussian {K : Type} [Field K] (expf : K → K) (pi : K)
    (junk : Mem K) (r : Nat) (sigma : K) (y x : Nat) (hy : y ≤ 2 * r) (hx : x ≤ 2 * r) :
    precompute_gaussian_kernel expf pi junk r sigma ((y : Int) * (2 * (r : Int) + 1) + x) =
        gaussianWeightSpec expf pi sigma ((x : Int) - r) ((y : Int) - r) /
          gaussianTotalSpec expf pi r sigma ∧
      precompute_gaussian_kernel expf pi junk r sigma ((y : Int) * (2 * (r : Int) + 1) + x) =
        precompute_gaussian_kernel expf pi junk r sigma
          ((y : Int) * (2 * (r : Int) + 1) + (2 * (r : Int) - x)) ∧
      precompute_gaussian_kernel expf pi junk r sigma ((y : Int) * (2 * (r : Int) + 1) + x) =
        precompute_gaussian_kernel expf pi junk r sigma
          ((2 * (r : Int) - y) * (2 * (r : Int) + 1) + x) := by
  have hx' : ((2 * r - x : Nat) : Int) = 2 * (r : Int) - x := by omega
  have hy' : ((2 * r - y : Nat) : Int) = 2 * (r : Int) - y := by omega
  refine ⟨?_, ?_, ?_⟩
  · rw [precompute_gaussian_kernel_cell expf pi junk r sigma y x (by omega) (by omega),
      kernelWeight_eq_spec, kernelTotal_eq_spec]
  · rw [← hx', precompute_gaussian_kernel_cell expf pi junk r sigma y x (by omega) (by omega),
      precompute_gaussian_kernel_cell expf pi junk r sigma y (2 * r - x) (by omega) (by omega)]
    congr 1
    unfold kernelWeight
    apply gaussian_kernel_even
    rw [hx']; ring
  · rw [← hy', precompute_gaussian_kernel_cell expf pi junk r sigma y x (by omega) (by omega),
      precompute_gaussian_kernel_cell expf pi junk r sigma (2 * r - y) x (by omega) (by omega)]
    congr 1
    unfold kernelWeight
    apply gaussian_kernel_even
    rw [hy']; ring

/-- C18, witness: radius 5, sigma 1.5, the cell `(x, y) = (7, 2)`, over the reals with the
real exponential. -/
theorem kernel_matches_direct_gaussian_witness :
    precompute_gaussian_kernel Real.exp Real.pi (fun _ => 0) (5 : Nat) (3 / 2)
        (((2 : Nat) : Int) * (2 * ((5 : Nat) : Int) + 1) + ((7 : Nat) : Int)) =
      gaussianWeightSpec Real.exp Real.pi (3 / 2) (((7 : Nat) : Int) - (5 : Nat))
          (((2 : Nat) : Int) - (5 : Nat)) /
        gaussianTotalSpec Real.exp Real.pi 5 (3 / 2) :=
  (kernel_matches_direct_gaussian Real.exp Real.pi (fun _ => 0) 5 (3 / 2) 2 7
    (by decide) (by decide)).1

section
variable {K : Type} [LinearOrderedField K]

theorem kernelWeight_pos (expf : K → K) (pi : K) (r : Nat) (sigma : K)
    (hexp : ∀ t, 0 < expf t) (hpi : 0 < pi) (hs : 0 < sigma) (y x : Nat) :
    0 < kernelWeight expf pi r sigma y x := by
  unfold kernelWeight gaussian_kernel
  simp only
  exact div_pos (hexp _) (by positivity)

theorem kernelTotal_pos (expf : K → K) (pi : K) (r : Nat) (sigma : K)
    (hexp : ∀ t, 0 < expf t) (hpi : 0 < pi) (hs : 0 < sigma) :
    0 < kernelTotal expf pi r sigma := by
  unfold kernelTotal
  apply Finset.sum_pos
  · intro y _
    apply Finset.sum_pos
    · intro x _
      exact kernelWeight_pos expf pi r sigma hexp hpi hs y x
    · exact ⟨0, Finset.mem_range.mpr (by omega)⟩
  · exact ⟨0, Finset.mem_range.mpr (by omega)⟩

end

/-- A sum over the flat indices of an `n × n` array as a sum over rows and columns. -/
theorem sum_flat_eq_sum_rows {K : Type} [AddCommMonoid K] (f : Nat → K) (n k : Nat) :
    ∑ i in Finset.range (k * n), f i =
      ∑ y in Finset.range k, ∑ x in Finset.range n, f (y * n + x) := by
  induction k with
  | zero => simp
  | succ k ih =>
    rw [Finset.sum_range_succ, ← ih, Nat.succ_mul, Finset.sum_range_add]

theorem kernel_flat_cast (r y x : Nat) :
    (((y * (2 * r + 1) + x : Nat)) : Int) = (y : Int) * (2 * (r : Int) + 1) + x := by
  push_cast; ring

/-- The kernel cells add up to one whenever the total weight is not zero. -/
theorem kernel_sum_rows {K : Type} [Field K] (expf : K → K) (pi : K) (junk : Mem K) (r : Nat)
    (sigma : K) (hS : kernelTotal expf pi r sigma ≠ 0) :
    ∑ y in Finset.range (2 * r + 1), ∑ x in Finset.range (2 * r + 1),
      precompute_gaussian_kernel expf pi junk r sigma ((y : Int) * (2 * (r : Int) + 1) + x) = 1 := by
  have h : ∀ y ∈ Finset.range (2 * r + 1), ∀ x ∈ Finset.range (2 * r + 1),
      precompute_gaussian_kernel expf pi junk r sigma ((y : Int) * (2 * (r : Int) + 1) + x) =
        kernelWeight expf pi r sigma y x / kernelTotal expf pi r sigma := by
    intro y hy x hx
    exact precompute_gaussian_kernel_cell expf pi junk r sigma y x
      (Finset.mem_range.mp hy) (Finset.mem_range.mp hx)
  rw [Finset.sum_congr rfl (fun y hy => Finset.sum_congr rfl (fun x hx => h y hy x hx))]
  simp only [← Finset.sum_div]
  exact div_self hS

/-- C9: for `sigma > 0` (with `exp` positive and `pi > 0`), every one of the `(2r+1)²`
entries written by `precompute_gaussian_kernel` is non-negative and the entries add up to
exactly 1. -/
theorem kernel_nonneg_and_normalized {K : Type} [LinearOrderedField K] (expf : K → K) (pi : K)
    (junk : Mem K) (r : Nat) (sigma : K)
    (hexp : ∀ t, 0 < expf t) (hpi : 0 < pi) (hs : 0 < sigma) :
    (∀ i : Nat, i < (2 * r + 1) * (2 * r + 1) →
      0 ≤ precompute_gaussian_kernel expf pi junk r sigma (i : Int)) ∧
    ∑ i in Finset.range ((2 * r + 1) * (2 * r + 1)),
      precompute_gaussian_kernel expf pi junk r sigma (i : Int) = 1 := by
  have hS := kernelTotal_pos expf pi r sigma hexp hpi hs
  constructor
  · intro i hi
    have hx : i % (2 * r + 1) < 2 * r + 1 := Nat.mod_lt _ (by omega)
    have hy : i / (2 * r + 1) < 2 * r + 1 := Nat.div_lt_of_lt_mul hi
    have e : (i : Int) = ((i / (2 * r + 1) : Nat) : Int) * (2 * (r : Int) + 1) +
        ((i % (2 * r + 1) : Nat) : Int) := by
      rw [← kernel_flat_cast]
      congr 1
      have := Nat.div_add_mod i (2 * r + 1)
      rw [Nat.mul_comm] at this
      exact this.symm
    rw [e, precompute_gaussian_kernel_cell expf pi junk r sigma _ _ hy hx]
    exact le_of_lt (div_pos (kernelWeight_pos expf pi r sigma hexp hpi hs _ _) hS)
  · rw [sum_flat_eq_sum_rows (fun i => precompute_gaussian_kernel expf pi junk r sigma (i : Int))]
    simp only [kernel_flat_cast]
    exact kernel_sum_rows expf pi junk r sigma (ne_of_gt hS)

/-- C9, witness: radius 5 and sigma 1.5 over the reals with the real exponential. -/
theorem kernel_nonneg_and_normalized_witness :
    ∑ i in Finset.range ((2 * 5 + 1) * (2 * 5 + 1)),
      precompute_gaussian_kernel Real.exp Real.pi (fun _ => 0) (5 : Nat) (3 / 2) (i : Int) = 1 :=
  (kernel_nonneg_and_normalized Real.exp Real.pi (fun _ => 0) 5 (3 / 2)
    Real.exp_pos Real.pi_pos (by norm_num)).2

section
variable {K : Type} [Field K]

theorem blurPixel_eq_blurSum (m : Mem K) (srce srceStride : Int) (kernel : Mem K) (r : Nat)
    (xd yd : Int) :
    blurPixel m srce srceStride kernel r xd yd = blurSum m srce srceStride kernel r xd yd := by
  unfold blurPixel
  have e1 : (yd + (r : Int) + 1 - (yd - (r : Int))).toNat = 2 * r + 1 := by omega
  have e2 : (xd + (r : Int) + 1 - (xd - (r : Int))).toNat = 2 * r + 1 := by omega
  rw [e1, e2]
  have key : TapInv m srce srceStride kernel r xd yd (2 * r + 1) 0
      (forRange (yd - (r : Int)) (2 * r + 1)
        (fun ys t =>
          let row := srce + ys * srceStride
          forRange (xd - (r : Int)) (2 * r + 1)
            (fun xs t => { val := t.val + kernel t.k * m (row + xs), k := t.k + 1 }) t)
        ({ val := 0, k := 0 } : TapState K)) := by
    refine forRange_inv (fun j t => TapInv m srce srceStride kernel r xd yd j 0 t) _ _ _ _ ?_ ?_
    · constructor
      · simp
      · simp
    · intro j _ t ht
      have hrow : TapInv m srce srceStride kernel r xd yd j (2 * r + 1)
          (forRange (xd - (r : Int)) (2 * r + 1)
            (fun xs t =>
              { val := t.val + kernel t.k * m (srce + (yd - (r : Int) + j) * srceStride + xs)
                k := t.k + 1 }) t) := by
        refine forRange_inv (fun i t => TapInv m srce srceStride kernel r xd yd j i t) _ _ _ _ ht ?_
        intro i _ t' ht'
        obtain ⟨hk, hv⟩ := ht'
        constructor
        · simp only [hk]; push_cast; ring
        · simp only [hv, hk, Finset.sum_range_succ]
          have ea : srce + (yd - (r : Int) + j) * srceStride + (xd - (r : Int) + i) =
              srce + (yd + j - r) * srceStride + (xd + i - r) := by ring
          rw [ea]
          ring
      obtain ⟨hk, hv⟩ := hrow
      constructor
      · simp only [hk]; push_cast; ring
      · simp only [hv, Finset.sum_range_succ, Finset.sum_range_zero, add_zero]
  obtain ⟨_, hv⟩ := key
  rw [hv]
  unfold blurSum
  simp

theorem blurSum_congr (m m' : Mem K) (srce srceStride : Int) (kernel : Mem K) (r : Nat)
    (x y : Int)
    (h : ∀ j i : Nat, j < 2 * r + 1 → i < 2 * r + 1 →
      m (srce + (y + j - r) * srceStride + (x + i - r)) =
        m' (srce + (y + j - r) * srceStride + (x + i - r))) :
    blurSum m srce srceStride kernel r x y = blurSum m' srce srceStride kernel r x y := by
  unfold blurSum
  apply Finset.sum_congr rfl
  intro j hj
  apply Finset.sum_congr rfl
  intro i hi
  rw [h j i (Finset.mem_range.mp hj) (Finset.mem_range.mp hi)]

end

section
variable {K : Type} [Field K]

theorem blur_cell (M : Mem K) (dest destStride srce srceStride : Int) (width height : Nat)
    (kernel : Mem K) (r : Nat) (hws : (width : Int) ≤ destStride)
    (hdis : ∀ y x y' x' j i : Nat, y < height → x < width → y' < height → x' < width →
      j < 2 * r + 1 → i < 2 * r + 1 →
      srce + ((y : Int) + j - r) * srceStride + ((x : Int) + i - r) ≠
        dest + y' * destStride + x')
    (k j : Nat) (hk : k < height) (hj : j < width) (c : BlurCursor K)
    (h : BlurInv M dest destStride srce srceStride width kernel r k j c) :
    BlurInv M dest destStride srce srceStride width kernel r k (j + 1)
      { m := write c.m c.dest (blurPixel c.m srce srceStride kernel r j k)
        dest := c.dest + 1 } := by
  obtain ⟨hp, hW, hF⟩ := h
  have hval : blurPixel c.m srce srceStride kernel r j k =
      blurSum M srce srceStride kernel r j k := by
    rw [blurPixel_eq_blurSum]
    apply blurSum_congr
    intro j' i' hj' hi'
    apply hF
    intro y x hx hd
    have hy : y < height := by rcases hd with h | ⟨h1, _⟩ <;> omega
    exact hdis k j y x j' i' hk hj hy hx hj' hi'
  refine ⟨by simp only [hp]; push_cast; ring, ?_, ?_⟩
  · intro y x hx hd
    by_cases hyx : y = k ∧ x = j
    · obtain ⟨rfl, rfl⟩ := hyx
      simp only [hp, write_same, hval]
    · have hd' : Done k j y x := by
        rcases hd with h | ⟨h1, h2⟩
        · exact Or.inl h
        · exact Or.inr ⟨h1, by omega⟩
      have hne : dest + y * destStride + x ≠ c.dest := by
        rw [hp]
        intro e
        have := idx_inj destStride width hws y k x j hx hj (by linarith)
        exact hyx this
      simp only [write_other _ _ _ _ hne]
      exact hW y x hx hd'
  · intro q hq
    have hne : q ≠ c.dest := by
      rw [hp]; exact hq k j hj (Or.inr ⟨rfl, Nat.lt_succ_self j⟩)
    simp only [write_other _ _ _ _ hne]
    apply hF
    intro y x hx hd
    apply hq y x hx
    rcases hd with h | ⟨h1, h2⟩
    · exact Or.inl h
    · exact Or.inr ⟨h1, Nat.lt_succ_of_lt h2⟩

theorem gaussian_blur_inv (M : Mem K) (dest destStride srce srceStride : Int)
    (width height : Nat) (kernel : Mem K) (r : Nat) (hws : (width : Int) ≤ destStride)
    (hdis : ∀ y x y' x' j i : Nat, y < height → x < width → y' < height → x' < width →
      j < 2 * r + 1 → i < 2 * r + 1 →
      srce + ((y : Int) + j - r) * srceStride + ((x : Int) + i - r) ≠
        dest + y' * destStride + x') :
    (∀ y x : Nat, y < height → x < width →
      (gaussian_blur M dest destStride srce srceStride width height kernel r).1
          (dest + y * destStride + x) = blurSum M srce srceStride kernel r x y) ∧
    (∀ q : Int, (∀ y x : Nat, y < height → x < width → q ≠ dest + y * destStride + x) →
      (gaussian_blur M dest destStride srce srceStride width height kernel r).1 q = M q) ∧
    (gaussian_blur M dest destStride srce srceStride width height kernel r).2 = 0 := by
  unfold gaussian_blur
  simp only [Int.toNat_ofNat]
  have key : BlurInv M dest destStride srce srceStride width kernel r height 0
      (forRange 0 height
        (fun yd c =>
          let c := forRange 0 width
            (fun xd c =>
              { m := write c.m c.dest (blurPixel c.m srce srceStride kernel r xd yd)
                dest := c.dest + 1 }) c
          { c with dest := c.dest + (destStride - width) })
        ({ m := M, dest := dest } : BlurCursor K)) := by
    refine forRange_inv
      (fun k c => BlurInv M dest destStride srce srceStride width kernel r k 0 c) _ _ _ _ ?_ ?_
    · refine ⟨by simp, ?_, ?_⟩
      · intro y x _ hd
        rcases hd with h | ⟨_, h⟩ <;> omega
      · intro q _; rfl
    · intro k hk c hc
      have hrow : BlurInv M dest destStride srce srceStride width kernel r k width
          (forRange 0 width
            (fun xd c =>
              { m := write c.m c.dest (blurPixel c.m srce srceStride kernel r xd (0 + (k : Int)))
                dest := c.dest + 1 }) c) := by
        refine forRange_inv
          (fun j c => BlurInv M dest destStride srce srceStride width kernel r k j c) _ _ _ _ hc ?_
        intro j hj t ht
        have := blur_cell M dest destStride srce srceStride width height kernel r hws hdis
          k j hk hj t ht
        simpa only [zero_add] using this
      obtain ⟨hp, hW, hF⟩ := hrow
      refine ⟨by simp only [hp]; push_cast; ring, ?_, ?_⟩
      · intro y x hx hd
        apply hW y x hx
        rcases hd with h | ⟨_, h⟩
        · rcases Nat.lt_succ_iff_lt_or_eq.mp h with h' | h'
          · exact Or.inl h'
          · exact Or.inr ⟨h', hx⟩
        · omega
      · intro q hq
        apply hF
        intro y x hx hd
        apply hq y x hx
        rcases hd with h | ⟨h1, _⟩
        · exact Or.inl (Nat.lt_succ_of_lt h)
        · exact Or.inl (by omega)
  obtain ⟨_, hW, hF⟩ := key
  refine ⟨?_, ?_, trivial⟩
  · intro y x hy hx
    exact hW y x hx (Or.inl hy)
  · intro q hq
    apply hF
    intro y x hx hd
    rcases hd with h | ⟨_, h⟩
    · exact hq y x h hx
    · omega

end

/-- C8: for `destStride ≥ width` and a destination that shares no float with the source
window, the pointer `gaussian_blur` stores in `dest[y*destStride + x]`, for every
`x < width`, `y < height`, the sum over `0 ≤ i, j ≤ 2r` of
`kernel[j*(2r+1) + i] * srce[(y+j-r)*srceStride + (x+i-r)]`, leaves every other float
unchanged, and returns 0. -/
theorem gaussian_blur_spec {K : Type} [Field K] (M : Mem K)
    (dest destStride srce srceStride : Int) (width height : Nat) (kernel : Mem K) (r : Nat)
    (hws : (width : Int) ≤ destStride)
    (hdis : ∀ y x y' x' j i : Nat, y < height → x < width → y' < height → x' < width →
      j < 2 * r + 1 → i < 2 * r + 1 →
      srce + ((y : Int) + j - r) * srceStride + ((x : Int) + i - r) ≠
        dest + y' * destStride + x') :
    (∀ y x : Nat, y < height → x < width →
      (gaussian_blur M dest destStride srce srceStride width height kernel r).1
          (dest + y * destStride + x) =
        ∑ j in Finset.range (2 * r + 1), ∑ i in Finset.range (2 * r + 1),
          kernel ((j : Int) * (2 * (r : Int) + 1) + i) *
            M (srce + ((y : Int) + j - r) * srceStride + ((x : Int) + i - r))) ∧
    (∀ q : Int, (∀ y x : Nat, y < height → x < width → q ≠ dest + y * destStride + x) →
      (gaussian_blur M dest destStride srce srceStride width height kernel r).1 q = M q) ∧
    (gaussian_blur M dest destStride srce srceStride width height kernel r).2 = 0 :=
  gaussian_blur_inv M dest destStride srce srceStride width height kernel r hws hdis

/-- C8, witness: a 2x2 output at address 1000 (stride 2) blurred with radius 1 from a
source whose interior starts at address 0 (stride 4). -/
theorem gaussian_blur_spec_witness :
    (gaussian_blur (fun q : Int => (q : ℚ)) 1000 2 0 4 ((2 : Nat) : Int) ((2 : Nat) : Int)
        (fun _ => 1) ((1 : Nat) : Int)).2 = 0 ∧
      (gaussian_blur (fun q : Int => (q : ℚ)) 1000 2 0 4 ((2 : Nat) : Int) ((2 : Nat) : Int)
        (fun _ => 1) ((1 : Nat) : Int)).1 7 = 7 := by
  have h := gaussian_blur_spec (fun q : Int => (q : ℚ)) 1000 2 0 4 2 2 (fun _ => 1) 1
    (by decide)
    (by
      intro y x y' x' j i hy hx hy' hx' hj hi
      omega)
  refine ⟨h.2.2, ?_⟩
  have h2 := h.2.1 7 (by
    intro y x hy hx
    omega)
  simpa using h2

section
variable {K : Type}

theorem memcpy_spec (m : Mem K) (dst src : Int) (n : Nat)
    (hdis : dst + n ≤ src ∨ src + n ≤ dst) (q : Int) :
    memcpy m dst src n q = if dst ≤ q ∧ q < dst + n then m (src + (q - dst)) else m q := by
  unfold memcpy
  have key := forRange_inv
    (fun k (m' : Mem K) => ∀ q : Int,
      m' q = if dst ≤ q ∧ q < dst + k then m (src + (q - dst)) else m q)
    0 n (fun i m => write m (dst + i) (m (src + i))) m
    (by
      intro q
      have h1 : ¬ (dst ≤ q ∧ q < dst + ((0 : Nat) : Int)) := by omega
      rw [if_neg h1])
    (by
      intro k hk t ht q
      show write t (dst + ((0 : Int) + k)) (t (src + ((0 : Int) + k))) q = _
      have hsrc : t (src + ((0 : Int) + k)) = m (src + ((0 : Int) + k)) := by
        rw [ht]
        have h1 : ¬ (dst ≤ src + ((0 : Int) + k) ∧ src + ((0 : Int) + k) < dst + k) := by omega
        rw [if_neg h1]
      by_cases hq : q = dst + ((0 : Int) + k)
      · subst hq
        rw [write_same, hsrc]
        have h2 : dst ≤ dst + ((0 : Int) + k) ∧
            dst + ((0 : Int) + k) < dst + ((k + 1 : Nat) : Int) := by omega
        rw [if_pos h2]
        congr 1
        ring
      · rw [write_other _ _ _ _ hq, ht]
        by_cases h1 : dst ≤ q ∧ q < dst + k
        · have h2 : dst ≤ q ∧ q < dst + ((k + 1 : Nat) : Int) := by omega
          rw [if_pos h1, if_pos h2]
        · have h2 : ¬ (dst ≤ q ∧ q < dst + ((k + 1 : Nat) : Int)) := by omega
          rw [if_neg h1, if_neg h2])
  exact key q

end

section
variable {K : Type}

/-- A run of `n` consecutive stores `*d++ = V(s)`, the source pointer becoming `nxt s`
after each; `sAt k` is the source pointer after `k` stores. -/
theorem fillRun_gen (V : Int → K) (nxt : Int → Int) (sAt : Nat → Int) (n : Nat)
    (c : FillCursor K) (h0 : sAt 0 = c.s) (hn : ∀ k, nxt (sAt k) = sAt (k + 1)) :
    (forRange 0 n (fun _ (c : FillCursor K) =>
        ({ m := write c.m c.d (V c.s), s := nxt c.s, d := c.d + 1 } : FillCursor K)) c).d =
      c.d + n ∧
    (forRange 0 n (fun _ (c : FillCursor K) =>
        ({ m := write c.m c.d (V c.s), s := nxt c.s, d := c.d + 1 } : FillCursor K)) c).s =
      sAt n ∧
    ∀ q : Int,
      (forRange 0 n (fun _ (c : FillCursor K) =>
        ({ m := write c.m c.d (V c.s), s := nxt c.s, d := c.d + 1 } : FillCursor K)) c).m q =
        if c.d ≤ q ∧ q < c.d + n then V (sAt (q - c.d).toNat) else c.m q := by
  have key := forRange_inv
    (fun k (c' : FillCursor K) => c'.d = c.d + k ∧ c'.s = sAt k ∧
      ∀ q : Int, c'.m q = if c.d ≤ q ∧ q < c.d + k then V (sAt (q - c.d).toNat) else c.m q)
    0 n (fun _ (c : FillCursor K) =>
        ({ m := write c.m c.d (V c.s), s := nxt c.s, d := c.d + 1 } : FillCursor K)) c
    (by
      refine ⟨by simp, h0.symm, ?_⟩
      intro q
      have h1 : ¬ (c.d ≤ q ∧ q < c.d + ((0 : Nat) : Int)) := by omega
      rw [if_neg h1])
    (by
      intro k _ t ht
      obtain ⟨hd, hs, hm⟩ := ht
      refine ⟨by simp only [hd]; push_cast; ring, by simp only [hs, hn], ?_⟩
      intro q
      show write t.m t.d (V t.s) q = _
      by_cases hq : q = t.d
      · subst hq
        rw [write_same, hs]
        have h2 : c.d ≤ t.d ∧ t.d < c.d + ((k + 1 : Nat) : Int) := by omega
        rw [if_pos h2]
        have : (t.d - c.d).toNat = k := by omega
        rw [this]
      · rw [write_other _ _ _ _ hq, hm]
        by_cases h1 : c.d ≤ q ∧ q < c.d + k
        · have h2 : c.d ≤ q ∧ q < c.d + ((k + 1 : Nat) : Int) := by omega
          rw [if_pos h1, if_pos h2]
        · have h2 : ¬ (c.d ≤ q ∧ q < c.d + ((k + 1 : Nat) : Int)) := by omega
          rw [if_neg h1, if_neg h2])
  exact key

variable [NatCast K]

/-- One row of the ingestion loop: the `nLeft + nData + nRight` floats from `d` on receive
the samples `data[s + clamp(i - nLeft, 0, nData-1) * step]`. -/
theorem fillRow_spec (data : Int → Nat) (nLeft nData nRight : Nat) (step sStride dStride : Int)
    (c : FillCursor K) (hData : 1 ≤ nData) :
    (fillRow data nLeft nData nRight step sStride dStride c).d =
      c.d + ((nLeft + nData + nRight : Nat) : Int) + dStride ∧
    (fillRow data nLeft nData nRight step sStride dStride c).s =
      c.s + nData * step + sStride ∧
    ∀ q : Int, (fillRow data nLeft nData nRight step sStride dStride c).m q =
      if c.d ≤ q ∧ q < c.d + ((nLeft + nData + nRight : Nat) : Int) then
        ((data (c.s + clampTo (q - c.d - nLeft) nData * step) : Nat) : K)
      else c.m q := by
  unfold fillRow
  simp only
  obtain ⟨hd1, hs1, hm1⟩ := fillRun_gen (fun s => ((data s : Nat) : K)) (fun s => s)
    (fun _ => c.s) nLeft c rfl (fun _ => rfl)
  generalize forRange 0 nLeft (fun _ (c : FillCursor K) =>
    ({ m := write c.m c.d ((data c.s : Nat) : K), s := c.s, d := c.d + 1 } : FillCursor K)) c
    = c1 at hd1 hs1 hm1 ⊢
  obtain ⟨hd2, hs2, hm2⟩ := fillRun_gen (fun s => ((data s : Nat) : K)) (fun s => s + step)
    (fun k => c1.s + k * step) nData c1 (by simp) (fun k => by push_cast; ring)
  generalize forRange 0 nData (fun _ (c : FillCursor K) =>
    ({ m := write c.m c.d ((data c.s : Nat) : K), s := c.s + step, d := c.d + 1 } :
      FillCursor K)) c1 = c2 at hd2 hs2 hm2 ⊢
  obtain ⟨hd3, hs3, hm3⟩ := fillRun_gen (fun _ => c2.m (c2.d - 1)) (fun s => s)
    (fun _ => c2.s) nRight c2 rfl (fun _ => rfl)
  generalize forRange 0 nRight (fun _ (c : FillCursor K) =>
    ({ m := write c.m c.d (c2.m (c2.d - 1)), s := c.s, d := c.d + 1 } : FillCursor K)) c2
    = c3 at hd3 hs3 hm3 ⊢
  refine ⟨?_, ?_, ?_⟩
  · rw [hd3, hd2, hd1]; push_cast; ring
  · rw [hs3, hs2, hs1]
  · intro q
    have hright : c2.m (c2.d - 1) =
        ((data (c.s + ((nData : Int) - 1) * step) : Nat) : K) := by
      rw [hm2]
      have h1 : c1.d ≤ c2.d - 1 ∧ c2.d - 1 < c1.d + nData := by omega
      rw [if_pos h1]
      have : ((c2.d - 1 - c1.d).toNat : Int) = (nData : Int) - 1 := by omega
      simp only [this, hs1]
    rw [hm3, hright, hm2, hm1]
    by_cases hq : c.d ≤ q ∧ q < c.d + ((nLeft + nData + nRight : Nat) : Int)
    · rw [if_pos hq]
      by_cases hr : c2.d ≤ q ∧ q < c2.d + nRight
      · rw [if_pos hr]
        have : clampTo (q - c.d - nLeft) nData = (nData : Int) - 1 := by
          unfold clampTo; omega
        rw [this]
      · rw [if_neg hr]
        by_cases hdq : c1.d ≤ q ∧ q < c1.d + nData
        · rw [if_pos hdq]
          have : clampTo (q - c.d - nLeft) nData = ((q - c1.d).toNat : Int) := by
            unfold clampTo; omega
          rw [this, hs1]
        · rw [if_neg hdq]
          have hl : c.d ≤ q ∧ q < c.d + nLeft := by omega
          rw [if_pos hl]
          have : clampTo (q - c.d - nLeft) nData = 0 := by
            unfold clampTo; omega
          rw [this]; simp
    · rw [if_neg hq]
      have h3 : ¬ (c2.d ≤ q ∧ q < c2.d + nRight) := by omega
      have h2 : ¬ (c1.d ≤ q ∧ q < c1.d + nData) := by omega
      have h1 : ¬ (c.d ≤ q ∧ q < c.d + nLeft) := by omega
      rw [if_neg h3, if_neg h2, if_neg h1]

end

section
variable {K : Type} [NatCast K]

/-- The row loop shared by `Image::init` and `retrieve_tile`: `n` rows, each `rowLen`
floats long and `T` floats apart, row `k` read from the image row at `s + k * I`. -/
theorem fillRows_spec (data : Int → Nat) (nLeft nData nRight : Nat) (step sStride dStride : Int)
    (lo : Int) (n : Nat) (c : FillCursor K) (hData : 1 ≤ nData) (hd : 0 ≤ dStride) :
    (forRange lo n (fun _ c => fillRow data nLeft nData nRight step sStride dStride c) c).d =
      c.d + n * (((nLeft + nData + nRight : Nat) : Int) + dStride) ∧
    (∀ k i : Nat, k < n → i < nLeft + nData + nRight →
      (forRange lo n (fun _ c => fillRow data nLeft nData nRight step sStride dStride c) c).m
          (c.d + k * (((nLeft + nData + nRight : Nat) : Int) + dStride) + i) =
        ((data (c.s + k * (nData * step + sStride) + clampTo ((i : Int) - nLeft) nData * step)
          : Nat) : K)) ∧
    (∀ q : Int, (∀ k i : Nat, k < n → i < nLeft + nData + nRight →
        q ≠ c.d + k * (((nLeft + nData + nRight : Nat) : Int) + dStride) + i) →
      (forRange lo n (fun _ c => fillRow data nLeft nData nRight step sStride dStride c) c).m q =
        c.m q) := by
  have key := forRange_inv
    (fun n (c' : FillCursor K) =>
      c'.d = c.d + n * (((nLeft + nData + nRight : Nat) : Int) + dStride) ∧
      c'.s = c.s + n * (nData * step + sStride) ∧
      (∀ k i : Nat, k < n → i < nLeft + nData + nRight →
        c'.m (c.d + k * (((nLeft + nData + nRight : Nat) : Int) + dStride) + i) =
          ((data (c.s + k * (nData * step + sStride) +
            clampTo ((i : Int) - nLeft) nData * step) : Nat) : K)) ∧
      (∀ q : Int, (∀ k i : Nat, k < n → i < nLeft + nData + nRight →
          q ≠ c.d + k * (((nLeft + nData + nRight : Nat) : Int) + dStride) + i) →
        c'.m q = c.m q))
    lo n (fun _ c => fillRow data nLeft nData nRight step sStride dStride c) c
    (by
      refine ⟨by simp, by simp, ?_, ?_⟩
      · intro k i hk; omega
      · intro q _; rfl)
    (by
      intro n' _ t ht
      obtain ⟨hdt, hst, hW, hF⟩ := ht
      obtain ⟨hd', hs', hm'⟩ := fillRow_spec data nLeft nData nRight step sStride dStride t hData
      refine ⟨by rw [hd', hdt]; push_cast; ring, by rw [hs', hst]; push_cast; ring, ?_, ?_⟩
      · intro k i hk hi
        rw [hm']
        by_cases hkn : k = n'
        · subst hkn
          have hin : t.d ≤ c.d + k * (((nLeft + nData + nRight : Nat) : Int) + dStride) + i ∧
              c.d + k * (((nLeft + nData + nRight : Nat) : Int) + dStride) + i <
                t.d + ((nLeft + nData + nRight : Nat) : Int) := by
            rw [hdt]; omega
          rw [if_pos hin, hst]
          congr 3
          rw [hdt]; ring_nf
        · have hk' : k < n' := by omega
          have hout : ¬ (t.d ≤ c.d + k * (((nLeft + nData + nRight : Nat) : Int) + dStride) + i ∧
              c.d + k * (((nLeft + nData + nRight : Nat) : Int) + dStride) + i <
                t.d + ((nLeft + nData + nRight : Nat) : Int)) := by
            rw [hdt]
            have h1 : ((k : Int) + 1) * (((nLeft + nData + nRight : Nat) : Int) + dStride) ≤
                (n' : Int) * (((nLeft + nData + nRight : Nat) : Int) + dStride) :=
              mul_le_mul_of_nonneg_right (by exact_mod_cast hk') (by positivity)
            intro h
            nlinarith [h.1, (show (i : Int) < ((nLeft + nData + nRight : Nat) : Int) by
              exact_mod_cast hi)]
          rw [if_neg hout]
          exact hW k i hk' hi
      · intro q hq
        rw [hm']
        have hout : ¬ (t.d ≤ q ∧ q < t.d + ((nLeft + nData + nRight : Nat) : Int)) := by
          intro h
          apply hq n' (q - t.d).toNat (Nat.lt_succ_self n') (by omega)
          rw [hdt] at h ⊢
          omega
        rw [if_neg hout]
        apply hF
        intro k i hk hi
        exact hq k i (Nat.lt_succ_of_lt hk) hi)
  exact ⟨key.1, key.2.2.1, key.2.2.2⟩

end

section
variable {K : Type}

/-- The loops that replicate one tile row into `n` rows starting at `c.d`, `T` floats
apart. -/
theorem copyRows_spec (src T : Int) (rowLen : Nat) (lo : Int) (n : Nat) (c : FillCursor K)
    (hT : (rowLen : Int) ≤ T)
    (hsrc : ∀ k : Nat, k < n → c.d + k * T + rowLen ≤ src ∨ src + rowLen ≤ c.d + k * T) :
    (∀ k i : Nat, k < n → i < rowLen →
      (forRange lo n (fun _ (c : FillCursor K) =>
        { c with m := memcpy c.m c.d src rowLen, d := c.d + T }) c).m (c.d + k * T + i) =
          c.m (src + i)) ∧
    (∀ q : Int, (∀ k i : Nat, k < n → i < rowLen → q ≠ c.d + k * T + i) →
      (forRange lo n (fun _ (c : FillCursor K) =>
        { c with m := memcpy c.m c.d src rowLen, d := c.d + T }) c).m q = c.m q) := by
  have key := forRange_inv
    (fun n' (c' : FillCursor K) =>
      n' ≤ n → c'.d = c.d + n' * T ∧
      (∀ k i : Nat, k < n' → i < rowLen → c'.m (c.d + k * T + i) = c.m (src + i)) ∧
      (∀ q : Int, (∀ k i : Nat, k < n' → i < rowLen → q ≠ c.d + k * T + i) → c'.m q = c.m q))
    lo n (fun _ (c : FillCursor K) =>
        { c with m := memcpy c.m c.d src rowLen, d := c.d + T }) c
    (by
      intro _
      refine ⟨by simp, ?_, ?_⟩
      · intro k i hk; omega
      · intro q _; rfl)
    (by
      intro n' hn' t ht _
      obtain ⟨hdt, hW, hF⟩ := ht (by omega)
      have hs := hsrc n' hn'
      rw [← hdt] at hs
      have hmem := memcpy_spec t.m t.d src rowLen hs
      have hsrcframe : ∀ i : Nat, i < rowLen → t.m (src + i) = c.m (src + i) := by
        intro i hi
        apply hF
        intro k i' hk hi' e
        have hs' := hsrc k (by omega)
        omega
      refine ⟨by simp only [hdt]; push_cast; ring, ?_, ?_⟩
      · intro k i hk hi
        show memcpy t.m t.d src rowLen (c.d + k * T + i) = _
        rw [hmem]
        by_cases hkn : k = n'
        · subst hkn
          have hin : t.d ≤ c.d + k * T + i ∧ c.d + k * T + i < t.d + rowLen := by
            rw [hdt]; omega
          rw [if_pos hin, hdt]
          have : src + (c.d + k * T + i - (c.d + k * T)) = src + i := by ring
          rw [this]
          exact hsrcframe i hi
        · have hk' : k < n' := by omega
          have hout : ¬ (t.d ≤ c.d + k * T + i ∧ c.d + k * T + i < t.d + rowLen) := by
            rw [hdt]
            have h1 : ((k : Int) + 1) * T ≤ (n' : Int) * T :=
              mul_le_mul_of_nonneg_right (by exact_mod_cast hk') (by linarith [Int.ofNat_nonneg rowLen])
            intro h
            nlinarith [h.1, (show (i : Int) < (rowLen : Int) by exact_mod_cast hi)]
          rw [if_neg hout]
          exact hW k i hk' hi
      · intro q hq
        show memcpy t.m t.d src rowLen q = _
        rw [hmem]
        have hout : ¬ (t.d ≤ q ∧ q < t.d + rowLen) := by
          intro h
          apply hq n' (q - t.d).toNat (Nat.lt_succ_self n') (by omega)
          rw [hdt] at h ⊢
          omega
        rw [if_neg hout]
        apply hF
        intro k i hk hi
        exact hq k i (Nat.lt_succ_of_lt hk) hi)
  exact (key (le_refl n)).2

end

theorem i32_u32_of_range (v : Int) (h1 : -(2 ^ 31) ≤ v) (h2 : v < 2 ^ 31) : i32 (u32 v) = v := by
  unfold i32 u32
  omega

theorem i32_of_range (v : Int) (h1 : -(2 ^ 31) ≤ v) (h2 : v < 2 ^ 31) : i32 v = v := by
  unfold i32
  omega

theorem u32_of_range (v : Int) (h1 : 0 ≤ v) (h2 : v < 2 ^ 32) : u32 v = v := by
  unfold u32
  omega

section
variable {K : Type}

theorem mul_step_le (k n : Nat) (T : Int) (hT : 0 ≤ T) (hk : k < n) :
    ((k : Int) + 1) * T ≤ (n : Int) * T :=
  mul_le_mul_of_nonneg_right (by exact_mod_cast hk) hT

theorem bottomMargin_spec (c : FillCursor K) (dy2 sy2 : Int) (T : Int) (rowLen : Nat)
    (hT : (rowLen : Int) ≤ T) :
    (∀ k i : Nat, k < (dy2 - sy2).toNat → i < rowLen →
      (bottomMargin c dy2 sy2 T rowLen).m (c.d + k * T + i) = c.m (c.d - T + i)) ∧
    (∀ q : Int, (∀ k i : Nat, k < (dy2 - sy2).toNat → i < rowLen → q ≠ c.d + k * T + i) →
      (bottomMargin c dy2 sy2 T rowLen).m q = c.m q) := by
  unfold bottomMargin
  by_cases h : dy2 > sy2
  · rw [if_pos h]
    exact copyRows_spec (c.d - T) T rowLen sy2 (dy2 - sy2).toNat c hT (by
      intro k hk
      right
      have h0 : (0 : Int) ≤ (k : Int) * T :=
        mul_nonneg (Int.ofNat_nonneg k) (by linarith [Int.ofNat_nonneg rowLen])
      linarith)
  · rw [if_neg h]
    have hn : (dy2 - sy2).toNat = 0 := by omega
    rw [hn]
    exact ⟨fun k i hk => by omega, fun q _ => rfl⟩

theorem topMargin_spec (c : FillCursor K) (tile dy1 sy1 : Int) (T : Int) (rowLen : Nat)
    (hT : (rowLen : Int) ≤ T) :
    (∀ k i : Nat, k < (sy1 - dy1).toNat → i < rowLen →
      topMargin c tile dy1 sy1 T rowLen (tile + k * T + i) =
        c.m (tile + T * (sy1 - dy1) + i)) ∧
    (∀ q : Int, (∀ k i : Nat, k < (sy1 - dy1).toNat → i < rowLen → q ≠ tile + k * T + i) →
      topMargin c tile dy1 sy1 T rowLen q = c.m q) := by
  unfold topMargin
  by_cases h : dy1 < sy1
  · rw [if_pos h]
    exact copyRows_spec (tile + T * (sy1 - dy1)) T rowLen dy1 (sy1 - dy1).toNat
      { c with d := tile } hT (by
      intro k hk
      left
      have e : sy1 - dy1 = ((sy1 - dy1).toNat : Int) := by omega
      rw [e]
      have := mul_step_le k (sy1 - dy1).toNat T (by linarith [Int.ofNat_nonneg rowLen]) hk
      simp only
      nlinarith)
  · rw [if_neg h]
    have hn : (sy1 - dy1).toNat = 0 := by omega
    rw [hn]
    exact ⟨fun k i hk => by omega, fun q _ => rfl⟩

end

/-- Horizontal clamping inside a tile row agrees with clamping to the image. -/
theorem clamp_col (x m tw W : Nat) (i : Nat) (hx : x < W) (hi : i < tw + 2 * m) :
    max ((x : Int) - m) 0 +
        clampTo ((i : Int) - ((max ((x : Int) - m) 0 - ((x : Int) - m)).toNat : Int))
          (min ((x : Int) + tw + m) (W : Int) - max ((x : Int) - m) 0).toNat =
      clampTo ((x : Int) - m + i) W := by
  unfold clampTo
  omega

/-- The image row read for the `k`-th data row of a tile. -/
theorem clamp_row (y m th H top k : Nat) (hy : y < H)
    (htop : max ((y : Int) - m) 0 - ((y : Int) - m) = top)
    (hk : k < (min ((y : Int) + th + m) (H : Int) - max ((y : Int) - m) 0).toNat) :
    max ((y : Int) - m) 0 + k = clampTo ((y : Int) - m + ((top + k : Nat) : Int)) H := by
  unfold clampTo
  omega

/-- Rows above the first data row read the image row of the first data row. -/
theorem clamp_top (y m H top j : Nat)
    (htop : max ((y : Int) - m) 0 - ((y : Int) - m) = top) (hj : j < top) :
    clampTo ((y : Int) - m + j) H = clampTo ((y : Int) - m + ((top + 0 : Nat) : Int)) H := by
  unfold clampTo
  omega

/-- Rows below the last data row read the image row of the last data row. -/
theorem clamp_bot (y m th H top n j : Nat) (hy : y < H)
    (htop : max ((y : Int) - m) 0 - ((y : Int) - m) = top)
    (hn : (min ((y : Int) + th + m) (H : Int) - max ((y : Int) - m) 0).toNat = n + 1)
    (hj : top + (n + 1) ≤ j) (hjlt : j < th + 2 * m) :
    clampTo ((y : Int) - m + j) H = clampTo ((y : Int) - m + ((top + n : Nat) : Int)) H := by
  unfold clampTo
  omega

theorem addr_ne (tile TS : Int) (w : Nat) (hT : (w : Int) ≤ TS) (j j' i i' : Nat)
    (hi : i < w) (hi' : i' < w) (hne : j ≠ j') :
    tile + (j : Int) * TS + i ≠ tile + (j' : Int) * TS + i' := by
  intro e
  exact hne (idx_inj TS w hT j j' i i' hi hi' (by linarith)).1

section
variable {K : Type} [NatCast K]

theorem retrieve_tile_spec (M : Mem K) (tile : Int) (tw th TS m x y : Nat)
    (data : Int → Nat) (W H : Nat) (step stride : Int)
    (hx : x < W) (hy : y < H) (htw : 1 ≤ tw) (hth : 1 ≤ th)
    (hTS : tw + 2 * m ≤ TS)
    (hxr : x + tw + m < 2 ^ 31) (hyr : y + th + m < 2 ^ 31)
    (hW : W < 2 ^ 31) (hH : H < 2 ^ 31) :
    (∀ j i : Nat, j < th + 2 * m → i < tw + 2 * m →
      retrieve_tile M tile tw th TS m x y data W H step stride (tile + j * TS + i) =
        ((sampleAt data W H step stride ((x : Int) - m + i) ((y : Int) - m + j) : Nat) : K)) ∧
    (∀ q : Int, (∀ j i : Nat, j < th + 2 * m → i < tw + 2 * m → q ≠ tile + j * TS + i) →
      retrieve_tile M tile tw th TS m x y data W H step stride q = M q) := by
  unfold retrieve_tile
  rw [i32_u32_of_range ((x : Int) - m) (by omega) (by omega),
    i32_u32_of_range ((y : Int) - m) (by omega) (by omega),
    i32_u32_of_range ((x : Int) + tw + m) (by omega) (by omega),
    i32_u32_of_range ((y : Int) + th + m) (by omega) (by omega),
    i32_of_range (W : Int) (by omega) (by omega),
    i32_of_range (H : Int) (by omega) (by omega),
    u32_of_range ((tw : Int) + 2 * m) (by omega) (by omega)]
  generalize hsx1 : max ((x : Int) - m) 0 = sx1
  generalize hsy1 : max ((y : Int) - m) 0 = sy1
  generalize hsx2 : min ((x : Int) + tw + m) (W : Int) = sx2
  generalize hsy2 : min ((y : Int) + th + m) (H : Int) = sy2
  have hrl : ((tw : Int) + 2 * m).toNat = tw + 2 * m := by omega
  rw [hrl]
  have hsum : (sx1 - ((x : Int) - m)).toNat + (sx2 - sx1).toNat +
      ((x : Int) + tw + m - sx2).toNat = tw + 2 * m := by omega
  obtain ⟨hd1, hW1, hF1⟩ := fillRows_spec (K := K) data (sx1 - ((x : Int) - m)).toNat
    (sx2 - sx1).toNat ((x : Int) + tw + m - sx2).toNat step
    (stride - step * (sx2 - sx1)) ((TS : Int) - ((tw : Int) + 2 * m)) sy1 (sy2 - sy1).toNat
    { m := M, s := sx1 * step + sy1 * stride, d := tile + (TS : Int) * (sy1 - ((y : Int) - m)) }
    (by omega) (by omega)
  generalize forRange sy1 (sy2 - sy1).toNat
    (fun _ c => fillRow data (sx1 - ((x : Int) - m)).toNat (sx2 - sx1).toNat
      ((x : Int) + tw + m - sx2).toNat step (stride - step * (sx2 - sx1))
      ((TS : Int) - ((tw : Int) + 2 * m)) c)
    ({ m := M, s := sx1 * step + sy1 * stride,
       d := tile + (TS : Int) * (sy1 - ((y : Int) - m)) } : FillCursor K) = c1 at hd1 hW1 hF1 ⊢
  rw [hsum] at hd1 hW1 hF1
  have eT : ((tw + 2 * m : Nat) : Int) + ((TS : Int) - ((tw : Int) + 2 * m)) = TS := by
    push_cast; ring
  have eI : ((sx2 - sx1).toNat : Int) * step + (stride - step * (sx2 - sx1)) = stride := by
    have : ((sx2 - sx1).toNat : Int) = sx2 - sx1 := by omega
    rw [this]; ring
  simp only [eT, eI] at hd1 hW1 hF1
  have hT : ((tw + 2 * m : Nat) : Int) ≤ (TS : Int) := by exact_mod_cast hTS
  obtain ⟨top, htop⟩ : ∃ top : Nat, sy1 - ((y : Int) - m) = top := ⟨(sy1 - ((y : Int) - m)).toNat, by omega⟩
  obtain ⟨n, hn⟩ : ∃ n : Nat, (sy2 - sy1).toNat = n + 1 := ⟨(sy2 - sy1).toNat - 1, by omega⟩
  obtain ⟨bot, hbot⟩ : ∃ bot : Nat, ((y : Int) + th + m - sy2).toNat = bot := ⟨_, rfl⟩
  have htot : top + (n + 1) + bot = th + 2 * m := by omega
  rw [htop] at hd1 hW1 hF1
  rw [hn] at hd1 hW1 hF1
  -- the three blocks in terms of tile rows
  have W1 : ∀ k i : Nat, k < n + 1 → i < tw + 2 * m →
      c1.m (tile + ((top + k : Nat) : Int) * TS + i) =
        ((sampleAt data W H step stride ((x : Int) - m + i) ((y : Int) - m + (top + k : Nat))
          : Nat) : K) := by
    intro k i hk hi
    have e : tile + ((top + k : Nat) : Int) * TS + i = tile + (TS : Int) * top + k * TS + i := by
      push_cast; ring
    rw [e, hW1 k i hk hi]
    unfold sampleAt
    have ex : sx1 + clampTo ((i : Int) - ((sx1 - ((x : Int) - m)).toNat : Int)) (sx2 - sx1).toNat =
        clampTo ((x : Int) - m + i) W := by
      subst hsx1 hsx2
      exact clamp_col x m tw W i hx hi
    have ey : sy1 + k = clampTo ((y : Int) - m + ((top + k : Nat) : Int)) H := by
      subst hsy1 hsy2
      exact clamp_row y m th H top k hy htop (by rw [hn]; exact hk)
    have eaddr : sx1 * step + sy1 * stride + k * stride +
        clampTo ((i : Int) - ((sx1 - ((x : Int) - m)).toNat : Int)) (sx2 - sx1).toNat * step =
        clampTo ((x : Int) - m + i) W * step +
          clampTo ((y : Int) - m + ((top + k : Nat) : Int)) H * stride := by
      rw [← ex, ← ey]; ring
    rw [eaddr]
  have F1 : ∀ q : Int, (∀ k i : Nat, k < n + 1 → i < tw + 2 * m →
      q ≠ tile + ((top + k : Nat) : Int) * TS + i) → c1.m q = M q := by
    intro q hq
    apply hF1
    intro k i hk hi
    have e : tile + (TS : Int) * top + k * TS + i = tile + ((top + k : Nat) : Int) * TS + i := by
      push_cast; ring
    rw [e]
    exact hq k i hk hi
  obtain ⟨hWB, hFB⟩ := bottomMargin_spec c1 ((y : Int) + th + m) sy2 TS (tw + 2 * m) hT
  rw [hbot] at hWB hFB
  generalize bottomMargin c1 ((y : Int) + th + m) sy2 TS (tw + 2 * m) = cB at hWB hFB ⊢
  have WB : ∀ k i : Nat, k < bot → i < tw + 2 * m →
      cB.m (tile + ((top + (n + 1) + k : Nat) : Int) * TS + i) =
        c1.m (tile + ((top + n : Nat) : Int) * TS + i) := by
    intro k i hk hi
    have e : tile + ((top + (n + 1) + k : Nat) : Int) * TS + i = c1.d + k * TS + i := by
      rw [hd1]; push_cast; ring
    have e' : tile + ((top + n : Nat) : Int) * TS + i = c1.d - TS + i := by
      rw [hd1]; push_cast; ring
    rw [e, e']
    exact hWB k i hk hi
  have FB : ∀ q : Int, (∀ k i : Nat, k < bot → i < tw + 2 * m →
      q ≠ tile + ((top + (n + 1) + k : Nat) : Int) * TS + i) → cB.m q = c1.m q := by
    intro q hq
    apply hFB
    intro k i hk hi
    have e : c1.d + k * TS + i = tile + ((top + (n + 1) + k : Nat) : Int) * TS + i := by
      rw [hd1]; push_cast; ring
    rw [e]
    exact hq k i hk hi
  obtain ⟨hWT, hFT⟩ := topMargin_spec cB tile ((y : Int) - m) sy1 TS (tw + 2 * m) hT
  rw [htop] at hWT hFT
  simp only [Int.toNat_ofNat] at hWT hFT
  generalize topMargin cB tile ((y : Int) - m) sy1 TS (tw + 2 * m) = R at hWT hFT ⊢
  have etop0 : ∀ i : Nat, tile + (TS : Int) * top + i = tile + ((top + 0 : Nat) : Int) * TS + i := by
    intro i; push_cast; ring
  constructor
  · intro j i hj hi
    rcases Nat.lt_or_ge j top with h1 | h1
    · rw [hWT j i h1 hi, etop0, FB _ (fun k i' hk hi' =>
        addr_ne tile TS (tw + 2 * m) hT _ _ i i' hi hi' (by omega)), W1 0 i (by omega) hi]
      unfold sampleAt
      subst hsy1
      rw [clamp_top y m H top j htop h1]
    · rcases Nat.lt_or_ge j (top + (n + 1)) with h2 | h2
      · obtain ⟨k, rfl⟩ := Nat.exists_eq_add_of_le h1
        rw [hFT _ (fun k' i' hk' hi' =>
          addr_ne tile TS (tw + 2 * m) hT _ _ i i' hi hi' (by omega)),
          FB _ (fun k' i' hk' hi' =>
          addr_ne tile TS (tw + 2 * m) hT _ _ i i' hi hi' (by omega)),
          W1 k i (by omega) hi]
      · rw [hFT _ (fun k' i' hk' hi' =>
          addr_ne tile TS (tw + 2 * m) hT _ _ i i' hi hi' (by omega))]
        obtain ⟨k, rfl⟩ := Nat.exists_eq_add_of_le h2
        rw [WB k i (by omega) hi, W1 n i (by omega) hi]
        unfold sampleAt
        subst hsy1 hsy2
        rw [clamp_bot y m th H top n (top + (n + 1) + k) hy htop hn (by omega) hj]
  · intro q hq
    rw [hFT q (fun k i hk hi => hq k i (by omega) hi),
      FB q (fun k i hk hi => hq _ i (by omega) hi),
      F1 q (fun k i hk hi => hq _ i (by omega) hi)]

end

section
variable {K : Type} [Field K]

/-- `retrieve_tile` as called by `compute_ssim`: the bordered tile at `p` afterwards, and
nothing outside the `74 × 74` buffer written. -/
theorem retrieve_tile_buffer (M : Mem K) (p : Int) (tw th tx ty : Nat)
    (img : Int → Nat) (W H : Nat) (step stride : Int)
    (htx : tx < W) (hty : ty < H) (htw : 1 ≤ tw) (hth : 1 ≤ th) (htw' : tw ≤ 64)
    (hth' : th ≤ 64) (hxr : tx + tw + 5 < 2 ^ 31) (hyr : ty + th + 5 < 2 ^ 31)
    (hW : W < 2 ^ 31) (hH : H < 2 ^ 31) :
    (∀ j i : Nat, j < th + 10 → i < tw + 10 →
      retrieve_tile M p tw th tileStride radius tx ty img W H step stride (p + j * 74 + i) =
        pixel img W H step stride ((tx : Int) - 5 + i) ((ty : Int) - 5 + j)) ∧
    (∀ q : Int, (q < p ∨ p + 5476 ≤ q) →
      retrieve_tile M p tw th tileStride radius tx ty img W H step stride q = M q) := by
  have h := retrieve_tile_spec M p tw th tileStride radius tx ty img W H step stride
    htx hty htw hth (by unfold tileStride tileSize radius; omega)
    (by unfold radius; omega) (by unfold radius; omega) hW hH
  have e74 : ((tileStride : Nat) : Int) = 74 := by
    unfold tileStride tileSize radius; norm_num
  have e5 : ((radius : Nat) : Int) = 5 := by unfold radius; norm_num
  have er : 2 * radius = 10 := by unfold radius; norm_num
  rw [e74, e5, er] at h
  constructor
  · intro j i hj hi
    exact h.1 j i hj hi
  · intro q hq
    apply h.2
    intro j i hj hi
    omega

theorem multiply_buffer (M : Mem K) (p a b : Int) (tw th : Nat) (htw' : tw ≤ 64)
    (hth' : th ≤ 64) (ha : a + 5476 ≤ p ∨ p + 5476 ≤ a) (hb : b + 5476 ≤ p ∨ p + 5476 ≤ b) :
    (∀ j i : Nat, j < th + 10 → i < tw + 10 →
      multiply M p a b (tw + 2 * radius) (th + 2 * radius) tileStride (p + j * 74 + i) =
        M (a + j * 74 + i) * M (b + j * 74 + i)) ∧
    (∀ q : Int, (q < p ∨ p + 5476 ≤ q) →
      multiply M p a b (tw + 2 * radius) (th + 2 * radius) tileStride q = M q) := by
  have e74 : ((tileStride : Nat) : Int) = 74 := by
    unfold tileStride tileSize radius; norm_num
  have er : 2 * radius = 10 := by unfold radius; norm_num
  rw [e74, er]
  have h := multiply_inv M p a b (tw + 10) (th + 10) 74 (by push_cast; omega)
    (Or.inr (by
      rintro q ⟨y, x, hy, hx, rfl⟩ ⟨y', x', hy', hx', e⟩
      omega))
    (Or.inr (by
      rintro q ⟨y, x, hy, hx, rfl⟩ ⟨y', x', hy', hx', e⟩
      omega))
  constructor
  · intro j i hj hi
    exact h.1 j i hj hi
  · intro q hq
    apply h.2
    intro j i hj hi
    omega

theorem gaussian_blur_buffer (M : Mem K) (dest src : Int) (tw th : Nat) (kernel : Mem K)
    (htw' : tw ≤ 64) (hth' : th ≤ 64) (hd : src + 5476 ≤ dest ∨ dest + 4096 ≤ src) :
    (∀ y x : Nat, y < th → x < tw →
      (gaussian_blur M dest tileSize (src + ((radius : Int) * tileStride + radius)) tileStride
          tw th kernel radius).1 (dest + y * 64 + x) =
        ∑ j in Finset.range (2 * radius + 1), ∑ i in Finset.range (2 * radius + 1),
          kernel ((j : Int) * (2 * (radius : Int) + 1) + i) *
            M (src + ((y + j : Nat) : Int) * 74 + ((x + i : Nat) : Int))) ∧
    (∀ q : Int, (q < dest ∨ dest + 4096 ≤ q) →
      (gaussian_blur M dest tileSize (src + ((radius : Int) * tileStride + radius)) tileStride
          tw th kernel radius).1 q = M q) := by
  have e74 : ((tileStride : Nat) : Int) = 74 := by
    unfold tileStride tileSize radius; norm_num
  have e64 : ((tileSize : Nat) : Int) = 64 := by unfold tileSize; norm_num
  have e5 : ((radius : Nat) : Int) = 5 := by unfold radius; norm_num
  have er : 2 * radius + 1 = 11 := by unfold radius; norm_num
  have h := gaussian_blur_inv M dest 64 (src + (5 * 74 + 5)) 74 tw th kernel radius
    (by omega)
    (by
      intro y x y' x' j i hy hx hy' hx' hj hi
      rw [er] at hj hi
      rw [e5]
      omega)
  rw [e74, e64, e5]
  rw [e5] at h
  constructor
  · intro y x hy hx
    rw [h.1 y x hy hx]
    unfold blurSum
    apply Finset.sum_congr rfl
    intro j _
    apply Finset.sum_congr rfl
    intro i _
    rw [e5]
    congr 2
    push_cast
    ring
  · intro q hq
    apply h.2.1
    intro y x hy hx
    omega

end

section
variable {K : Type} [Field K]

theorem moment_eq (kernel : Mem K) (f : Int → Int → K) (g : Nat → Nat → K) (tx ty : Int)
    (x y : Nat)
    (h : ∀ j i : Nat, j < 11 → i < 11 →
      g (y + j) (x + i) = f (tx - 5 + ((x + i : Nat) : Int)) (ty - 5 + ((y + j : Nat) : Int))) :
    ∑ j in Finset.range (2 * radius + 1), ∑ i in Finset.range (2 * radius + 1),
        kernel ((j : Int) * (2 * (radius : Int) + 1) + i) * g (y + j) (x + i) =
      moment kernel f (tx + x) (ty + y) := by
  unfold moment
  have er : 2 * radius + 1 = 11 := by unfold radius; norm_num
  have e5 : ((radius : Nat) : Int) = 5 := by unfold radius; norm_num
  apply Finset.sum_congr rfl
  intro j hj
  apply Finset.sum_congr rfl
  intro i hi
  rw [er] at hj hi
  rw [h j i (Finset.mem_range.mp hj) (Finset.mem_range.mp hi), e5]
  congr 2
  · push_cast; ring
  · push_cast; ring

/-- The five blurs after the three products, for any tile-local memory `m`: each result
cell is the convolution of the tile that its source buffer held in `m` (for the products,
of the product of the cells of `buffer2` and `buffer3` in `m`), although the destinations
overwrite `buffer2 .. buffer5` on the way. -/
theorem tileBlurs_products_spec (kernel : Mem K) (tw th : Nat) (m : Mem K)
    (htw' : tw ≤ 64) (hth' : th ≤ 64) (y x : Nat) (hy : y < th) (hx : x < tw) :
    tileBlurs kernel tw th (tileProducts tw th m) (buffer1 + y * 64 + x) =
      ∑ j in Finset.range (2 * radius + 1), ∑ i in Finset.range (2 * radius + 1),
        kernel ((j : Int) * (2 * (radius : Int) + 1) + i) *
          m (buffer2 + ((y + j : Nat) : Int) * 74 + ((x + i : Nat) : Int)) ∧
    tileBlurs kernel tw th (tileProducts tw th m) (buffer2 + y * 64 + x) =
      ∑ j in Finset.range (2 * radius + 1), ∑ i in Finset.range (2 * radius + 1),
        kernel ((j : Int) * (2 * (radius : Int) + 1) + i) *
          m (buffer3 + ((y + j : Nat) : Int) * 74 + ((x + i : Nat) : Int)) ∧
    tileBlurs kernel tw th (tileProducts tw th m) (buffer3 + y * 64 + x) =
      ∑ j in Finset.range (2 * radius + 1), ∑ i in Finset.range (2 * radius + 1),
        kernel ((j : Int) * (2 * (radius : Int) + 1) + i) *
          (m (buffer2 + ((y + j : Nat) : Int) * 74 + ((x + i : Nat) : Int)) *
            m (buffer2 + ((y + j : Nat) : Int) * 74 + ((x + i : Nat) : Int))) ∧
    tileBlurs kernel tw th (tileProducts tw th m) (buffer4 + y * 64 + x) =
      ∑ j in Finset.range (2 * radius + 1), ∑ i in Finset.range (2 * radius + 1),
        kernel ((j : Int) * (2 * (radius : Int) + 1) + i) *
          (m (buffer3 + ((y + j : Nat) : Int) * 74 + ((x + i : Nat) : Int)) *
            m (buffer3 + ((y + j : Nat) : Int) * 74 + ((x + i : Nat) : Int))) ∧
    tileBlurs kernel tw th (tileProducts tw th m) (buffer5 + y * 64 + x) =
      ∑ j in Finset.range (2 * radius + 1), ∑ i in Finset.range (2 * radius + 1),
        kernel ((j : Int) * (2 * (radius : Int) + 1) + i) *
          (m (buffer2 + ((y + j : Nat) : Int) * 74 + ((x + i : Nat) : Int)) *
            m (buffer3 + ((y + j : Nat) : Int) * 74 + ((x + i : Nat) : Int))) := by
  unfold tileBlurs tileProducts buffer1 buffer2 buffer3 buffer4 buffer5 buffer6
  dsimp only
  obtain ⟨w3, f3⟩ := multiply_buffer m 15072 4096 4096 tw th htw' hth' (by omega) (by omega)
  generalize multiply m 15072 4096 4096 (tw + 2 * radius) (th + 2 * radius) tileStride = m3
    at w3 f3 ⊢
  obtain ⟨w4, f4⟩ := multiply_buffer m3 20560 9584 9584 tw th htw' hth' (by omega) (by omega)
  generalize multiply m3 20560 9584 9584 (tw + 2 * radius) (th + 2 * radius) tileStride = m4
    at w4 f4 ⊢
  obtain ⟨w5, f5⟩ := multiply_buffer m4 26048 4096 9584 tw th htw' hth' (by omega) (by omega)
  generalize multiply m4 26048 4096 9584 (tw + 2 * radius) (th + 2 * radius) tileStride = m5
    at w5 f5 ⊢
  obtain ⟨w6, f6⟩ := gaussian_blur_buffer m5 0 4096 tw th kernel htw' hth' (by omega)
  generalize (gaussian_blur m5 0 tileSize (4096 + ((radius : Int) * tileStride + radius))
    tileStride tw th kernel radius).1 = m6 at w6 f6 ⊢
  obtain ⟨w7, f7⟩ := gaussian_blur_buffer m6 4096 9584 tw th kernel htw' hth' (by omega)
  generalize (gaussian_blur m6 4096 tileSize (9584 + ((radius : Int) * tileStride + radius))
    tileStride tw th kernel radius).1 = m7 at w7 f7 ⊢
  obtain ⟨w8, f8⟩ := gaussian_blur_buffer m7 9584 15072 tw th kernel htw' hth' (by omega)
  generalize (gaussian_blur m7 9584 tileSize (15072 + ((radius : Int) * tileStride + radius))
    tileStride tw th kernel radius).1 = m8 at w8 f8 ⊢
  obtain ⟨w9, f9⟩ := gaussian_blur_buffer m8 15072 20560 tw th kernel htw' hth' (by omega)
  generalize (gaussian_blur m8 15072 tileSize (20560 + ((radius : Int) * tileStride + radius))
    tileStride tw th kernel radius).1 = m9 at w9 f9 ⊢
  obtain ⟨w10, f10⟩ := gaussian_blur_buffer m9 20560 26048 tw th kernel htw' hth' (by omega)
  generalize (gaussian_blur m9 20560 tileSize (26048 + ((radius : Int) * tileStride + radius))
    tileStride tw th kernel radius).1 = m10 at w10 f10 ⊢
  have er : 2 * radius + 1 = 11 := by unfold radius; norm_num
  refine ⟨?_, ?_, ?_, ?_, ?_⟩
  · rw [f10 _ (by omega), f9 _ (by omega), f8 _ (by omega), f7 _ (by omega), w6 y x hy hx]
    apply Finset.sum_congr rfl; intro j hj
    apply Finset.sum_congr rfl; intro i hi
    rw [er] at hj hi
    have hj' := Finset.mem_range.mp hj
    have hi' := Finset.mem_range.mp hi
    rw [f5 _ (by omega), f4 _ (by omega), f3 _ (by omega)]
  · rw [f10 _ (by omega), f9 _ (by omega), f8 _ (by omega), w7 y x hy hx]
    apply Finset.sum_congr rfl; intro j hj
    apply Finset.sum_congr rfl; intro i hi
    rw [er] at hj hi
    have hj' := Finset.mem_range.mp hj
    have hi' := Finset.mem_range.mp hi
    rw [f6 _ (by omega), f5 _ (by omega), f4 _ (by omega), f3 _ (by omega)]
  · rw [f10 _ (by omega), f9 _ (by omega), w8 y x hy hx]
    apply Finset.sum_congr rfl; intro j hj
    apply Finset.sum_congr rfl; intro i hi
    rw [er] at hj hi
    have hj' := Finset.mem_range.mp hj
    have hi' := Finset.mem_range.mp hi
    rw [f7 _ (by omega), f6 _ (by omega), f5 _ (by omega), f4 _ (by omega),
      w3 (y + j) (x + i) (by omega) (by omega)]
  · rw [f10 _ (by omega), w9 y x hy hx]
    apply Finset.sum_congr rfl; intro j hj
    apply Finset.sum_congr rfl; intro i hi
    rw [er] at hj hi
    have hj' := Finset.mem_range.mp hj
    have hi' := Finset.mem_range.mp hi
    rw [f8 _ (by omega), f7 _ (by omega), f6 _ (by omega), f5 _ (by omega),
      w4 (y + j) (x + i) (by omega) (by omega), f3 _ (by omega)]
  · rw [w10 y x hy hx]
    apply Finset.sum_congr rfl; intro j hj
    apply Finset.sum_congr rfl; intro i hi
    rw [er] at hj hi
    have hj' := Finset.mem_range.mp hj
    have hi' := Finset.mem_range.mp hi
    rw [f9 _ (by omega), f8 _ (by omega), f7 _ (by omega), f6 _ (by omega),
      w5 (y + j) (x + i) (by omega) (by omega), f4 _ (by omega), f3 _ (by omega),
      f4 _ (by omega), f3 _ (by omega)]

/-- The two loaded tiles: `buffer2` holds the bordered tile of `A`, `buffer3` that of
`B`. -/
theorem tileLoad_spec (W H : Nat)
    (imgA : Int → Nat) (stepA strideA : Int) (imgB : Int → Nat) (stepB strideB : Int)
    (ty th tx tw : Nat) (stack : Mem K)
    (htx : tx < W) (hty : ty < H) (htw : 1 ≤ tw) (hth : 1 ≤ th) (htw' : tw ≤ 64)
    (hth' : th ≤ 64) (hxr : tx + tw + 5 < 2 ^ 31) (hyr : ty + th + 5 < 2 ^ 31)
    (hW : W < 2 ^ 31) (hH : H < 2 ^ 31) (j i : Nat) (hj : j < th + 10) (hi : i < tw + 10) :
    tileLoad W H imgA stepA strideA imgB stepB strideB ty th tx tw stack
        (buffer2 + j * 74 + i) =
      pixel imgA W H stepA strideA ((tx : Int) - 5 + i) ((ty : Int) - 5 + j) ∧
    tileLoad W H imgA stepA strideA imgB stepB strideB ty th tx tw stack
        (buffer3 + j * 74 + i) =
      pixel imgB W H stepB strideB ((tx : Int) - 5 + i) ((ty : Int) - 5 + j) := by
  unfold tileLoad buffer2 buffer3
  obtain ⟨w1, f1⟩ := retrieve_tile_buffer stack 4096 tw th tx ty imgA W H stepA strideA
    htx hty htw hth htw' hth' hxr hyr hW hH
  generalize retrieve_tile stack 4096 tw th tileStride radius tx ty imgA W H stepA strideA = m1
    at w1 f1 ⊢
  obtain ⟨w2, f2⟩ := retrieve_tile_buffer m1 9584 tw th tx ty imgB W H stepB strideB
    htx hty htw hth htw' hth' hxr hyr hW hH
  exact ⟨by rw [f2 _ (by omega), w1 j i hj hi], w2 j i hj hi⟩

theorem tileMoments_spec (kernel : Mem K) (W H : Nat)
    (imgA : Int → Nat) (stepA strideA : Int) (imgB : Int → Nat) (stepB strideB : Int)
    (ty th tx tw : Nat) (stack : Mem K)
    (htx : tx < W) (hty : ty < H) (htw : 1 ≤ tw) (hth : 1 ≤ th) (htw' : tw ≤ 64)
    (hth' : th ≤ 64) (hxr : tx + tw + 5 < 2 ^ 31) (hyr : ty + th + 5 < 2 ^ 31)
    (hW : W < 2 ^ 31) (hH : H < 2 ^ 31) (y x : Nat) (hy : y < th) (hx : x < tw) :
    tileMoments kernel W H imgA stepA strideA imgB stepB strideB ty th tx tw stack
        (buffer1 + y * 64 + x) =
      moment kernel (pixel imgA W H stepA strideA) (tx + x) (ty + y) ∧
    tileMoments kernel W H imgA stepA strideA imgB stepB strideB ty th tx tw stack
        (buffer2 + y * 64 + x) =
      moment kernel (pixel imgB W H stepB strideB) (tx + x) (ty + y) ∧
    tileMoments kernel W H imgA stepA strideA imgB stepB strideB ty th tx tw stack
        (buffer3 + y * 64 + x) =
      moment kernel (fun u v => pixel imgA W H stepA strideA u v * pixel imgA W H stepA strideA u v)
        (tx + x) (ty + y) ∧
    tileMoments kernel W H imgA stepA strideA imgB stepB strideB ty th tx tw stack
        (buffer4 + y * 64 + x) =
      moment kernel (fun u v => pixel imgB W H stepB strideB u v * pixel imgB W H stepB strideB u v)
        (tx + x) (ty + y) ∧
    tileMoments kernel W H imgA stepA strideA imgB stepB strideB ty th tx tw stack
        (buffer5 + y * 64 + x) =
      moment kernel (fun u v => pixel imgA W H stepA strideA u v * pixel imgB W H stepB strideB u v)
        (tx + x) (ty + y) := by
  unfold tileMoments
  obtain ⟨h1, h2, h3, h4, h5⟩ := tileBlurs_products_spec kernel tw th
    (tileLoad W H imgA stepA strideA imgB stepB strideB ty th tx tw stack) htw' hth' y x hy hx
  have hl := fun j i (hj : j < 11) (hi : i < 11) =>
    tileLoad_spec W H imgA stepA strideA imgB stepB strideB ty th tx tw stack
      htx hty htw hth htw' hth' hxr hyr hW hH (y + j) (x + i) (by omega) (by omega)
  generalize tileLoad W H imgA stepA strideA imgB stepB strideB ty th tx tw stack = m2 at *
  rw [h1, h2, h3, h4, h5]
  refine ⟨?_, ?_, ?_, ?_, ?_⟩
  · exact moment_eq kernel _ (fun j i => m2 (buffer2 + (j : Int) * 74 + (i : Int))) tx ty x y
      (fun j i hj hi => (hl j i hj hi).1)
  · exact moment_eq kernel _ (fun j i => m2 (buffer3 + (j : Int) * 74 + (i : Int))) tx ty x y
      (fun j i hj hi => (hl j i hj hi).2)
  · exact moment_eq kernel
      (fun u v => pixel imgA W H stepA strideA u v * pixel imgA W H stepA strideA u v)
      (fun j i => m2 (buffer2 + (j : Int) * 74 + (i : Int)) *
        m2 (buffer2 + (j : Int) * 74 + (i : Int))) tx ty x y
      (fun j i hj hi => by
        show m2 (buffer2 + ((y + j : Nat) : Int) * 74 + ((x + i : Nat) : Int)) *
          m2 (buffer2 + ((y + j : Nat) : Int) * 74 + ((x + i : Nat) : Int)) = _
        rw [(hl j i hj hi).1])
  · exact moment_eq kernel
      (fun u v => pixel imgB W H stepB strideB u v * pixel imgB W H stepB strideB u v)
      (fun j i => m2 (buffer3 + (j : Int) * 74 + (i : Int)) *
        m2 (buffer3 + (j : Int) * 74 + (i : Int))) tx ty x y
      (fun j i hj hi => by
        show m2 (buffer3 + ((y + j : Nat) : Int) * 74 + ((x + i : Nat) : Int)) *
          m2 (buffer3 + ((y + j : Nat) : Int) * 74 + ((x + i : Nat) : Int)) = _
        rw [(hl j i hj hi).2])
  · exact moment_eq kernel
      (fun u v => pixel imgA W H stepA strideA u v * pixel imgB W H stepB strideB u v)
      (fun j i => m2 (buffer2 + (j : Int) * 74 + (i : Int)) *
        m2 (buffer3 + (j : Int) * 74 + (i : Int))) tx ty x y
      (fun j i hj hi => by
        show m2 (buffer2 + ((y + j : Nat) : Int) * 74 + ((x + i : Nat) : Int)) *
          m2 (buffer3 + ((y + j : Nat) : Int) * 74 + ((x + i : Nat) : Int)) = _
        rw [(hl j i hj hi).1, (hl j i hj hi).2])

end

section
variable {K : Type}

theorem MapInv_congr (P Q : Nat → Nat → Prop) (val : Nat → Nat → K) (s t : Int)
    (map0 cur : Mem K) (hPQ : ∀ x y, P x y ↔ Q x y) (h : MapInv P val s t map0 cur) :
    MapInv Q val s t map0 cur := by
  intro q
  rcases h q with ⟨x, y, hp, ha, hv⟩ | ⟨hn, hv⟩
  · exact Or.inl ⟨x, y, (hPQ x y).mp hp, ha, hv⟩
  · exact Or.inr ⟨fun x y hq => hn x y ((hPQ x y).mpr hq), hv⟩

theorem MapInv_init (val : Nat → Nat → K) (s t : Int) (map0 : Mem K) :
    MapInv (fun _ _ => False) val s t map0 map0 := by
  intro q
  exact Or.inr ⟨fun _ _ h => h.elim, rfl⟩

theorem MapInv_write (P : Nat → Nat → Prop) (val : Nat → Nat → K) (s t : Int)
    (map0 cur : Mem K) (a b : Nat) (h : MapInv P val s t map0 cur) :
    MapInv (fun X Y => P X Y ∨ (X = a ∧ Y = b)) val s t map0
      (write cur ((a : Int) * s + (b : Int) * t) (val a b)) := by
  intro q
  by_cases hq : q = (a : Int) * s + (b : Int) * t
  · subst hq
    exact Or.inl ⟨a, b, Or.inr ⟨rfl, rfl⟩, rfl, write_same _ _ _⟩
  · rw [write_other _ _ _ _ hq]
    rcases h q with ⟨x, y, hp, ha, hv⟩ | ⟨hn, hv⟩
    · exact Or.inl ⟨x, y, Or.inl hp, ha, hv⟩
    · refine Or.inr ⟨?_, hv⟩
      intro x y hxy
      rcases hxy with hp | ⟨rfl, rfl⟩
      · exact hn x y hp
      · exact fun e => hq e.symm

theorem InTile_step (tx ty tw k j : Nat) (hj : j < tw) (X Y : Nat) :
    (InTile tx ty tw k j X Y ∨ (X = tx + j ∧ Y = ty + k)) ↔ InTile tx ty tw k (j + 1) X Y := by
  constructor
  · rintro (⟨x, y, hX, hY, hx, hd⟩ | ⟨hX, hY⟩)
    · refine ⟨x, y, hX, hY, hx, ?_⟩
      rcases hd with h | ⟨h1, h2⟩
      · exact Or.inl h
      · exact Or.inr ⟨h1, Nat.lt_succ_of_lt h2⟩
    · exact ⟨j, k, hX, hY, hj, Or.inr ⟨rfl, Nat.lt_succ_self j⟩⟩
  · rintro ⟨x, y, hX, hY, hx, hd⟩
    rcases hd with h | ⟨h1, h2⟩
    · exact Or.inl ⟨x, y, hX, hY, hx, Or.inl h⟩
    · rcases Nat.lt_succ_iff_lt_or_eq.mp h2 with h3 | h3
      · exact Or.inl ⟨x, y, hX, hY, hx, Or.inr ⟨h1, h3⟩⟩
      · subst h1 h3
        exact Or.inr ⟨hX, hY⟩

theorem InTile_row (tx ty tw k : Nat) (X Y : Nat) :
    InTile tx ty tw k tw X Y ↔ InTile tx ty tw (k + 1) 0 X Y := by
  constructor
  · rintro ⟨x, y, hX, hY, hx, hd⟩
    refine ⟨x, y, hX, hY, hx, ?_⟩
    rcases hd with h | ⟨h1, _⟩
    · exact Or.inl (Nat.lt_succ_of_lt h)
    · exact Or.inl (by omega)
  · rintro ⟨x, y, hX, hY, hx, hd⟩
    refine ⟨x, y, hX, hY, hx, ?_⟩
    rcases hd with h | ⟨_, h⟩
    · rcases Nat.lt_succ_iff_lt_or_eq.mp h with h' | h'
      · exact Or.inl h'
      · exact Or.inr ⟨h', hx⟩
    · omega

theorem InTile_zero (tx ty tw : Nat) (X Y : Nat) : ¬ InTile tx ty tw 0 0 X Y := by
  rintro ⟨x, y, _, _, _, hd⟩
  rcases hd with h | ⟨_, h⟩ <;> omega

theorem InTile_full (tx ty tw th : Nat) (X Y : Nat) :
    InTile tx ty tw th 0 X Y ↔ (tx ≤ X ∧ X < tx + tw ∧ ty ≤ Y ∧ Y < ty + th) := by
  constructor
  · rintro ⟨x, y, hX, hY, hx, hd⟩
    rcases hd with h | ⟨_, h⟩
    · omega
    · omega
  · rintro ⟨h1, h2, h3, h4⟩
    exact ⟨X - tx, Y - ty, by omega, by omega, by omega, Or.inl (by omega)⟩

end

section
variable {K : Type} [Field K]

theorem tileCombine_some (m : Mem K) (mp0 map0 : Mem K) (s t : Int) (ty th tx tw : Nat)
    (P : Nat → Nat → Prop) (val : Nat → Nat → K)
    (hinv : MapInv P val s t map0 mp0)
    (hval : ∀ y x : Nat, y < th → x < tw →
      ssimCombine c1 c2 (m (buffer1 + ((0 : Int) + y) * (tileSize : Int) + ((0 : Int) + x)))
        (m (buffer2 + ((0 : Int) + y) * (tileSize : Int) + ((0 : Int) + x)))
        (m (buffer3 + ((0 : Int) + y) * (tileSize : Int) + ((0 : Int) + x)))
        (m (buffer4 + ((0 : Int) + y) * (tileSize : Int) + ((0 : Int) + x)))
        (m (buffer5 + ((0 : Int) + y) * (tileSize : Int) + ((0 : Int) + x))) =
      val (tx + x) (ty + y)) :
    (tileCombine m (some mp0) s t ty th tx tw).tileSum =
        ∑ y in Finset.range th, ∑ x in Finset.range tw, val (tx + x) (ty + y) ∧
    ∃ mp, (tileCombine m (some mp0) s t ty th tx tw).map = some mp ∧
      MapInv (fun X Y => P X Y ∨ InTile tx ty tw th 0 X Y) val s t map0 mp := by
  unfold tileCombine
  refine forRange_inv
    (fun k (cs : CombineState K) =>
      cs.tileSum = ∑ y in Finset.range k, ∑ x in Finset.range tw, val (tx + x) (ty + y) ∧
      ∃ mp, cs.map = some mp ∧
        MapInv (fun X Y => P X Y ∨ InTile tx ty tw k 0 X Y) val s t map0 mp) _ _ _ _ ?_ ?_
  · refine ⟨by simp, mp0, rfl, ?_⟩
    apply MapInv_congr P _ val s t map0 mp0 _ hinv
    intro X Y
    constructor
    · exact fun h => Or.inl h
    · rintro (h | h)
      · exact h
      · exact (InTile_zero tx ty tw X Y h).elim
  · intro k hk cs hcs
    obtain ⟨hsum, mp, hmp, hmap⟩ := hcs
    have hrow := forRange_inv
      (fun j (cs' : CombineState K) =>
        cs'.tileSum = (∑ y in Finset.range k, ∑ x in Finset.range tw, val (tx + x) (ty + y)) +
          ∑ x in Finset.range j, val (tx + x) (ty + k) ∧
        cs'.ssimPtr = ((tx + j : Nat) : Int) * s + ((ty + k : Nat) : Int) * t ∧
        ∃ mp, cs'.map = some mp ∧
          MapInv (fun X Y => P X Y ∨ InTile tx ty tw k j X Y) val s t map0 mp)
      0 tw
      (fun x (cs : CombineState K) =>
          let ssim := ssimCombine c1 c2
            (m (buffer1 + ((0 : Int) + k) * (tileSize : Int) + x))
            (m (buffer2 + ((0 : Int) + k) * (tileSize : Int) + x))
            (m (buffer3 + ((0 : Int) + k) * (tileSize : Int) + x))
            (m (buffer4 + ((0 : Int) + k) * (tileSize : Int) + x))
            (m (buffer5 + ((0 : Int) + k) * (tileSize : Int) + x))
          match cs.map with
          | some map =>
            { tileSum := cs.tileSum + ssim
              map := some (write map cs.ssimPtr ssim)
              ssimPtr := cs.ssimPtr + s }
          | none => { cs with tileSum := cs.tileSum + ssim })
      { cs with ssimPtr := (tx : Int) * s + (ty : Int) * t + ((0 : Int) + k) * t }
      (by
        refine ⟨by simp [hsum], by push_cast; ring, mp, hmp, hmap⟩)
      (by
        intro j hj cs' hcs'
        obtain ⟨hsum', hptr, mp', hmp', hmap'⟩ := hcs'
        simp only [hmp']
        rw [hval k j hk hj]
        refine ⟨?_, ?_, _, rfl, ?_⟩
        · rw [hsum', Finset.sum_range_succ]; ring
        · rw [hptr]; push_cast; ring
        · rw [hptr]
          have hw := MapInv_write _ val s t map0 mp' (tx + j) (ty + k) hmap'
          apply MapInv_congr _ _ val s t map0 _ _ hw
          intro X Y
          rw [or_assoc, InTile_step tx ty tw k j hj X Y])
    obtain ⟨hsum', _, mp', hmp', hmap'⟩ := hrow
    refine ⟨hsum'.trans ?_, mp', hmp', ?_⟩
    · rw [Finset.sum_range_succ]
    · apply MapInv_congr _ _ val s t map0 _ _ hmap'
      intro X Y
      rw [InTile_row tx ty tw k X Y]

theorem tileCombine_none (m : Mem K) (s t : Int) (ty th tx tw : Nat)
    (val : Nat → Nat → K)
    (hval : ∀ y x : Nat, y < th → x < tw →
      ssimCombine c1 c2 (m (buffer1 + ((0 : Int) + y) * (tileSize : Int) + ((0 : Int) + x)))
        (m (buffer2 + ((0 : Int) + y) * (tileSize : Int) + ((0 : Int) + x)))
        (m (buffer3 + ((0 : Int) + y) * (tileSize : Int) + ((0 : Int) + x)))
        (m (buffer4 + ((0 : Int) + y) * (tileSize : Int) + ((0 : Int) + x)))
        (m (buffer5 + ((0 : Int) + y) * (tileSize : Int) + ((0 : Int) + x))) =
      val (tx + x) (ty + y)) :
    (tileCombine m none s t ty th tx tw).tileSum =
        ∑ y in Finset.range th, ∑ x in Finset.range tw, val (tx + x) (ty + y) ∧
    (tileCombine m none s t ty th tx tw).map = none := by
  unfold tileCombine
  refine forRange_inv
    (fun k (cs : CombineState K) =>
      cs.tileSum = ∑ y in Finset.range k, ∑ x in Finset.range tw, val (tx + x) (ty + y) ∧
      cs.map = none) _ _ _ _ ?_ ?_
  · exact ⟨by simp, rfl⟩
  · intro k hk cs hcs
    obtain ⟨hsum, hmp⟩ := hcs
    have hrow := forRange_inv
      (fun j (cs' : CombineState K) =>
        cs'.tileSum = (∑ y in Finset.range k, ∑ x in Finset.range tw, val (tx + x) (ty + y)) +
          ∑ x in Finset.range j, val (tx + x) (ty + k) ∧ cs'.map = none)
      0 tw
      (fun x (cs : CombineState K) =>
          let ssim := ssimCombine c1 c2
            (m (buffer1 + ((0 : Int) + k) * (tileSize : Int) + x))
            (m (buffer2 + ((0 : Int) + k) * (tileSize : Int) + x))
            (m (buffer3 + ((0 : Int) + k) * (tileSize : Int) + x))
            (m (buffer4 + ((0 : Int) + k) * (tileSize : Int) + x))
            (m (buffer5 + ((0 : Int) + k) * (tileSize : Int) + x))
          match cs.map with
          | some map =>
            { tileSum := cs.tileSum + ssim
              map := some (write map cs.ssimPtr ssim)
              ssimPtr := cs.ssimPtr + s }
          | none => { cs with tileSum := cs.tileSum + ssim })
      { cs with ssimPtr := (tx : Int) * s + (ty : Int) * t + ((0 : Int) + k) * t }
      (by
        exact ⟨by simp [hsum], hmp⟩)
      (by
        intro j hj cs' hcs'
        obtain ⟨hsum', hmp'⟩ := hcs'
        simp only [hmp']
        rw [hval k j hk hj]
        refine ⟨?_, trivial⟩
        rw [hsum', Finset.sum_range_succ]; ring)
    obtain ⟨hsum', hmp'⟩ := hrow
    refine ⟨hsum'.trans ?_, hmp'⟩
    rw [Finset.sum_range_succ]

end

section
variable {K : Type}

theorem MapOk_congr (P Q : Nat → Nat → Prop) (val : Nat → Nat → K) (s t : Int)
    (map0 cur : Option (Mem K)) (hPQ : ∀ x y, P x y ↔ Q x y) (h : MapOk P val s t map0 cur) :
    MapOk Q val s t map0 cur := by
  unfold MapOk at *
  cases map0 with
  | none => exact h
  | some m0 =>
    obtain ⟨mp, h1, h2⟩ := h
    exact ⟨mp, h1, MapInv_congr P Q val s t m0 mp hPQ h2⟩

theorem tileLoop_inv {σ : Type} (bound : Nat) (body : Nat → σ → Option σ)
    (Inv : Nat → σ → Prop) (hb : bound + 64 ≤ 2 ^ 32)
    (hbody : ∀ t s, t < bound → Inv t s → ∃ s', body t s = some s' ∧ Inv (t + 64) s') :
    ∀ (n fuel t : Nat) (s : σ), bound ≤ t + 64 * n → n < fuel → Inv t s →
      ∃ s' t', tileLoop bound body fuel t s = some s' ∧ bound ≤ t' ∧ Inv t' s' := by
  intro n
  induction n with
  | zero =>
    intro fuel t s hbt hf hinv
    obtain ⟨f, rfl⟩ : ∃ f, fuel = f + 1 := ⟨fuel - 1, by omega⟩
    refine ⟨s, t, ?_, by omega, hinv⟩
    unfold tileLoop
    rw [if_neg (by omega)]
  | succ n ih =>
    intro fuel t s hbt hf hinv
    obtain ⟨f, rfl⟩ : ∃ f, fuel = f + 1 := ⟨fuel - 1, by omega⟩
    unfold tileLoop
    by_cases ht : t < bound
    · rw [if_pos ht]
      obtain ⟨s', hs', hinv'⟩ := hbody t s ht hinv
      rw [hs']
      have e : (t + tileSize) % 2 ^ 32 = t + 64 := by
        unfold tileSize
        exact Nat.mod_eq_of_lt (by omega)
      simp only [e]
      exact ih f (t + 64) s' (by omega) (by omega) hinv'
    · rw [if_neg ht]
      exact ⟨s, t, rfl, by omega, hinv⟩

end

section
variable {K : Type} [Field K]

theorem tileBody_spec (kernel : Mem K) (W H : Nat)
    (imgA : Int → Nat) (stepA strideA : Int) (imgB : Int → Nat) (stepB strideB : Int)
    (s t : Int) (ty th tx : Nat) (st : SsimState K) (map0 : Option (Mem K))
    (P : Nat → Nat → Prop)
    (htx : tx < W) (hty : ty < H) (hth : 1 ≤ th) (hth' : th ≤ 64)
    (hxr : W + 5 < 2 ^ 31) (hyr : ty + th + 5 < 2 ^ 31) (hH : H < 2 ^ 31)
    (hmap : MapOk P (ssimPixel kernel W H imgA stepA strideA imgB stepB strideB) s t map0 st.map) :
    (tileBody kernel W H imgA stepA strideA imgB stepB strideB s t ty th tx st).sum =
        st.sum + ∑ y in Finset.range th, ∑ x in Finset.range (min 64 (W - tx)),
          ssimPixel kernel W H imgA stepA strideA imgB stepB strideB (tx + x) (ty + y) ∧
      MapOk (fun X Y => P X Y ∨ (tx ≤ X ∧ X < tx + min 64 (W - tx) ∧ ty ≤ Y ∧ Y < ty + th))
        (ssimPixel kernel W H imgA stepA strideA imgB stepB strideB) s t map0
        (tileBody kernel W H imgA stepA strideA imgB stepB strideB s t ty th tx st).map := by
  unfold tileBody
  have e64 : tileSize = 64 := rfl
  simp only [e64]
  have hval : ∀ y x : Nat, y < th → x < min 64 (W - tx) →
      ssimCombine c1 c2
        (tileMoments kernel W H imgA stepA strideA imgB stepB strideB ty th tx
          (min 64 (W - tx)) st.stack (buffer1 + ((0 : Int) + y) * (tileSize : Int) + ((0 : Int) + x)))
        (tileMoments kernel W H imgA stepA strideA imgB stepB strideB ty th tx
          (min 64 (W - tx)) st.stack (buffer2 + ((0 : Int) + y) * (tileSize : Int) + ((0 : Int) + x)))
        (tileMoments kernel W H imgA stepA strideA imgB stepB strideB ty th tx
          (min 64 (W - tx)) st.stack (buffer3 + ((0 : Int) + y) * (tileSize : Int) + ((0 : Int) + x)))
        (tileMoments kernel W H imgA stepA strideA imgB stepB strideB ty th tx
          (min 64 (W - tx)) st.stack (buffer4 + ((0 : Int) + y) * (tileSize : Int) + ((0 : Int) + x)))
        (tileMoments kernel W H imgA stepA strideA imgB stepB strideB ty th tx
          (min 64 (W - tx)) st.stack (buffer5 + ((0 : Int) + y) * (tileSize : Int) + ((0 : Int) + x))) =
      ssimPixel kernel W H imgA stepA strideA imgB stepB strideB (tx + x) (ty + y) := by
    intro y x hy hx
    obtain ⟨h1, h2, h3, h4, h5⟩ := tileMoments_spec kernel W H imgA stepA strideA imgB stepB
      strideB ty th tx (min 64 (W - tx)) st.stack htx hty (by omega) hth (by omega) hth'
      (by omega) hyr (by omega) hH y x hy hx
    have ets : ((tileSize : Nat) : Int) = 64 := rfl
    simp only [zero_add, ets]
    rw [h1, h2, h3, h4, h5]
    unfold ssimPixel ssimAt
    push_cast
    rfl
  unfold MapOk at hmap ⊢
  cases map0 with
  | none =>
    simp only at hmap ⊢
    rw [hmap]
    obtain ⟨hs, hm⟩ := tileCombine_none
      (tileMoments kernel W H imgA stepA strideA imgB stepB strideB ty th tx
        (min 64 (W - tx)) st.stack) s t ty th tx (min 64 (W - tx))
      (ssimPixel kernel W H imgA stepA strideA imgB stepB strideB) hval
    exact ⟨by rw [hs], hm⟩
  | some m0 =>
    simp only at hmap ⊢
    obtain ⟨mp, hmp, hinv⟩ := hmap
    rw [hmp]
    obtain ⟨hs, mp', hm, hinv'⟩ := tileCombine_some
      (tileMoments kernel W H imgA stepA strideA imgB stepB strideB ty th tx
        (min 64 (W - tx)) st.stack) mp m0 s t ty th tx (min 64 (W - tx)) P
      (ssimPixel kernel W H imgA stepA strideA imgB stepB strideB) hinv hval
    refine ⟨by rw [hs], mp', hm, ?_⟩
    apply MapInv_congr _ _ _ s t m0 mp' _ hinv'
    intro X Y
    rw [InTile_full]

end

section
variable {K : Type} [Field K]

/-- One row of tiles: the inner tile loop of `compute_ssim`. -/
theorem tileRow_spec (kernel : Mem K) (W H : Nat)
    (imgA : Int → Nat) (stepA strideA : Int) (imgB : Int → Nat) (stepB strideB : Int)
    (s t : Int) (ty : Nat) (st : SsimState K) (map0 : Option (Mem K))
    (P : Nat → Nat → Prop) (fuel : Nat)
    (hty : ty < H) (hxr : W + 5 < 2 ^ 31) (hyr : H + 5 < 2 ^ 31)
    (hfuel : (W + 63) / 64 < fuel)
    (hmap : MapOk P (ssimPixel kernel W H imgA stepA strideA imgB stepB strideB) s t map0 st.map) :
    ∃ st', tileLoop W (fun tx st => some (tileBody kernel W H imgA stepA strideA
          imgB stepB strideB s t ty (min tileSize (H - ty)) tx st)) fuel 0 st = some st' ∧
      st'.sum = st.sum + ∑ y in Finset.range (min 64 (H - ty)), ∑ x in Finset.range W,
          ssimPixel kernel W H imgA stepA strideA imgB stepB strideB x (ty + y) ∧
      MapOk (fun X Y => P X Y ∨ (X < W ∧ ty ≤ Y ∧ Y < ty + min 64 (H - ty)))
        (ssimPixel kernel W H imgA stepA strideA imgB stepB strideB) s t map0 st'.map := by
  have e64 : tileSize = 64 := rfl
  rw [e64]
  obtain ⟨st', t', hrun, ht', hsum, hmp⟩ := tileLoop_inv W
    (fun tx st => some (tileBody kernel W H imgA stepA strideA
          imgB stepB strideB s t ty (min 64 (H - ty)) tx st))
    (fun tx st' =>
      st'.sum = st.sum + ∑ y in Finset.range (min 64 (H - ty)), ∑ x in Finset.range (min tx W),
          ssimPixel kernel W H imgA stepA strideA imgB stepB strideB x (ty + y) ∧
      MapOk (fun X Y => P X Y ∨ (X < min tx W ∧ ty ≤ Y ∧ Y < ty + min 64 (H - ty)))
        (ssimPixel kernel W H imgA stepA strideA imgB stepB strideB) s t map0 st'.map)
    (by omega)
    (by
      intro tx st1 htx hinv
      obtain ⟨hs1, hm1⟩ := hinv
      refine ⟨_, rfl, ?_⟩
      obtain ⟨hs2, hm2⟩ := tileBody_spec kernel W H imgA stepA strideA imgB stepB strideB s t
        ty (min 64 (H - ty)) tx st1 map0 _ htx hty (by omega) (by omega) hxr (by omega)
        (by omega) hm1
      have emin : min (tx + 64) W = tx + min 64 (W - tx) := by omega
      have emin' : min tx W = tx := by omega
      constructor
      · rw [hs2, hs1, add_assoc, ← Finset.sum_add_distrib, emin, emin']
        congr 1
        apply Finset.sum_congr rfl
        intro y _
        rw [Finset.sum_range_add]
      · apply MapOk_congr _ _ _ s t map0 _ _ hm2
        intro X Y
        constructor
        · rintro ((h | h) | h)
          · exact Or.inl h
          · exact Or.inr ⟨by omega, h.2.1, h.2.2⟩
          · exact Or.inr ⟨by omega, h.2.2.1, h.2.2.2⟩
        · rintro (h | h)
          · exact Or.inl (Or.inl h)
          · by_cases hX : X < tx
            · exact Or.inl (Or.inr ⟨by omega, h.2.1, h.2.2⟩)
            · exact Or.inr ⟨by omega, by omega, h.2.1, h.2.2⟩)
    ((W + 63) / 64) fuel 0 st (by omega) hfuel
    (by
      refine ⟨by simp, ?_⟩
      apply MapOk_congr _ _ _ s t map0 _ _ hmap
      intro X Y
      constructor
      · exact fun h => Or.inl h
      · rintro (h | h)
        · exact h
        · omega)
  refine ⟨st', hrun, ?_, ?_⟩
  · rw [hsum, Nat.min_eq_right ht']
  · rw [Nat.min_eq_right ht'] at hmp
    exact hmp

/-- The two tile loops of `compute_ssim`. -/
theorem tileLoops_spec (kernel : Mem K) (W H : Nat)
    (imgA : Int → Nat) (stepA strideA : Int) (imgB : Int → Nat) (stepB strideB : Int)
    (s t : Int) (st : SsimState K) (map0 : Option (Mem K)) (fuel : Nat)
    (hxr : W + 5 < 2 ^ 31) (hyr : H + 5 < 2 ^ 31)
    (hfw : (W + 63) / 64 < fuel) (hfh : (H + 63) / 64 < fuel)
    (hsum : st.sum = 0) (hmap : st.map = map0) :
    ∃ st', tileLoop H (fun ty st => tileLoop W (fun tx st => some (tileBody kernel W H
          imgA stepA strideA imgB stepB strideB s t ty (min tileSize (H - ty)) tx st))
          fuel 0 st) fuel 0 st = some st' ∧
      st'.sum = ∑ y in Finset.range H, ∑ x in Finset.range W,
          ssimPixel kernel W H imgA stepA strideA imgB stepB strideB x y ∧
      MapOk (fun X Y => X < W ∧ Y < H)
        (ssimPixel kernel W H imgA stepA strideA imgB stepB strideB) s t map0 st'.map := by
  obtain ⟨st', t', hrun, ht', hs, hmp⟩ := tileLoop_inv H
    (fun ty st => tileLoop W (fun tx st => some (tileBody kernel W H
          imgA stepA strideA imgB stepB strideB s t ty (min tileSize (H - ty)) tx st))
          fuel 0 st)
    (fun ty st' =>
      st'.sum = ∑ y in Finset.range (min ty H), ∑ x in Finset.range W,
          ssimPixel kernel W H imgA stepA strideA imgB stepB strideB x y ∧
      MapOk (fun X Y => X < W ∧ Y < min ty H)
        (ssimPixel kernel W H imgA stepA strideA imgB stepB strideB) s t map0 st'.map)
    (by omega)
    (by
      intro ty st1 hty hinv
      obtain ⟨hs1, hm1⟩ := hinv
      obtain ⟨st2, hrun2, hs2, hm2⟩ := tileRow_spec kernel W H imgA stepA strideA imgB stepB
        strideB s t ty st1 map0 _ fuel hty hxr hyr hfw hm1
      refine ⟨st2, hrun2, ?_, ?_⟩
      · have emin : min (ty + 64) H = ty + min 64 (H - ty) := by omega
        have emin' : min ty H = ty := by omega
        rw [hs2, hs1, emin, emin', Finset.sum_range_add]
      · apply MapOk_congr _ _ _ s t map0 _ _ hm2
        intro X Y
        constructor
        · rintro (h | h)
          · exact ⟨h.1, by omega⟩
          · exact ⟨h.1, by omega⟩
        · rintro ⟨h1, h2⟩
          by_cases hY : Y < ty
          · exact Or.inl ⟨h1, by omega⟩
          · exact Or.inr ⟨h1, by omega, by omega⟩)
    ((H + 63) / 64) fuel 0 st (by omega) hfh
    (by
      refine ⟨by simp [hsum], ?_⟩
      unfold MapOk
      cases map0 with
      | none => exact hmap
      | some m0 =>
        refine ⟨m0, hmap, ?_⟩
        apply MapInv_congr _ _ _ s t m0 m0 _ (MapInv_init _ s t m0)
        intro X Y
        constructor
        · exact fun h => h.elim
        · rintro ⟨_, h⟩
          omega)
  refine ⟨st', hrun, ?_, ?_⟩
  · rw [hs, Nat.min_eq_right ht']
  · rw [Nat.min_eq_right ht'] at hmp
    exact hmp

end

section
variable {K : Type} [Field K]

/-- The result of `compute_ssim` for non-null images of in-range size, given enough fuel:
the sum of the per-pixel values divided by `width * height` taken in `uint32_t`, and the
output map with every pixel written. -/
theorem compute_ssim_spec (expf : K → K) (pi : K) (fuel : Nat) (junk : Mem K) (W H : Nat)
    (imgA : Int → Nat) (stepA strideA : Int) (imgB : Int → Nat) (stepB strideB : Int)
    (ssimMap : Option (Mem K)) (ssimStep ssimStride : Int)
    (hxr : W + 5 < 2 ^ 31) (hyr : H + 5 < 2 ^ 31)
    (hfw : (W + 63) / 64 < fuel) (hfh : (H + 63) / 64 < fuel) :
    ∃ map', compute_ssim expf pi fuel junk W H (some imgA) stepA strideA (some imgB) stepB strideB
        ssimMap ssimStep ssimStride =
        some ((∑ y in Finset.range H, ∑ x in Finset.range W,
            ssimPixel (precompute_gaussian_kernel expf pi junk radius (3 / 2)) W H
              imgA stepA strideA imgB stepB strideB x y) / (((W * H) % 2 ^ 32 : Nat) : K),
          map') ∧
      MapOk (fun X Y => X < W ∧ Y < H)
        (ssimPixel (precompute_gaussian_kernel expf pi junk radius (3 / 2)) W H
          imgA stepA strideA imgB stepB strideB)
        (if ssimMap.isNone then 0 else ssimStep) (if ssimMap.isNone then 0 else ssimStride)
        ssimMap map' := by
  obtain ⟨st', hrun, hs, hmp⟩ := tileLoops_spec
    (precompute_gaussian_kernel expf pi junk radius (3 / 2)) W H imgA stepA strideA
    imgB stepB strideB (if ssimMap.isNone then 0 else ssimStep)
    (if ssimMap.isNone then 0 else ssimStride)
    ({ stack := junk, map := ssimMap, sum := 0 } : SsimState K) ssimMap fuel hxr hyr hfw hfh
    rfl rfl
  refine ⟨st'.map, ?_, hmp⟩
  unfold compute_ssim
  simp only [hrun, hs]

end

section
variable {K : Type} [LinearOrderedField K]

theorem precomputed_kernel_ok (expf : K → K) (pi : K) (junk : Mem K)
    (hexp : ∀ t, 0 < expf t) (hpi : 0 < pi) :
    KernelOk (precompute_gaussian_kernel expf pi junk radius (3 / 2)) := by
  have hs : (0 : K) < 3 / 2 := by norm_num
  have hS := kernelTotal_pos expf pi radius (3 / 2) hexp hpi hs
  constructor
  · intro j i hj hi
    rw [precompute_gaussian_kernel_cell expf pi junk radius (3 / 2) j i hj hi]
    exact le_of_lt (div_pos (kernelWeight_pos expf pi radius (3 / 2) hexp hpi hs _ _) hS)
  · exact kernel_sum_rows expf pi junk radius (3 / 2) (ne_of_gt hS)

theorem precomputed_kernel_pos (expf : K → K) (pi : K) (junk : Mem K)
    (hexp : ∀ t, 0 < expf t) (hpi : 0 < pi) (j i : Nat) (hj : j < 2 * radius + 1)
    (hi : i < 2 * radius + 1) :
    0 < precompute_gaussian_kernel expf pi junk radius (3 / 2)
      ((j : Int) * (2 * (radius : Int) + 1) + i) := by
  have hs : (0 : K) < 3 / 2 := by norm_num
  have hS := kernelTotal_pos expf pi radius (3 / 2) hexp hpi hs
  rw [precompute_gaussian_kernel_cell expf pi junk radius (3 / 2) j i hj hi]
  exact div_pos (kernelWeight_pos expf pi radius (3 / 2) hexp hpi hs _ _) hS

theorem moment_congr (kernel : Mem K) (f g : Int → Int → K) (x y : Int)
    (h : ∀ u v, f u v = g u v) : moment kernel f x y = moment kernel g x y := by
  unfold moment
  simp only [h]

/-- The windowed moment is linear and, the weights adding up to one, keeps constants. -/
theorem moment_linear (kernel : Mem K) (hk : KernelOk kernel) (f g : Int → Int → K)
    (a b c : K) (x y : Int) :
    moment kernel (fun u v => a * f u v + b * g u v + c) x y =
      a * moment kernel f x y + b * moment kernel g x y + c := by
  unfold moment
  have h1 := hk.2
  have step : ∀ w p q : K, w * (a * p + b * q + c) = a * (w * p) + b * (w * q) + c * w := by
    intro w p q; ring
  simp only [step, Finset.sum_add_distrib, ← Finset.mul_sum, h1, mul_one]

theorem moment_nonneg (kernel : Mem K) (hk : KernelOk kernel) (f : Int → Int → K)
    (hf : ∀ u v, 0 ≤ f u v) (x y : Int) : 0 ≤ moment kernel f x y := by
  unfold moment
  apply Finset.sum_nonneg
  intro j hj
  apply Finset.sum_nonneg
  intro i hi
  exact mul_nonneg (hk.1 j i (Finset.mem_range.mp hj) (Finset.mem_range.mp hi)) (hf _ _)

/-- Non-negativity of the windowed variance: `E[f]² ≤ E[f²]`. -/
theorem moment_sq_le (kernel : Mem K) (hk : KernelOk kernel) (f : Int → Int → K) (x y : Int) :
    moment kernel f x y * moment kernel f x y ≤ moment kernel (fun u v => f u v * f u v) x y := by
  have h0 := moment_nonneg kernel hk
    (fun u v => (f u v - moment kernel f x y) * (f u v - moment kernel f x y))
    (fun u v => mul_self_nonneg _) x y
  have e : moment kernel
      (fun u v => (f u v - moment kernel f x y) * (f u v - moment kernel f x y)) x y =
      moment kernel (fun u v => 1 * (f u v * f u v) + (-2 * moment kernel f x y) * f u v +
        moment kernel f x y * moment kernel f x y) x y := by
    apply moment_congr
    intro u v
    ring
  rw [e, moment_linear kernel hk] at h0
  linarith

end

section
variable {K : Type} [LinearOrderedField K]

theorem c1_pos : (0 : K) < c1 := by
  unfold c1; norm_num

theorem c2_pos : (0 : K) < c2 := by
  unfold c2; norm_num

theorem prod_le_of_bounds (n1 n2 d1 d2 : K) (h1 : 0 < n1) (h2 : n1 ≤ d1) (h3 : n2 ≤ d2)
    (hd2 : 0 < d2) : n1 * n2 ≤ d1 * d2 := by
  by_cases hn2 : 0 ≤ n2
  · exact mul_le_mul h2 h3 hn2 (le_of_lt (lt_of_lt_of_le h1 h2))
  · push_neg at hn2
    have ha : n1 * n2 ≤ 0 := mul_nonpos_of_nonneg_of_nonpos (le_of_lt h1) (le_of_lt hn2)
    have hb : 0 ≤ d1 * d2 := mul_nonneg (le_of_lt (lt_of_lt_of_le h1 h2)) (le_of_lt hd2)
    linarith

/-- The algebra of the per-pixel combination: with non-negative means, non-negative
variances and a covariance bounded by the variances, both denominator factors are
positive and the quotient lies in `[-1, 1]`. -/
theorem ssimCombine_bounds (muA muB eA2 eB2 eAB : K) (hA : 0 ≤ muA) (hB : 0 ≤ muB)
    (hvA : muA * muA ≤ eA2) (hvB : muB * muB ≤ eB2)
    (hc1 : 2 * (eAB - muA * muB) ≤ (eA2 - muA * muA) + (eB2 - muB * muB))
    (hc2 : -((eA2 - muA * muA) + (eB2 - muB * muB)) ≤ 2 * (eAB - muA * muB)) :
    0 < muA * muA + muB * muB + c1 ∧
    0 < (eA2 - muA * muA) + (eB2 - muB * muB) + c2 ∧
    -1 ≤ ssimCombine c1 c2 muA muB eA2 eB2 eAB ∧
    ssimCombine c1 c2 muA muB eA2 eB2 eAB ≤ 1 := by
  have h1 : (0 : K) < c1 := c1_pos
  have h2 : (0 : K) < c2 := c2_pos
  have hsq : 0 ≤ (muA - muB) * (muA - muB) := mul_self_nonneg _
  have hab : 0 ≤ muA * muB := mul_nonneg hA hB
  have hd1 : 0 < muA * muA + muB * muB + c1 := by
    have := mul_self_nonneg muA
    have := mul_self_nonneg muB
    linarith
  have hd2 : 0 < (eA2 - muA * muA) + (eB2 - muB * muB) + c2 := by linarith
  have hn1 : 0 < 2 * (muA * muB) + c1 := by linarith
  have hn1' : 2 * (muA * muB) + c1 ≤ muA * muA + muB * muB + c1 := by
    have e : (muA - muB) * (muA - muB) = muA * muA + muB * muB - 2 * (muA * muB) := by ring
    linarith
  have hup := prod_le_of_bounds _ (2 * (eAB - muA * muB) + c2) _ _ hn1 hn1' (by linarith) hd2
  have hlo := prod_le_of_bounds _ (-(2 * (eAB - muA * muB) + c2)) _ _ hn1 hn1'
    (by linarith) hd2
  refine ⟨hd1, hd2, ?_, ?_⟩
  · unfold ssimCombine
    simp only
    rw [le_div_iff₀ (mul_pos hd1 hd2)]
    linarith
  · unfold ssimCombine
    simp only
    rw [div_le_one (mul_pos hd1 hd2)]
    exact hup

theorem pixel_nonneg (img : Int → Nat) (W H : Nat) (step stride : Int) (u v : Int) :
    (0 : K) ≤ pixel img W H step stride u v := by
  unfold pixel
  exact Nat.cast_nonneg _

/-- The covariance of two fields is bounded by their variances (both signs). -/
theorem moment_cov_bounds (kernel : Mem K) (hk : KernelOk kernel) (A B : Int → Int → K)
    (x y : Int) :
    2 * (moment kernel (fun u v => A u v * B u v) x y - moment kernel A x y * moment kernel B x y) ≤
        (moment kernel (fun u v => A u v * A u v) x y - moment kernel A x y * moment kernel A x y) +
        (moment kernel (fun u v => B u v * B u v) x y - moment kernel B x y * moment kernel B x y) ∧
    -((moment kernel (fun u v => A u v * A u v) x y - moment kernel A x y * moment kernel A x y) +
        (moment kernel (fun u v => B u v * B u v) x y - moment kernel B x y * moment kernel B x y)) ≤
      2 * (moment kernel (fun u v => A u v * B u v) x y -
        moment kernel A x y * moment kernel B x y) := by
  have hm : ∀ s : K, moment kernel (fun u v => A u v + s * B u v) x y =
      moment kernel A x y + s * moment kernel B x y := by
    intro s
    have e : moment kernel (fun u v => A u v + s * B u v) x y =
        moment kernel (fun u v => 1 * A u v + s * B u v + 0) x y := by
      apply moment_congr; intro u v; ring
    rw [e, moment_linear kernel hk]; ring
  have hq : ∀ s : K, moment kernel
      (fun u v => (A u v + s * B u v) * (A u v + s * B u v)) x y =
      moment kernel (fun u v => A u v * A u v) x y +
        2 * s * moment kernel (fun u v => A u v * B u v) x y +
        s * s * moment kernel (fun u v => B u v * B u v) x y := by
    intro s
    have e : moment kernel (fun u v => (A u v + s * B u v) * (A u v + s * B u v)) x y =
        moment kernel (fun u v => 1 * (A u v * A u v) +
          1 * ((2 * s) * (A u v * B u v) + (s * s) * (B u v * B u v) + 0) + 0) x y := by
      apply moment_congr; intro u v; ring
    rw [e, moment_linear kernel hk, moment_linear kernel hk]; ring
  have hminus := moment_sq_le kernel hk (fun u v => A u v + (-1) * B u v) x y
  have hplus := moment_sq_le kernel hk (fun u v => A u v + 1 * B u v) x y
  rw [hm, hq] at hminus hplus
  constructor
  · nlinarith
  · nlinarith

/-- The per-pixel SSIM value: both denominator factors positive, value in `[-1, 1]`. -/
theorem ssimPixel_bounds (kernel : Mem K) (hk : KernelOk kernel) (W H : Nat)
    (imgA : Int → Nat) (stepA strideA : Int) (imgB : Int → Nat) (stepB strideB : Int)
    (x y : Nat) :
    -1 ≤ ssimPixel kernel W H imgA stepA strideA imgB stepB strideB x y ∧
      ssimPixel kernel W H imgA stepA strideA imgB stepB strideB x y ≤ 1 := by
  unfold ssimPixel ssimAt
  have hc := moment_cov_bounds kernel hk (pixel imgA W H stepA strideA)
    (pixel imgB W H stepB strideB) x y
  have h := ssimCombine_bounds
    (moment kernel (pixel imgA W H stepA strideA) x y)
    (moment kernel (pixel imgB W H stepB strideB) x y)
    (moment kernel (fun u v => pixel imgA W H stepA strideA u v * pixel imgA W H stepA strideA u v) x y)
    (moment kernel (fun u v => pixel imgB W H stepB strideB u v * pixel imgB W H stepB strideB u v) x y)
    (moment kernel (fun u v => pixel imgA W H stepA strideA u v * pixel imgB W H stepB strideB u v) x y)
    (moment_nonneg kernel hk _ (fun u v => pixel_nonneg imgA W H stepA strideA u v) x y)
    (moment_nonneg kernel hk _ (fun u v => pixel_nonneg imgB W H stepB strideB u v) x y)
    (moment_sq_le kernel hk _ x y) (moment_sq_le kernel hk _ x y) hc.1 hc.2
  exact ⟨h.2.2.1, h.2.2.2⟩

end

section
variable {K : Type} [LinearOrderedField K]

theorem sum_grid_bounds (v : Nat → Nat → K) (W H : Nat)
    (h : ∀ x y, x < W → y < H → -1 ≤ v x y ∧ v x y ≤ 1) :
    -((W * H : Nat) : K) ≤ ∑ y in Finset.range H, ∑ x in Finset.range W, v x y ∧
      ∑ y in Finset.range H, ∑ x in Finset.range W, v x y ≤ ((W * H : Nat) : K) := by
  have hrow : ∀ y, y < H → -(W : K) ≤ ∑ x in Finset.range W, v x y ∧
      ∑ x in Finset.range W, v x y ≤ (W : K) := by
    intro y hy
    constructor
    · have := Finset.sum_le_sum (f := fun _ => (-1 : K)) (g := fun x => v x y)
        (s := Finset.range W) (fun x hx => (h x y (Finset.mem_range.mp hx) hy).1)
      simpa using this
    · have := Finset.sum_le_sum (f := fun x => v x y) (g := fun _ => (1 : K))
        (s := Finset.range W) (fun x hx => (h x y (Finset.mem_range.mp hx) hy).2)
      simpa using this
  constructor
  · have := Finset.sum_le_sum (f := fun _ => -(W : K))
      (g := fun y => ∑ x in Finset.range W, v x y)
      (s := Finset.range H) (fun y hy => (hrow y (Finset.mem_range.mp hy)).1)
    simp only [Finset.sum_const, Finset.card_range, nsmul_eq_mul] at this
    push_cast
    linarith
  · have := Finset.sum_le_sum (f := fun y => ∑ x in Finset.range W, v x y)
      (g := fun _ => (W : K))
      (s := Finset.range H) (fun y hy => (hrow y (Finset.mem_range.mp hy)).2)
    simp only [Finset.sum_const, Finset.card_range, nsmul_eq_mul] at this
    push_cast
    linarith

/-- The mean of per-pixel values in `[-1, 1]` over a non-empty grid lies in `[-1, 1]`. -/
theorem mean_grid_bounds (v : Nat → Nat → K) (W H : Nat) (hW : 1 ≤ W) (hH : 1 ≤ H)
    (h : ∀ x y, x < W → y < H → -1 ≤ v x y ∧ v x y ≤ 1) :
    -1 ≤ (∑ y in Finset.range H, ∑ x in Finset.range W, v x y) / ((W * H : Nat) : K) ∧
      (∑ y in Finset.range H, ∑ x in Finset.range W, v x y) / ((W * H : Nat) : K) ≤ 1 := by
  have hpos : (0 : K) < ((W * H : Nat) : K) := by
    have : 0 < W * H := Nat.mul_pos hW hH
    exact_mod_cast this
  obtain ⟨h1, h2⟩ := sum_grid_bounds v W H h
  constructor
  · rw [le_div_iff₀ hpos]; linarith
  · rw [div_le_one hpos]; exact h2

end

section
variable {K : Type} [LinearOrderedField K]

/-- Identity: the per-pixel value of an image against itself is 1. -/
theorem ssimPixel_self (kernel : Mem K) (hk : KernelOk kernel) (W H : Nat)
    (img : Int → Nat) (step stride : Int) (x y : Nat) :
    ssimPixel kernel W H img step stride img step stride x y = 1 := by
  unfold ssimPixel ssimAt ssimCombine
  simp only
  have hv := moment_sq_le kernel hk (pixel img W H step stride) x y
  have h1 : (0 : K) < c1 := c1_pos
  have h2 : (0 : K) < c2 := c2_pos
  have hm := mul_self_nonneg (moment kernel (pixel (K := K) img W H step stride) x y)
  apply div_eq_one_iff_eq (ne_of_gt (mul_pos (by linarith) (by linarith))) |>.mpr
  ring

theorem pixel_succ (img : Int → Nat) (W H : Nat) (step stride : Int) (u v : Int) :
    pixel (K := K) (fun i => img i + 1) W H step stride u v = pixel img W H step stride u v + 1 := by
  unfold pixel sampleAt
  push_cast
  rfl

/-- The per-pixel value of an image against its increment, in terms of the local mean
`mu`: `(2mu² + 2mu + C1) / (2mu² + 2mu + 1 + C1)`. -/
theorem ssimPixel_succ (kernel : Mem K) (hk : KernelOk kernel) (W H : Nat)
    (img : Int → Nat) (step stride : Int) (x y : Nat) :
    ssimPixel kernel W H img step stride (fun i => img i + 1) step stride x y =
      (2 * (moment kernel (pixel img W H step stride) x y *
          moment kernel (pixel img W H step stride) x y) +
        2 * moment kernel (pixel img W H step stride) x y + c1) /
      (2 * (moment kernel (pixel img W H step stride) x y *
          moment kernel (pixel img W H step stride) x y) +
        2 * moment kernel (pixel img W H step stride) x y + 1 + c1) := by
  unfold ssimPixel ssimAt ssimCombine
  simp only
  have eB : moment kernel (pixel (fun i => img i + 1) W H step stride) x y =
      moment kernel (pixel img W H step stride) x y + 1 := by
    have e : moment kernel (pixel (fun i => img i + 1) W H step stride) x y =
        moment kernel (fun u v => 1 * pixel img W H step stride u v +
          0 * pixel img W H step stride u v + 1) x y := by
      apply moment_congr; intro u v; rw [pixel_succ]; ring
    rw [e, moment_linear kernel hk]; ring
  have eB2 : moment kernel (fun u v => pixel (fun i => img i + 1) W H step stride u v *
      pixel (fun i => img i + 1) W H step stride u v) x y =
      moment kernel (fun u v => pixel img W H step stride u v *
        pixel img W H step stride u v) x y +
        2 * moment kernel (pixel img W H step stride) x y + 1 := by
    have e : moment kernel (fun u v => pixel (fun i => img i + 1) W H step stride u v *
        pixel (fun i => img i + 1) W H step stride u v) x y =
        moment kernel (fun u v => 1 * (pixel img W H step stride u v *
          pixel img W H step stride u v) + 2 * pixel img W H step stride u v + 1) x y := by
      apply moment_congr; intro u v; rw [pixel_succ]; ring
    rw [e, moment_linear kernel hk]; ring
  have eAB : moment kernel (fun u v => pixel img W H step stride u v *
      pixel (fun i => img i + 1) W H step stride u v) x y =
      moment kernel (fun u v => pixel img W H step stride u v *
        pixel img W H step stride u v) x y + moment kernel (pixel img W H step stride) x y := by
    have e : moment kernel (fun u v => pixel img W H step stride u v *
        pixel (fun i => img i + 1) W H step stride u v) x y =
        moment kernel (fun u v => 1 * (pixel img W H step stride u v *
          pixel img W H step stride u v) + 1 * pixel img W H step stride u v + 0) x y := by
      apply moment_congr; intro u v; rw [pixel_succ]; ring
    rw [e, moment_linear kernel hk]; ring
  rw [eB, eB2, eAB]
  have hv := moment_sq_le kernel hk (pixel img W H step stride) x y
  have hmu := moment_nonneg kernel hk _ (fun u v => pixel_nonneg (K := K) img W H step stride u v) x y
  have h1 : (0 : K) < c1 := c1_pos
  have h2 : (0 : K) < c2 := c2_pos
  generalize moment kernel (pixel img W H step stride) x y = mu at *
  generalize moment kernel (fun u v => pixel img W H step stride u v *
        pixel img W H step stride u v) x y = e2 at *
  have hmm := mul_self_nonneg mu
  have hd2 : 0 < 2 * (e2 - mu * mu) + c2 := by linarith
  have hd1 : 0 < 2 * (mu * mu) + 2 * mu + 1 + c1 := by linarith
  rw [div_eq_div_iff (ne_of_gt (mul_pos (by nlinarith) (by linarith))) (ne_of_gt hd1)]
  ring

theorem pixel_const (c : Nat) (W H : Nat) (step stride : Int) (u v : Int) :
    pixel (K := K) (fun _ => c) W H step stride u v = c := by
  unfold pixel sampleAt
  rfl

theorem moment_const_image (kernel : Mem K) (hk : KernelOk kernel) (c : Nat) (W H : Nat)
    (step stride : Int) (x y : Int) :
    moment kernel (pixel (fun _ => c) W H step stride) x y = c := by
  have e : moment kernel (pixel (fun _ => c) W H step stride) x y =
      moment kernel (fun u v => 0 * pixel (fun _ => c) W H step stride u v +
        0 * pixel (fun _ => c) W H step stride u v + (c : K)) x y := by
    apply moment_congr; intro u v; rw [pixel_const]; ring
  rw [e, moment_linear kernel hk]; ring

end

/-- A tile loop whose bound exceeds `2^32 - 64` never ends: the counter passes from
`2^32 - 64` back to 0 without ever reaching the bound. -/
theorem tileLoop_diverges {σ : Type} (bound : Nat) (body : Nat → σ → Option σ)
    (hb : 2 ^ 32 - 64 < bound) :
    ∀ (fuel t : Nat) (s : σ), t % 64 = 0 → t < 2 ^ 32 → tileLoop bound body fuel t s = none := by
  intro fuel
  induction fuel with
  | zero => intro t s _ _; rfl
  | succ f ih =>
    intro t s hm ht
    unfold tileLoop
    rw [if_pos (by omega)]
    cases body t s with
    | none => rfl
    | some s' =>
      simp only
      apply ih
      · unfold tileSize; omega
      · exact Nat.mod_lt _ (by norm_num)

/-- C20, at the failing input `height = 2^32 - 1` (any width, any images): whatever the
fuel, `compute_ssim` has not returned, because the outer tile loop never ends. -/
theorem compute_ssim_never_returns_tall {K : Type} [Field K] (expf : K → K) (pi : K)
    (fuel : Nat) (junk : Mem K) (width : Nat)
    (imgA : Int → Nat) (stepA strideA : Int) (imgB : Int → Nat) (stepB strideB : Int)
    (ssimMap : Option (Mem K)) (ssimStep ssimStride : Int) :
    compute_ssim expf pi fuel junk width 4294967295 (some imgA) stepA strideA
      (some imgB) stepB strideB ssimMap ssimStep ssimStride = none := by
  unfold compute_ssim
  simp only
  rw [tileLoop_diverges 4294967295 _ (by norm_num) fuel 0 _ (by norm_num) (by norm_num)]

/-- A terminating tile loop that appends one record per visit: the records are those of
the origins `0, 64, 128, ...` below the bound, in order. -/
theorem tileLoop_records {α : Type} (bound : Nat) (f : Nat → α) (hb : bound + 64 ≤ 2 ^ 32)
    (fuel : Nat) (hfuel : (bound + 63) / 64 < fuel) (acc : List α) :
    tileLoop bound (fun t acc => some (acc ++ [f t])) fuel 0 acc =
      some (acc ++ (List.range ((bound + 63) / 64)).map (fun k => f (64 * k))) := by
  obtain ⟨s', t', hrun, ht', h64, hlt, hacc⟩ := tileLoop_inv bound
    (fun t acc => some (acc ++ [f t]))
    (fun t acc' => t % 64 = 0 ∧ t < bound + 64 ∧
      acc' = acc ++ (List.range (t / 64)).map (fun k => f (64 * k)))
    hb
    (by
      intro t s ht hinv
      obtain ⟨h1, h2, h3⟩ := hinv
      refine ⟨_, rfl, by omega, by omega, ?_⟩
      have e : (t + 64) / 64 = t / 64 + 1 := by omega
      have e' : 64 * (t / 64) = t := by omega
      rw [h3, e, List.range_succ, List.map_append, List.append_assoc]
      simp [e'])
    ((bound + 63) / 64) fuel 0 acc (by omega) hfuel
    (by simp)
  rw [hrun, hacc]
  have e : t' / 64 = (bound + 63) / 64 := by omega
  rw [e]

/-- The tile loops of `compute_ssim` for sizes up to `2^32 - 64`: they end, and the tiles
visited are, row by row, those with origins at the multiples of 64 below `height` and
`width`, with extents `min(64, height - ty)` and `min(64, width - tx)`. -/
theorem visitedTiles_eq (fuel width height : Nat) (hw : width + 64 ≤ 2 ^ 32)
    (hh : height + 64 ≤ 2 ^ 32) (hfw : (width + 63) / 64 < fuel)
    (hfh : (height + 63) / 64 < fuel) :
    visitedTiles fuel width height =
      some ((List.range ((height + 63) / 64)).flatMap (fun j =>
        (List.range ((width + 63) / 64)).map (fun i =>
          (64 * i, 64 * j, min 64 (width - 64 * i), min 64 (height - 64 * j))))) := by
  unfold visitedTiles
  have e64 : tileSize = 64 := rfl
  simp only [e64]
  obtain ⟨s', t', hrun, ht', h64, hlt, hacc⟩ := tileLoop_inv height
    (fun ty acc =>
      tileLoop width
        (fun tx acc => some (acc ++ [(tx, ty, min 64 (width - tx), min 64 (height - ty))]))
        fuel 0 acc)
    (fun t acc' => t % 64 = 0 ∧ t < height + 64 ∧
      acc' = (List.range (t / 64)).flatMap (fun j =>
        (List.range ((width + 63) / 64)).map (fun i =>
          (64 * i, 64 * j, min 64 (width - 64 * i), min 64 (height - 64 * j)))))
    hh
    (by
      intro t s ht hinv
      obtain ⟨h1, h2, h3⟩ := hinv
      refine ⟨_, tileLoop_records width
        (fun tx => (tx, t, min 64 (width - tx), min 64 (height - t))) hw fuel hfw s,
        by omega, by omega, ?_⟩
      have e : (t + 64) / 64 = t / 64 + 1 := by omega
      have e' : 64 * (t / 64) = t := by omega
      rw [h3, e, List.range_succ, List.flatMap_append]
      simp [e'])
    ((height + 63) / 64) fuel 0 [] (by omega) hfh
    (by simp)
  rw [hrun, hacc]
  have e : t' / 64 = (height + 63) / 64 := by omega
  rw [e]

/-- The number of tiles visited and the range of their extents. -/
theorem visitedTiles_count (fuel width height : Nat)
    (hw : width + 64 ≤ 2 ^ 32) (hh : height + 64 ≤ 2 ^ 32) (hfw : (width + 63) / 64 < fuel)
    (hfh : (height + 63) / 64 < fuel) :
    ∃ tiles, visitedTiles fuel width height = some tiles ∧
      tiles.length = ((height + 63) / 64) * ((width + 63) / 64) ∧
      ∀ t ∈ tiles, t.1 % 64 = 0 ∧ t.1 < width ∧ t.2.1 % 64 = 0 ∧ t.2.1 < height ∧
        t.2.2.1 = min 64 (width - t.1) ∧ t.2.2.2 = min 64 (height - t.2.1) ∧
        1 ≤ t.2.2.1 ∧ t.2.2.1 ≤ 64 ∧ 1 ≤ t.2.2.2 ∧ t.2.2.2 ≤ 64 := by
  refine ⟨_, visitedTiles_eq fuel width height hw hh hfw hfh, ?_, ?_⟩
  · simp [List.length_flatMap, Function.comp_def]
  · intro t ht
    simp only [List.mem_flatMap, List.mem_map, List.mem_range] at ht
    obtain ⟨j, hj, i, hi, rfl⟩ := ht
    have hi' : 64 * i < width := by omega
    have hj' : 64 * j < height := by omega
    refine ⟨Nat.mul_mod_right 64 i, hi', Nat.mul_mod_right 64 j, hj', rfl, rfl, ?_, ?_, ?_, ?_⟩
    · show 1 ≤ min 64 (width - 64 * i); omega
    · show min 64 (width - 64 * i) ≤ 64; omega
    · show 1 ≤ min 64 (height - 64 * j); omega
    · show min 64 (height - 64 * j) ≤ 64; omega

section
variable {K : Type} [LinearOrderedField K]

/-- The error value and the score while the pixel count fits 32 bits. With `imgAData` or
`imgBData` null `compute_ssim` returns `-EINVAL` at once and the output map is as it
was; with both sources present (sizes `≥ 1` within the range of the `int32_t`
coordinates, pixel count below `2^32`, enough fuel for the tile loops) it returns a score
in `[-1, 1]`, hence different from `-EINVAL`. -/
theorem einval_iff_null_source (expf : K → K) (pi : K) (fuel : Nat) (junk : Mem K)
    (W H : Nat) (imgA : Int → Nat) (stepA strideA : Int) (imgB : Int → Nat)
    (stepB strideB : Int) (ssimMap : Option (Mem K)) (ssimStep ssimStride : Int)
    (hexp : ∀ t, 0 < expf t) (hpi : 0 < pi)
    (hW : 1 ≤ W) (hH : 1 ≤ H) (hxr : W + 5 < 2 ^ 31) (hyr : H + 5 < 2 ^ 31)
    (hcount : W * H < 2 ^ 32)
    (hfw : (W + 63) / 64 < fuel) (hfh : (H + 63) / 64 < fuel) :
    compute_ssim expf pi fuel junk W H none stepA strideA (some imgB) stepB strideB
        ssimMap ssimStep ssimStride = some (-(EINVAL : K), ssimMap) ∧
    compute_ssim expf pi fuel junk W H (some imgA) stepA strideA none stepB strideB
        ssimMap ssimStep ssimStride = some (-(EINVAL : K), ssimMap) ∧
    compute_ssim expf pi fuel junk W H none stepA strideA none stepB strideB
        ssimMap ssimStep ssimStride = some (-(EINVAL : K), ssimMap) ∧
    ∃ score map', compute_ssim expf pi fuel junk W H (some imgA) stepA strideA
        (some imgB) stepB strideB ssimMap ssimStep ssimStride = some (score, map') ∧
      score ≠ -(EINVAL : K) := by
  refine ⟨rfl, rfl, rfl, ?_⟩
  obtain ⟨map', hrun, _⟩ := compute_ssim_spec expf pi fuel junk W H imgA stepA strideA
    imgB stepB strideB ssimMap ssimStep ssimStride hxr hyr hfw hfh
  refine ⟨_, map', hrun, ?_⟩
  have hk := precomputed_kernel_ok expf pi junk hexp hpi
  rw [Nat.mod_eq_of_lt hcount]
  have hb := mean_grid_bounds
    (ssimPixel (precompute_gaussian_kernel expf pi junk radius (3 / 2)) W H
      imgA stepA strideA imgB stepB strideB) W H hW hH
    (fun x y _ _ => ssimPixel_bounds _ hk W H imgA stepA strideA imgB stepB strideB x y)
  have h22 : (EINVAL : K) = 22 := by unfold EINVAL; norm_num
  rw [h22]
  intro e
  rw [e] at hb
  linarith [hb.1]

/-- Example of `einval_iff_null_source`: an 8x8 pair over the reals with the real
exponential. -/
theorem einval_iff_null_source_witness :
    ∃ score map', compute_ssim Real.exp Real.pi 2 (fun _ => 0) 8 8
        (some (fun _ => 128)) 1 8 (some (fun _ => 130)) 1 8 none 1 8 = some (score, map') ∧
      score ≠ -(EINVAL : ℝ) :=
  (einval_iff_null_source Real.exp Real.pi 2 (fun _ => 0) 8 8 (fun _ => 128) 1 8
    (fun _ => 130) 1 8 none 1 8 Real.exp_pos Real.pi_pos (by norm_num) (by norm_num)
    (by norm_num) (by norm_num) (by norm_num) (by norm_num) (by norm_num)).2.2.2

end

section
variable {K : Type} [Field K]

end

section
variable {K : Type} [Field K]

end

section
variable {K : Type} [Field K]

/-- C21: the reuse of the working buffers within one tile iteration is safe. For any
content `m` of the tile-local memory after the two tile loads, with `a` in `buffer2` and
`b` in `buffer3`, the five results read by the combiner are the blurs of the tiles `a`,
`b`, `a*a`, `b*b` and `a*b` as they were before the first blur, although `muB`, the
blurred `A²`, `B²` and `A*B` are written over the buffers of `a`, `b`, `a2` and `b2`; and
no blur has its destination buffer and its source buffer overlapping. -/
theorem buffer_reuse_is_safe (kernel : Mem K) (tw th : Nat) (m : Mem K)
    (htw' : tw ≤ 64) (hth' : th ≤ 64) (y x : Nat) (hy : y < th) (hx : x < tw) :
    (tileBlurs kernel tw th (tileProducts tw th m) (buffer1 + y * 64 + x) =
      ∑ j in Finset.range (2 * radius + 1), ∑ i in Finset.range (2 * radius + 1),
        kernel ((j : Int) * (2 * (radius : Int) + 1) + i) *
          m (buffer2 + ((y + j : Nat) : Int) * 74 + ((x + i : Nat) : Int)) ∧
    tileBlurs kernel tw th (tileProducts tw th m) (buffer2 + y * 64 + x) =
      ∑ j in Finset.range (2 * radius + 1), ∑ i in Finset.range (2 * radius + 1),
        kernel ((j : Int) * (2 * (radius : Int) + 1) + i) *
          m (buffer3 + ((y + j : Nat) : Int) * 74 + ((x + i : Nat) : Int)) ∧
    tileBlurs kernel tw th (tileProducts tw th m) (buffer3 + y * 64 + x) =
      ∑ j in Finset.range (2 * radius + 1), ∑ i in Finset.range (2 * radius + 1),
        kernel ((j : Int) * (2 * (radius : Int) + 1) + i) *
          (m (buffer2 + ((y + j : Nat) : Int) * 74 + ((x + i : Nat) : Int)) *
            m (buffer2 + ((y + j : Nat) : Int) * 74 + ((x + i : Nat) : Int))) ∧
    tileBlurs kernel tw th (tileProducts tw th m) (buffer4 + y * 64 + x) =
      ∑ j in Finset.range (2 * radius + 1), ∑ i in Finset.range (2 * radius + 1),
        kernel ((j : Int) * (2 * (radius : Int) + 1) + i) *
          (m (buffer3 + ((y + j : Nat) : Int) * 74 + ((x + i : Nat) : Int)) *
            m (buffer3 + ((y + j : Nat) : Int) * 74 + ((x + i : Nat) : Int))) ∧
    tileBlurs kernel tw th (tileProducts tw th m) (buffer5 + y * 64 + x) =
      ∑ j in Finset.range (2 * radius + 1), ∑ i in Finset.range (2 * radius + 1),
        kernel ((j : Int) * (2 * (radius : Int) + 1) + i) *
          (m (buffer2 + ((y + j : Nat) : Int) * 74 + ((x + i : Nat) : Int)) *
            m (buffer3 + ((y + j : Nat) : Int) * 74 + ((x + i : Nat) : Int)))) ∧
    (buffer1 + (tileSize * tileSize : Nat) ≤ buffer2 ∧
      buffer2 + (tileStride * tileStride : Nat) ≤ buffer3 ∧
      buffer3 + (tileStride * tileStride : Nat) ≤ buffer4 ∧
      buffer4 + (tileStride * tileStride : Nat) ≤ buffer5 ∧
      buffer5 + (tileStride * tileStride : Nat) ≤ buffer6) :=
  ⟨tileBlurs_products_spec kernel tw th m htw' hth' y x hy hx, by decide⟩

/-- C21, witness: a full 64x64 tile, its last pixel, for the memory holding its own
address in every float. -/
theorem buffer_reuse_is_safe_witness :
    tileBlurs (fun _ => (1 : ℚ)) 64 64 (tileProducts 64 64 (fun q => (q : ℚ)))
        (buffer2 + ((63 : Nat) : Int) * 64 + ((63 : Nat) : Int)) =
      ∑ j in Finset.range (2 * radius + 1), ∑ i in Finset.range (2 * radius + 1),
        (fun _ => (1 : ℚ)) ((j : Int) * (2 * (radius : Int) + 1) + i) *
          (fun q : Int => (q : ℚ))
            (buffer3 + ((63 + j : Nat) : Int) * 74 + ((63 + i : Nat) : Int)) :=
  (buffer_reuse_is_safe (fun _ => (1 : ℚ)) 64 64 (fun q => (q : ℚ)) (by decide) (by decide)
    63 63 (by decide) (by decide)).1.2.1

end

section
variable {K : Type} [Field K]

end

section
variable {K : Type} [Field K]

end

section
variable {K : Type}

/-- The value at a pixel address of a map in the state `MapInv` is the value of some
pixel stored there. -/
theorem MapInv_at {P : Nat → Nat → Prop} {val : Nat → Nat → K} {s t : Int}
    {map0 cur : Mem K} (h : MapInv P val s t map0 cur) (x y : Nat) (hp : P x y) :
    ∃ x' y', P x' y' ∧ cur ((x : Int) * s + (y : Int) * t) = val x' y' := by
  rcases h ((x : Int) * s + (y : Int) * t) with ⟨x', y', hp', _, hv⟩ | ⟨hn, _⟩
  · exact ⟨x', y', hp', hv⟩
  · exact (hn x y hp rfl).elim

/-- A float of a map in the state `MapInv` that is no pixel's address is unchanged. -/
theorem MapInv_frame {P : Nat → Nat → Prop} {val : Nat → Nat → K} {s t : Int}
    {map0 cur : Mem K} (h : MapInv P val s t map0 cur) (q : Int)
    (hq : ∀ x y : Nat, P x y → q ≠ (x : Int) * s + (y : Int) * t) : cur q = map0 q := by
  rcases h q with ⟨x', y', hp', ha, _⟩ | ⟨_, hv⟩
  · exact (hq x' y' hp' ha.symm).elim
  · exact hv

end

section
variable {K : Type} [LinearOrderedField K]

/-- The score of an image against itself: the pixel count divided by the pixel count
taken in `uint32_t`. -/
theorem compute_ssim_self_score (expf : K → K) (pi : K) (fuel : Nat) (junk : Mem K)
    (W H : Nat) (img : Int → Nat) (step stride : Int)
    (ssimMap : Option (Mem K)) (ssimStep ssimStride : Int)
    (hexp : ∀ t, 0 < expf t) (hpi : 0 < pi)
    (hxr : W + 5 < 2 ^ 31) (hyr : H + 5 < 2 ^ 31)
    (hfw : (W + 63) / 64 < fuel) (hfh : (H + 63) / 64 < fuel) :
    ∃ map', compute_ssim expf pi fuel junk W H (some img) step stride (some img) step stride
        ssimMap ssimStep ssimStride =
        some (((W * H : Nat) : K) / (((W * H) % 2 ^ 32 : Nat) : K), map') ∧
      MapOk (fun X Y => X < W ∧ Y < H)
        (ssimPixel (precompute_gaussian_kernel expf pi junk radius (3 / 2)) W H
          img step stride img step stride)
        (if ssimMap.isNone then 0 else ssimStep) (if ssimMap.isNone then 0 else ssimStride)
        ssimMap map' := by
  obtain ⟨map', hrun, hmap⟩ := compute_ssim_spec expf pi fuel junk W H img step stride
    img step stride ssimMap ssimStep ssimStride hxr hyr hfw hfh
  refine ⟨map', ?_, hmap⟩
  rw [hrun]
  have hk := precomputed_kernel_ok expf pi junk hexp hpi
  have hs : (∑ y in Finset.range H, ∑ x in Finset.range W,
      ssimPixel (precompute_gaussian_kernel expf pi junk radius (3 / 2)) W H
        img step stride img step stride x y) = ((W * H : Nat) : K) := by
    simp only [ssimPixel_self _ hk]
    simp only [Finset.sum_const, Finset.card_range, nsmul_eq_mul, mul_one]
    push_cast
    ring
  rw [hs]

/-- Identity while the pixel count fits 32 bits. For every image of size
`width, height ≥ 1` with fewer than `2^32` pixels (and within the range of the `int32_t`
coordinates), `compute_ssim(A, A)` returns 1, every map entry of a pixel holds 1 and every
other float of the map is unchanged; with a null map the score is 1 as well. -/
theorem identity_score_is_one (expf : K → K) (pi : K) (fuel : Nat) (junk : Mem K)
    (W H : Nat) (img : Int → Nat) (step stride : Int)
    (map0 : Mem K) (ssimStep ssimStride : Int)
    (hexp : ∀ t, 0 < expf t) (hpi : 0 < pi)
    (hW : 1 ≤ W) (hH : 1 ≤ H) (hxr : W + 5 < 2 ^ 31) (hyr : H + 5 < 2 ^ 31)
    (hcount : W * H < 2 ^ 32)
    (hfw : (W + 63) / 64 < fuel) (hfh : (H + 63) / 64 < fuel) :
    ∃ map', compute_ssim expf pi fuel junk W H (some img) step stride (some img) step stride
        (some map0) ssimStep ssimStride = some (1, some map') ∧
      (∀ x y : Nat, x < W → y < H →
        map' ((x : Int) * ssimStep + (y : Int) * ssimStride) = 1) ∧
      (∀ q : Int, (∀ x y : Nat, x < W → y < H →
          q ≠ (x : Int) * ssimStep + (y : Int) * ssimStride) → map' q = map0 q) ∧
      compute_ssim expf pi fuel junk W H (some img) step stride (some img) step stride
        none ssimStep ssimStride = some (1, none) := by
  have hk := precomputed_kernel_ok expf pi junk hexp hpi
  have hpos : (0 : K) < ((W * H : Nat) : K) := by
    have : 0 < W * H := Nat.mul_pos hW hH
    exact_mod_cast this
  obtain ⟨m1, hrun1, hmap1⟩ := compute_ssim_self_score expf pi fuel junk W H img step stride
    (some map0) ssimStep ssimStride hexp hpi hxr hyr hfw hfh
  obtain ⟨m2, hrun2, hmap2⟩ := compute_ssim_self_score expf pi fuel junk W H img step stride
    none ssimStep ssimStride hexp hpi hxr hyr hfw hfh
  rw [Nat.mod_eq_of_lt hcount, div_self (ne_of_gt hpos)] at hrun1 hrun2
  unfold MapOk at hmap1 hmap2
  simp only at hmap1 hmap2
  obtain ⟨mp, rfl, hinv⟩ := hmap1
  subst hmap2
  simp only [Option.isNone_some, Bool.false_eq_true, if_false] at hinv
  refine ⟨mp, hrun1, ?_, ?_, hrun2⟩
  · intro x y hx hy
    obtain ⟨x', y', _, hv⟩ := MapInv_at hinv x y ⟨hx, hy⟩
    rw [hv, ssimPixel_self _ hk]
  · intro q hq
    exact MapInv_frame hinv q (fun x y hp => hq x y hp.1 hp.2)

/-- The range of the values while the pixel count fits 32 bits. For every pair of 8-bit
images of size `width, height ≥ 1` with fewer than `2^32` pixels (and within the range of
the `int32_t` coordinates), every per-pixel value written to the map and the returned
score lie in `[-1, 1]`. -/
theorem score_and_pixels_in_unit_range (expf : K → K) (pi : K) (fuel : Nat) (junk : Mem K)
    (W H : Nat) (imgA : Int → Nat) (stepA strideA : Int) (imgB : Int → Nat)
    (stepB strideB : Int) (map0 : Mem K) (ssimStep ssimStride : Int)
    (hexp : ∀ t, 0 < expf t) (hpi : 0 < pi)
    (hW : 1 ≤ W) (hH : 1 ≤ H) (hxr : W + 5 < 2 ^ 31) (hyr : H + 5 < 2 ^ 31)
    (hcount : W * H < 2 ^ 32)
    (hfw : (W + 63) / 64 < fuel) (hfh : (H + 63) / 64 < fuel) :
    ∃ score map', compute_ssim expf pi fuel junk W H (some imgA) stepA strideA
        (some imgB) stepB strideB (some map0) ssimStep ssimStride = some (score, some map') ∧
      -1 ≤ score ∧ score ≤ 1 ∧
      (∀ x y : Nat, x < W → y < H →
        -1 ≤ map' ((x : Int) * ssimStep + (y : Int) * ssimStride) ∧
          map' ((x : Int) * ssimStep + (y : Int) * ssimStride) ≤ 1) ∧
      compute_ssim expf pi fuel junk W H (some imgA) stepA strideA
        (some imgB) stepB strideB none ssimStep ssimStride = some (score, none) := by
  have hk := precomputed_kernel_ok expf pi junk hexp hpi
  obtain ⟨m1, hrun1, hmap1⟩ := compute_ssim_spec expf pi fuel junk W H imgA stepA strideA
    imgB stepB strideB (some map0) ssimStep ssimStride hxr hyr hfw hfh
  obtain ⟨m2, hrun2, hmap2⟩ := compute_ssim_spec expf pi fuel junk W H imgA stepA strideA
    imgB stepB strideB none ssimStep ssimStride hxr hyr hfw hfh
  rw [Nat.mod_eq_of_lt hcount] at hrun1 hrun2
  unfold MapOk at hmap1 hmap2
  simp only at hmap1 hmap2
  obtain ⟨mp, rfl, hinv⟩ := hmap1
  subst hmap2
  simp only [Option.isNone_some, Bool.false_eq_true, if_false] at hinv
  have hb := mean_grid_bounds
    (ssimPixel (precompute_gaussian_kernel expf pi junk radius (3 / 2)) W H
      imgA stepA strideA imgB stepB strideB) W H hW hH
    (fun x y _ _ => ssimPixel_bounds _ hk W H imgA stepA strideA imgB stepB strideB x y)
  refine ⟨_, mp, hrun1, hb.1, hb.2, ?_, hrun2⟩
  intro x y hx hy
  obtain ⟨x', y', _, hv⟩ := MapInv_at hinv x y ⟨hx, hy⟩
  rw [hv]
  exact ssimPixel_bounds _ hk W H imgA stepA strideA imgB stepB strideB x' y'

end

/-- Example of `identity_score_is_one`: the 8x8 constant-gray 128 image against itself,
with a dense 8x8 map. -/
theorem identity_score_is_one_witness :
    ∃ map', compute_ssim Real.exp Real.pi 2 (fun _ => 0) 8 8
        (some (fun _ => 128)) 1 8 (some (fun _ => 128)) 1 8 (some (fun _ => 0)) 1 8 =
        some (1, some map') ∧
      (∀ x y : Nat, x < 8 → y < 8 → map' ((x : Int) * 1 + (y : Int) * 8) = 1) ∧
      (∀ q : Int, (∀ x y : Nat, x < 8 → y < 8 → q ≠ (x : Int) * 1 + (y : Int) * 8) →
        map' q = (fun _ => (0 : ℝ)) q) ∧
      compute_ssim Real.exp Real.pi 2 (fun _ => 0) 8 8
        (some (fun _ => 128)) 1 8 (some (fun _ => 128)) 1 8 none 1 8 = some (1, none) :=
  identity_score_is_one Real.exp Real.pi 2 (fun _ => 0) 8 8 (fun _ => 128) 1 8
    (fun _ => 0) 1 8 Real.exp_pos Real.pi_pos (by norm_num) (by norm_num)
    (by norm_num) (by norm_num) (by norm_num) (by norm_num) (by norm_num)

/-- C3: identity fails once `width * height` no longer fits `uint32_t`. For a
constant-gray 128 image of size 65537 x 65536 (one byte read with step 0 and stride 0)
against itself, the pixel count `65537 * 65536 = 2^32 + 65536` wraps to 65536 in the final
division, and `compute_ssim(A, A)` returns 65537, not 1. -/
theorem identity_counterexample :
    compute_ssim Real.exp Real.pi 2000 (fun _ => 0) 65537 65536
        (some (fun _ => 128)) 0 0 (some (fun _ => 128)) 0 0 none 0 0 =
        some (65537, none) ∧ (65537 : ℝ) ≠ 1 := by
  obtain ⟨m, hrun, hmap⟩ := compute_ssim_self_score Real.exp Real.pi 2000 (fun _ => 0)
    65537 65536 (fun _ => 128) 0 0 none 0 0 Real.exp_pos Real.pi_pos
    (by norm_num) (by norm_num) (by norm_num) (by norm_num)
  unfold MapOk at hmap
  simp only at hmap
  subst hmap
  refine ⟨?_, by norm_num⟩
  rw [hrun]
  norm_num

/-- Example of `score_and_pixels_in_unit_range`: an 8x8 pair over the reals with a dense
8x8 map. -/
theorem score_and_pixels_in_unit_range_witness :
    ∃ score map', compute_ssim Real.exp Real.pi 2 (fun _ => 0) 8 8
        (some (fun _ => 128)) 1 8 (some (fun _ => 130)) 1 8 (some (fun _ => 0)) 1 8 =
        some (score, some map') ∧
      -1 ≤ score ∧ score ≤ 1 ∧
      (∀ x y : Nat, x < 8 → y < 8 →
        -1 ≤ map' ((x : Int) * 1 + (y : Int) * 8) ∧
          map' ((x : Int) * 1 + (y : Int) * 8) ≤ 1) ∧
      compute_ssim Real.exp Real.pi 2 (fun _ => 0) 8 8
        (some (fun _ => 128)) 1 8 (some (fun _ => 130)) 1 8 none 1 8 = some (score, none) :=
  score_and_pixels_in_unit_range Real.exp Real.pi 2 (fun _ => 0) 8 8 (fun _ => 128) 1 8
    (fun _ => 130) 1 8 (fun _ => 0) 1 8 Real.exp_pos Real.pi_pos (by norm_num) (by norm_num)
    (by norm_num) (by norm_num) (by norm_num) (by norm_num) (by norm_num)

/-- C15: the returned score leaves `[-1, 1]` once `width * height` no longer fits
`uint32_t`. For a constant image of size 1048576 x 4097 against itself, the pixel count
`2^32 + 2^20` wraps to `2^20` in the final division, and `compute_ssim` returns 4097,
although every per-pixel value is 1. -/
theorem unit_range_counterexample :
    compute_ssim Real.exp Real.pi 20000 (fun _ => 0) 1048576 4097
        (some (fun _ => 7)) 0 0 (some (fun _ => 7)) 0 0 none 0 0 =
        some (4097, none) ∧ ¬ ((4097 : ℝ) ≤ 1) := by
  obtain ⟨m, hrun, hmap⟩ := compute_ssim_self_score Real.exp Real.pi 20000 (fun _ => 0)
    1048576 4097 (fun _ => 7) 0 0 none 0 0 Real.exp_pos Real.pi_pos
    (by norm_num) (by norm_num) (by norm_num) (by norm_num)
  unfold MapOk at hmap
  simp only at hmap
  subst hmap
  refine ⟨?_, by norm_num⟩
  rw [hrun]
  norm_num

/-- C2: the divisor of the final division is `width * height` computed in `uint32_t`.
For a constant image of size 65536 x 65537 against itself every per-pixel value is 1, so
the sum of the per-pixel values divided by the exact pixel count is 1; the pixel count
`2^32 + 65536` wraps to 65536 and `compute_ssim` returns 65537. -/
theorem score_divides_by_wrapped_count :
    compute_ssim Real.exp Real.pi 2000 (fun _ => 0) 65536 65537
        (some (fun _ => 200)) 0 0 (some (fun _ => 200)) 0 0 none 0 0 =
        some (65537, none) ∧
      (∑ y in Finset.range 65537, ∑ x in Finset.range 65536,
        ssimPixel (precompute_gaussian_kernel Real.exp Real.pi (fun _ => 0) radius (3 / 2))
          65536 65537 (fun _ => 200) 0 0 (fun _ => 200) 0 0 x y) /
        ((65536 * 65537 : Nat) : ℝ) = 1 := by
  obtain ⟨m, hrun, hmap⟩ := compute_ssim_self_score Real.exp Real.pi 2000 (fun _ => 0)
    65536 65537 (fun _ => 200) 0 0 none 0 0 Real.exp_pos Real.pi_pos
    (by norm_num) (by norm_num) (by norm_num) (by norm_num)
  unfold MapOk at hmap
  simp only at hmap
  subst hmap
  constructor
  · rw [hrun]
    norm_num
  · have hk := precomputed_kernel_ok Real.exp Real.pi (fun _ => 0) Real.exp_pos Real.pi_pos
    simp only [ssimPixel_self _ hk]
    simp only [Finset.sum_const, Finset.card_range, nsmul_eq_mul, mul_one]
    norm_num

section
variable {K : Type} [Field K]

end

section
variable {K : Type} [LinearOrderedField K]

/-- C5: both denominator factors of the SSIM quotient are strictly positive at every
pixel of every tile. With `muA`, `muB` and the second moments read from the tile buffers
as the combiner reads them, the variances `sigmaA2`, `sigmaB2` are non-negative,
`muA² + muB² + c1 > 0` and `sigmaA2 + sigmaB2 + c2 > 0`, so the divisor is not zero. -/
theorem denominators_positive (expf : K → K) (pi : K) (junk : Mem K) (W H : Nat)
    (imgA : Int → Nat) (stepA strideA : Int) (imgB : Int → Nat) (stepB strideB : Int)
    (ty th tx tw : Nat) (stack : Mem K)
    (hexp : ∀ t, 0 < expf t) (hpi : 0 < pi)
    (htx : tx < W) (hty : ty < H) (htw : 1 ≤ tw) (hth : 1 ≤ th) (htw' : tw ≤ 64)
    (hth' : th ≤ 64) (hxr : tx + tw + 5 < 2 ^ 31) (hyr : ty + th + 5 < 2 ^ 31)
    (hW : W < 2 ^ 31) (hH : H < 2 ^ 31) (y x : Nat) (hy : y < th) (hx : x < tw) :
    let m := tileMoments (precompute_gaussian_kernel expf pi junk radius (3 / 2)) W H
      imgA stepA strideA imgB stepB strideB ty th tx tw stack
    let muA := m (buffer1 + y * tileSize + x)
    let muB := m (buffer2 + y * tileSize + x)
    let sigmaA2 := m (buffer3 + y * tileSize + x) - muA * muA
    let sigmaB2 := m (buffer4 + y * tileSize + x) - muB * muB
    0 ≤ sigmaA2 ∧ 0 ≤ sigmaB2 ∧
      0 < muA * muA + muB * muB + c1 ∧ 0 < sigmaA2 + sigmaB2 + c2 ∧
      (muA * muA + muB * muB + c1) * (sigmaA2 + sigmaB2 + c2) ≠ 0 := by
  intro m muA muB sigmaA2 sigmaB2
  have hk := precomputed_kernel_ok expf pi junk hexp hpi
  obtain ⟨h1, h2, h3, h4, _⟩ := tileMoments_spec
    (precompute_gaussian_kernel expf pi junk radius (3 / 2)) W H imgA stepA strideA
    imgB stepB strideB ty th tx tw stack htx hty htw hth htw' hth' hxr hyr hW hH y x hy hx
  have h1' : m (buffer1 + y * tileSize + x) = _ := h1
  have h2' : m (buffer2 + y * tileSize + x) = _ := h2
  have h3' : m (buffer3 + y * tileSize + x) = _ := h3
  have h4' : m (buffer4 + y * tileSize + x) = _ := h4
  have hA : 0 ≤ sigmaA2 := by
    show 0 ≤ m (buffer3 + y * tileSize + x) - m (buffer1 + y * tileSize + x) *
      m (buffer1 + y * tileSize + x)
    rw [h1', h3']
    have := moment_sq_le _ hk (pixel (K := K) imgA W H stepA strideA) (tx + x) (ty + y)
    linarith
  have hB : 0 ≤ sigmaB2 := by
    show 0 ≤ m (buffer4 + y * tileSize + x) - m (buffer2 + y * tileSize + x) *
      m (buffer2 + y * tileSize + x)
    rw [h2', h4']
    have := moment_sq_le _ hk (pixel (K := K) imgB W H stepB strideB) (tx + x) (ty + y)
    linarith
  have hd1 : 0 < muA * muA + muB * muB + c1 := by
    have := mul_self_nonneg muA
    have := mul_self_nonneg muB
    have := c1_pos (K := K)
    linarith
  have hd2 : 0 < sigmaA2 + sigmaB2 + c2 := by
    have := c2_pos (K := K)
    linarith
  exact ⟨hA, hB, hd1, hd2, ne_of_gt (mul_pos hd1 hd2)⟩

end

/-- C5, witness: the pixel `(3, 2)` of the only tile of an 8x8 pair, over the reals. -/
theorem denominators_positive_witness :
    let m := tileMoments (precompute_gaussian_kernel Real.exp Real.pi (fun _ => 0) radius (3 / 2))
      8 8 (fun i => i.toNat % 256) 1 8 (fun _ => 0) 1 8 0 8 0 8 (fun _ => 0)
    let muA := m (buffer1 + (2 : Nat) * tileSize + (3 : Nat))
    let muB := m (buffer2 + (2 : Nat) * tileSize + (3 : Nat))
    let sigmaA2 := m (buffer3 + (2 : Nat) * tileSize + (3 : Nat)) - muA * muA
    let sigmaB2 := m (buffer4 + (2 : Nat) * tileSize + (3 : Nat)) - muB * muB
    0 ≤ sigmaA2 ∧ 0 ≤ sigmaB2 ∧
      0 < muA * muA + muB * muB + c1 ∧ 0 < sigmaA2 + sigmaB2 + c2 ∧
      (muA * muA + muB * muB + c1) * (sigmaA2 + sigmaB2 + c2) ≠ 0 :=
  denominators_positive Real.exp Real.pi (fun _ => 0) 8 8 (fun i => i.toNat % 256) 1 8
    (fun _ => 0) 1 8 0 8 0 8 (fun _ => 0) Real.exp_pos Real.pi_pos
    (by norm_num) (by norm_num) (by norm_num) (by norm_num) (by norm_num) (by norm_num)
    (by norm_num) (by norm_num) (by norm_num) (by norm_num) 2 3 (by norm_num) (by norm_num)

section
variable {K : Type} [Field K]

end

section
variable {K : Type} [LinearOrderedField K]

end

section
variable {K : Type} [LinearOrderedField K]

theorem sum_grid_mono (u v : Nat → Nat → K) (W H : Nat)
    (h : ∀ x y, x < W → y < H → u x y ≤ v x y) :
    ∑ y in Finset.range H, ∑ x in Finset.range W, u x y ≤
      ∑ y in Finset.range H, ∑ x in Finset.range W, v x y := by
  apply Finset.sum_le_sum
  intro y hy
  apply Finset.sum_le_sum
  intro x hx
  exact h x y (Finset.mem_range.mp hx) (Finset.mem_range.mp hy)

theorem sum_grid_strict (u v : Nat → Nat → K) (W H : Nat)
    (h : ∀ x y, x < W → y < H → u x y ≤ v x y)
    (x0 y0 : Nat) (hx0 : x0 < W) (hy0 : y0 < H) (hlt : u x0 y0 < v x0 y0) :
    ∑ y in Finset.range H, ∑ x in Finset.range W, u x y <
      ∑ y in Finset.range H, ∑ x in Finset.range W, v x y := by
  apply Finset.sum_lt_sum
  · intro y hy
    apply Finset.sum_le_sum
    intro x hx
    exact h x y (Finset.mem_range.mp hx) (Finset.mem_range.mp hy)
  · refine ⟨y0, Finset.mem_range.mpr hy0, ?_⟩
    apply Finset.sum_lt_sum
    · intro x hx
      exact h x y0 (Finset.mem_range.mp hx) hy0
    · exact ⟨x0, Finset.mem_range.mpr hx0, hlt⟩

theorem sum_grid_const (a : K) (W H : Nat) :
    ∑ _y in Finset.range H, ∑ _x in Finset.range W, a = ((W * H : Nat) : K) * a := by
  simp only [Finset.sum_const, Finset.card_range, nsmul_eq_mul]
  push_cast
  ring

/-- The mean over a non-empty grid of values that are at least `a` is at least `a`. -/
theorem mean_grid_ge (v : Nat → Nat → K) (a : K) (W H : Nat) (hW : 1 ≤ W) (hH : 1 ≤ H)
    (h : ∀ x y, x < W → y < H → a ≤ v x y) :
    a ≤ (∑ y in Finset.range H, ∑ x in Finset.range W, v x y) / ((W * H : Nat) : K) := by
  have hpos : (0 : K) < ((W * H : Nat) : K) := by
    have : 0 < W * H := Nat.mul_pos hW hH
    exact_mod_cast this
  rw [le_div_iff₀ hpos]
  have := sum_grid_mono (fun _ _ => a) v W H h
  rw [sum_grid_const] at this
  linarith

/-- The mean over a non-empty grid of values below `a` is below `a`. -/
theorem mean_grid_lt (v : Nat → Nat → K) (a : K) (W H : Nat) (hW : 1 ≤ W) (hH : 1 ≤ H)
    (h : ∀ x y, x < W → y < H → v x y < a) :
    (∑ y in Finset.range H, ∑ x in Finset.range W, v x y) / ((W * H : Nat) : K) < a := by
  have hpos : (0 : K) < ((W * H : Nat) : K) := by
    have : 0 < W * H := Nat.mul_pos hW hH
    exact_mod_cast this
  rw [div_lt_iff₀ hpos]
  have := sum_grid_strict v (fun _ _ => a) W H (fun x y hx hy => le_of_lt (h x y hx hy))
    0 0 (by omega) (by omega) (h 0 0 (by omega) (by omega))
  rw [sum_grid_const] at this
  linarith

/-- A windowed moment of a field bounded below by `a` is at least `a`. -/
theorem moment_ge (kernel : Mem K) (hk : KernelOk kernel) (f : Int → Int → K) (a : K)
    (hf : ∀ u v, a ≤ f u v) (x y : Int) : a ≤ moment kernel f x y := by
  have h0 := moment_nonneg kernel hk (fun u v => f u v - a)
    (fun u v => sub_nonneg.mpr (hf u v)) x y
  have e : moment kernel (fun u v => f u v - a) x y =
      moment kernel (fun u v => 1 * f u v + 0 * f u v + (-a)) x y := by
    apply moment_congr; intro u v; ring
  rw [e, moment_linear kernel hk] at h0
  linarith

/-- The value `(2mu² + 2mu + c1) / (2mu² + 2mu + 1 + c1)` of a pixel of an image against
its increment, for a local mean `mu ≥ 0`. -/
theorem succ_value_bounds (mu : K) (hmu : 0 ≤ mu) :
    (2 * (mu * mu) + 2 * mu + c1) / (2 * (mu * mu) + 2 * mu + 1 + c1) < 1 ∧
    c1 / (1 + c1) ≤ (2 * (mu * mu) + 2 * mu + c1) / (2 * (mu * mu) + 2 * mu + 1 + c1) ∧
    (7 ≤ mu → 99 / 100 ≤
      (2 * (mu * mu) + 2 * mu + c1) / (2 * (mu * mu) + 2 * mu + 1 + c1)) := by
  have hc := c1_pos (K := K)
  have hsq := mul_self_nonneg mu
  have hD : 0 < 2 * (mu * mu) + 2 * mu + 1 + c1 := by linarith
  refine ⟨?_, ?_, ?_⟩
  · rw [div_lt_one hD]; linarith
  · rw [div_le_iff₀ (by linarith), div_mul_eq_mul_div, le_div_iff₀ hD]
    nlinarith
  · intro h7
    rw [le_div_iff₀ hD]
    nlinarith

/-- C13 (amended): scenario B, in exact arithmetic. For every image `A` with samples
`≤ 254` (of size 8x8, and of any size `width, height ≥ 1` with fewer than `2^32` pixels)
and `B = A + 1` (in 8 bits), the value `compute_ssim(A, B)` computes in exact arithmetic
is strictly less than 1 and at least `c1 / (1 + c1)` (about 0.8667); it is at least 0.99
when every sample of `A` is at least 7. -/
theorem increment_score_bounds (expf : K → K) (pi : K) (fuel : Nat) (junk : Mem K)
    (W H : Nat) (img : Int → Nat) (step stride : Int)
    (ssimMap : Option (Mem K)) (ssimStep ssimStride : Int)
    (hexp : ∀ t, 0 < expf t) (hpi : 0 < pi) (h254 : ∀ i, img i ≤ 254)
    (hW : 1 ≤ W) (hH : 1 ≤ H) (hxr : W + 5 < 2 ^ 31) (hyr : H + 5 < 2 ^ 31)
    (hcount : W * H < 2 ^ 32)
    (hfw : (W + 63) / 64 < fuel) (hfh : (H + 63) / 64 < fuel) :
    ∃ score map', compute_ssim expf pi fuel junk W H (some img) step stride
        (some (fun i => (img i + 1) % 256)) step stride ssimMap ssimStep ssimStride =
        some (score, map') ∧
      score < 1 ∧ c1 / (1 + c1) ≤ score ∧ ((∀ i, 7 ≤ img i) → 99 / 100 ≤ score) := by
  have hk := precomputed_kernel_ok expf pi junk hexp hpi
  have eB : (fun i => (img i + 1) % 256) = (fun i => img i + 1) :=
    funext (fun i => Nat.mod_eq_of_lt (by have := h254 i; omega))
  rw [eB]
  obtain ⟨m1, hrun1, _⟩ := compute_ssim_spec expf pi fuel junk W H img step stride
    (fun i => img i + 1) step stride ssimMap ssimStep ssimStride hxr hyr hfw hfh
  rw [Nat.mod_eq_of_lt hcount] at hrun1
  refine ⟨_, m1, hrun1, ?_, ?_, ?_⟩
  · apply mean_grid_lt _ _ W H hW hH
    intro x y _ _
    rw [ssimPixel_succ _ hk]
    exact (succ_value_bounds _ (moment_nonneg _ hk _
      (fun u v => pixel_nonneg img W H step stride u v) x y)).1
  · apply mean_grid_ge _ _ W H hW hH
    intro x y _ _
    rw [ssimPixel_succ _ hk]
    exact (succ_value_bounds _ (moment_nonneg _ hk _
      (fun u v => pixel_nonneg img W H step stride u v) x y)).2.1
  · intro h7
    apply mean_grid_ge _ _ W H hW hH
    intro x y _ _
    rw [ssimPixel_succ _ hk]
    apply (succ_value_bounds _ (moment_nonneg _ hk _
      (fun u v => pixel_nonneg img W H step stride u v) x y)).2.2
    apply moment_ge _ hk
    intro u v
    unfold pixel sampleAt
    exact_mod_cast h7 _

end

/-- C13, witness: the 8x8 constant-gray 128 image against the constant 129, over the
reals. -/
theorem increment_score_bounds_witness :
    ∃ score map', compute_ssim Real.exp Real.pi 2 (fun _ => 0) 8 8 (some (fun _ => 128)) 1 8
        (some (fun i => ((fun _ => 128) i + 1) % 256)) 1 8 none 0 0 = some (score, map') ∧
      score < 1 ∧ c1 / (1 + c1) ≤ score ∧
      ((∀ i : Int, 7 ≤ (fun _ => 128) i) → 99 / 100 ≤ score) :=
  increment_score_bounds Real.exp Real.pi 2 (fun _ => 0) 8 8 (fun _ => 128) 1 8 none 0 0
    Real.exp_pos Real.pi_pos (fun _ => by norm_num) (by norm_num) (by norm_num)
    (by norm_num) (by norm_num) (by norm_num) (by norm_num) (by norm_num)

/-- C13, counterexample: the all-zero 8x8 image against the all-one image. Every local
mean is 0, every per-pixel value is `c1 / (1 + c1) = 2601 / 3001`, and so is the score:
about 0.8667, below 0.99. -/
theorem increment_score_counterexample :
    compute_ssim Real.exp Real.pi 2 (fun _ => 0) 8 8 (some (fun _ => 0)) 1 8
        (some (fun _ => 1)) 1 8 none 0 0 = some (2601 / 3001, none) ∧
      (2601 / 3001 : ℝ) < 99 / 100 := by
  have hk := precomputed_kernel_ok Real.exp Real.pi (fun _ => 0) Real.exp_pos Real.pi_pos
  obtain ⟨m1, hrun1, hmap⟩ := compute_ssim_spec Real.exp Real.pi 2 (fun _ => 0) 8 8
    (fun _ => 0) 1 8 (fun i => (fun _ => 0) i + 1) 1 8 none 0 0
    (by norm_num) (by norm_num) (by norm_num) (by norm_num)
  unfold MapOk at hmap
  simp only at hmap
  subst hmap
  refine ⟨?_, by norm_num⟩
  have e : (fun i : Int => (fun _ => 0) i + 1) = (fun _ : Int => (1 : Nat)) := rfl
  rw [e] at hrun1
  rw [hrun1]
  have hv : ∀ x y : Nat,
      ssimPixel (precompute_gaussian_kernel Real.exp Real.pi (fun _ => 0) radius (3 / 2)) 8 8
        (fun _ => 0) 1 8 (fun _ => 1) 1 8 x y = 2601 / 3001 := by
    intro x y
    have h := ssimPixel_succ _ hk 8 8 (fun _ => 0) 1 8 x y
    rw [e] at h
    rw [h, moment_const_image _ hk]
    unfold c1
    norm_num
  simp only [hv]
  simp only [Finset.sum_const, Finset.card_range, nsmul_eq_mul]
  norm_num

section
variable {K : Type} [LinearOrderedField K]

theorem c2_lt (K : Type) [LinearOrderedField K] : (c2 : K) < 100 := by
  unfold c2; norm_num

theorem neg_succ_mid (c s q D F N X : K) (hc : 0 < c) (hs : 0 < s) (hq : q ≤ s)
    (hD : 0 < D) (hF : 0 < F) (hN : 2 * c < N) (hX : 0 < X) :
    0 < c * (X - 4 * q * D) + 2 * s * (F + D * N) := by
  have e1 : 0 < s * F := mul_pos hs hF
  have e2 : 0 < s * (D * (N - 2 * c)) := mul_pos hs (mul_pos hD (sub_pos.mpr hN))
  have e3 : 0 ≤ c * ((s - q) * D) := mul_nonneg (le_of_lt hc) (mul_nonneg (sub_nonneg.mpr hq) (le_of_lt hD))
  have e4 : 0 < c * X := mul_pos hc hX
  have e : c * (X - 4 * q * D) + 2 * s * (F + D * N) =
      c * X + 4 * (c * ((s - q) * D)) + 2 * (s * F) + 2 * (s * (D * (N - 2 * c))) := by
    ring
  rw [e]
  linarith

/-- The comparison behind scenario C, cross-multiplied: with the local mean `m` in
`[0, 255]` and a variance `s ≥ 0` that is at least `(m - 127)(128 - m)`, the value of a
pixel against the negation is at most its value against the increment, strictly so
unless `s = 0` and `m = 127`. -/
theorem neg_succ_cross (m s : K) (hm0 : 0 ≤ m) (hm1 : m ≤ 255) (hs : 0 ≤ s)
    (hq : (m - 127) * (128 - m) ≤ s) :
    0 ≤ (2 * (m * m) + 2 * m + c1) * ((m * m + (255 - m) * (255 - m) + c1) * (2 * s + c2)) -
        ((2 * (m * (255 - m)) + c1) * (c2 - 2 * s)) * (2 * (m * m) + 2 * m + 1 + c1) ∧
    ((0 < s ∨ m ≠ 127) →
      0 < (2 * (m * m) + 2 * m + c1) * ((m * m + (255 - m) * (255 - m) + c1) * (2 * s + c2)) -
        ((2 * (m * (255 - m)) + c1) * (c2 - 2 * s)) * (2 * (m * m) + 2 * m + 1 + c1)) := by
  have hc1 := c1_pos (K := K)
  have hc2 := c2_pos (K := K)
  have hc2' := c2_lt K
  have hmm := mul_self_nonneg m
  have hnn := mul_self_nonneg (255 - m)
  have hmn : 0 ≤ m * (255 - m) := mul_nonneg hm0 (by linarith)
  have hE : 0 < m * m + (255 - m) * (255 - m) + c1 := by linarith
  have hD : 0 < 2 * (m * m) + 2 * m + 1 + c1 := by linarith
  have hD1 : 0 < 2 * (m * m) + 2 * m + c1 := by linarith
  have hN : 0 < 2 * (m * (255 - m)) + c1 := by linarith
  have hT2 : 0 < (m * m + (255 - m) * (255 - m) + c1) * (2 * (m * m) + 2 * m + c1) +
      (2 * (m * m) + 2 * m + 1 + c1) * (2 * (m * (255 - m)) + c1) :=
    add_pos (mul_pos hE hD1) (mul_pos hD hN)
  have key : (2 * (m * m) + 2 * m + c1) * ((m * m + (255 - m) * (255 - m) + c1) * (2 * s + c2)) -
        ((2 * (m * (255 - m)) + c1) * (c2 - 2 * s)) * (2 * (m * m) + 2 * m + 1 + c1) =
      c2 * ((255 - 2 * m) * (255 - 2 * m) * (2 * (m * m) + 2 * m + 1 + c1) -
          (m * m + (255 - m) * (255 - m) + c1)) +
        2 * s * ((m * m + (255 - m) * (255 - m) + c1) * (2 * (m * m) + 2 * m + c1) +
          (2 * (m * m) + 2 * m + 1 + c1) * (2 * (m * (255 - m)) + c1)) := by
    ring
  have hT1 : (255 - 2 * m) * (255 - 2 * m) * (2 * (m * m) + 2 * m + 1 + c1) -
        (m * m + (255 - m) * (255 - m) + c1) =
      (254 - 2 * m) * (256 - 2 * m) * (m * m + c1) +
        m * ((254 - 2 * m) * ((255 - 2 * m) * (m + 2) + m)) := by
    ring
  rw [key]
  have hsT2 := mul_nonneg (mul_nonneg (by norm_num : (0 : K) ≤ 2) hs) (le_of_lt hT2)
  by_cases hA : m ≤ 127
  · -- d ≥ 1
    have h1 : 0 ≤ (254 - 2 * m) * (256 - 2 * m) * (m * m + c1) :=
      mul_nonneg (mul_nonneg (by linarith) (by linarith)) (by linarith)
    have h2 : 0 ≤ m * ((254 - 2 * m) * ((255 - 2 * m) * (m + 2) + m)) :=
      mul_nonneg hm0 (mul_nonneg (by linarith)
        (add_nonneg (mul_nonneg (by linarith) (by linarith)) hm0))
    have hT1n : 0 ≤ c2 * ((255 - 2 * m) * (255 - 2 * m) * (2 * (m * m) + 2 * m + 1 + c1) -
        (m * m + (255 - m) * (255 - m) + c1)) := by
      rw [hT1]; exact mul_nonneg (le_of_lt hc2) (add_nonneg h1 h2)
    refine ⟨add_nonneg hT1n hsT2, ?_⟩
    rintro (hs' | hne)
    · have := mul_pos (mul_pos (by norm_num : (0 : K) < 2) hs') hT2
      linarith
    · have hlt : m < 127 := lt_of_le_of_ne hA hne
      have h1' : 0 < (254 - 2 * m) * (256 - 2 * m) * (m * m + c1) :=
        mul_pos (mul_pos (by linarith) (by linarith)) (by linarith)
      have : 0 < c2 * ((255 - 2 * m) * (255 - 2 * m) * (2 * (m * m) + 2 * m + 1 + c1) -
          (m * m + (255 - m) * (255 - m) + c1)) := by
        rw [hT1]; exact mul_pos hc2 (by linarith)
      linarith
  · have hA' : 127 < m := lt_of_not_le hA
    by_cases hB : 128 ≤ m
    · -- d ≤ -1
      have h1 : 0 ≤ (254 - 2 * m) * (256 - 2 * m) * (m * m + c1) :=
        mul_nonneg (mul_nonneg_of_nonpos_of_nonpos (by linarith) (by linarith)) (by linarith)
      have h3 : (255 - 2 * m) * (m + 2) + m < 0 := by nlinarith
      have h2 : 0 < m * ((254 - 2 * m) * ((255 - 2 * m) * (m + 2) + m)) :=
        mul_pos (by linarith) (mul_pos_of_neg_of_neg (by linarith) h3)
      have hT1p : 0 < c2 * ((255 - 2 * m) * (255 - 2 * m) * (2 * (m * m) + 2 * m + 1 + c1) -
          (m * m + (255 - m) * (255 - m) + c1)) := by
        rw [hT1]; exact mul_pos hc2 (by linarith)
      exact ⟨by linarith, fun _ => by linarith⟩
    · have hB' : m < 128 := lt_of_not_le hB
      have hqpos : 0 < (m - 127) * (128 - m) := mul_pos (by linarith) (by linarith)
      have hspos : 0 < s := lt_of_lt_of_le hqpos hq
      have hT1' : (255 - 2 * m) * (255 - 2 * m) * (2 * (m * m) + 2 * m + 1 + c1) -
          (m * m + (255 - m) * (255 - m) + c1) =
          512 * (m - 127) - 4 * ((m - 127) * (128 - m)) * (2 * (m * m) + 2 * m + 1 + c1) := by
        ring
      have h127 : (127 : K) * 127 ≤ m * (255 - m) :=
        mul_le_mul (by linarith) (by linarith) (by norm_num) (by linarith)
      have hbig : 2 * c2 < 2 * (m * (255 - m)) + c1 := by linarith
      have hpos : 0 < c2 * ((255 - 2 * m) * (255 - 2 * m) * (2 * (m * m) + 2 * m + 1 + c1) -
            (m * m + (255 - m) * (255 - m) + c1)) +
          2 * s * ((m * m + (255 - m) * (255 - m) + c1) * (2 * (m * m) + 2 * m + c1) +
            (2 * (m * m) + 2 * m + 1 + c1) * (2 * (m * (255 - m)) + c1)) := by
        rw [hT1']
        exact neg_succ_mid c2 s ((m - 127) * (128 - m)) (2 * (m * m) + 2 * m + 1 + c1)
          ((m * m + (255 - m) * (255 - m) + c1) * (2 * (m * m) + 2 * m + c1))
          (2 * (m * (255 - m)) + c1) (512 * (m - 127)) hc2 hspos hq hD (mul_pos hE hD1) hbig
          (by linarith)
      exact ⟨le_of_lt hpos, fun _ => hpos⟩

end

section
variable {K : Type} [LinearOrderedField K]

theorem pixel_neg (img : Int → Nat) (h255 : ∀ i, img i ≤ 255) (W H : Nat)
    (step stride : Int) (u v : Int) :
    pixel (K := K) (fun i => 255 - img i) W H step stride u v =
      255 - pixel img W H step stride u v := by
  unfold pixel sampleAt
  rw [Nat.cast_sub (h255 _)]
  norm_num

theorem pixel_le (img : Int → Nat) (h255 : ∀ i, img i ≤ 255) (W H : Nat)
    (step stride : Int) (u v : Int) :
    pixel (K := K) img W H step stride u v ≤ 255 := by
  unfold pixel sampleAt
  exact_mod_cast h255 _

/-- A windowed moment of a field bounded above by `a` is at most `a`. -/
theorem moment_le (kernel : Mem K) (hk : KernelOk kernel) (f : Int → Int → K) (a : K)
    (hf : ∀ u v, f u v ≤ a) (x y : Int) : moment kernel f x y ≤ a := by
  have h0 := moment_nonneg kernel hk (fun u v => a - f u v)
    (fun u v => sub_nonneg.mpr (hf u v)) x y
  have e : moment kernel (fun u v => a - f u v) x y =
      moment kernel (fun u v => (-1) * f u v + 0 * f u v + a) x y := by
    apply moment_congr; intro u v; ring
  rw [e, moment_linear kernel hk] at h0
  linarith

theorem nat_off_127 (n : Nat) : (0 : K) ≤ ((n : K) - 127) * ((n : K) - 128) := by
  by_cases h : n ≤ 127
  · have h1 : (n : K) ≤ 127 := by exact_mod_cast h
    exact mul_nonneg_of_nonpos_of_nonpos (by linarith) (by linarith)
  · have h1 : (128 : K) ≤ n := by
      have : 128 ≤ n := by omega
      exact_mod_cast this
    exact mul_nonneg (by linarith) (by linarith)

/-- The windowed variance of integer samples with local mean `m` is at least
`(m - 127)(128 - m)`. -/
theorem moment_int_var (kernel : Mem K) (hk : KernelOk kernel) (img : Int → Nat)
    (W H : Nat) (step stride : Int) (x y : Int) :
    (moment kernel (pixel img W H step stride) x y - 127) *
        (128 - moment kernel (pixel img W H step stride) x y) ≤
      moment kernel (fun u v => pixel img W H step stride u v *
        pixel img W H step stride u v) x y -
      moment kernel (pixel img W H step stride) x y *
        moment kernel (pixel img W H step stride) x y := by
  have h0 := moment_nonneg kernel hk
    (fun u v => (pixel (K := K) img W H step stride u v - 127) *
      (pixel img W H step stride u v - 128))
    (fun u v => by unfold pixel; exact nat_off_127 _) x y
  have e : moment kernel (fun u v => (pixel (K := K) img W H step stride u v - 127) *
      (pixel img W H step stride u v - 128)) x y =
      moment kernel (fun u v => 1 * (pixel img W H step stride u v *
        pixel img W H step stride u v) + (-255) * pixel img W H step stride u v +
          16256) x y := by
    apply moment_congr; intro u v; ring
  rw [e, moment_linear kernel hk] at h0
  linarith

/-- A windowed moment with positive weights of a non-negative field that is positive at
the centre of the window is positive. -/
theorem moment_pos_center (kernel : Mem K)
    (hpos : ∀ j i : Nat, j < 2 * radius + 1 → i < 2 * radius + 1 →
      0 < kernel ((j : Int) * (2 * (radius : Int) + 1) + i))
    (f : Int → Int → K) (hf : ∀ u v, 0 ≤ f u v) (x y : Int) (hc : 0 < f x y) :
    0 < moment kernel f x y := by
  unfold moment
  have er : 2 * radius + 1 = 11 := by unfold radius; norm_num
  apply Finset.sum_pos'
  · intro j hj
    apply Finset.sum_nonneg
    intro i hi
    exact mul_nonneg (le_of_lt (hpos j i (Finset.mem_range.mp hj) (Finset.mem_range.mp hi)))
      (hf _ _)
  · refine ⟨5, Finset.mem_range.mpr (by rw [er]; norm_num), ?_⟩
    apply Finset.sum_pos'
    · intro i hi
      exact mul_nonneg (le_of_lt (hpos 5 i (by rw [er]; norm_num) (Finset.mem_range.mp hi)))
        (hf _ _)
    · refine ⟨5, Finset.mem_range.mpr (by rw [er]; norm_num), ?_⟩
      have ex : x + ((5 : Nat) : Int) - (radius : Nat) = x := by unfold radius; push_cast; ring
      have ey : y + ((5 : Nat) : Int) - (radius : Nat) = y := by unfold radius; push_cast; ring
      rw [ex, ey]
      exact mul_pos (hpos 5 5 (by rw [er]; norm_num) (by rw [er]; norm_num)) hc

/-- The per-pixel value of an image against its negation `255 - A`, in terms of the local
mean `m` and the local second moment `e2` of `A`. -/
theorem ssimPixel_neg (kernel : Mem K) (hk : KernelOk kernel) (W H : Nat)
    (img : Int → Nat) (h255 : ∀ i, img i ≤ 255) (step stride : Int) (x y : Nat) :
    ssimPixel kernel W H img step stride (fun i => 255 - img i) step stride x y =
      ((2 * (moment kernel (pixel img W H step stride) x y *
            (255 - moment kernel (pixel img W H step stride) x y)) + c1) *
          (c2 - 2 * (moment kernel (fun u v => pixel img W H step stride u v *
              pixel img W H step stride u v) x y -
            moment kernel (pixel img W H step stride) x y *
              moment kernel (pixel img W H step stride) x y))) /
        ((moment kernel (pixel img W H step stride) x y *
              moment kernel (pixel img W H step stride) x y +
            (255 - moment kernel (pixel img W H step stride) x y) *
              (255 - moment kernel (pixel img W H step stride) x y) + c1) *
          (2 * (moment kernel (fun u v => pixel img W H step stride u v *
              pixel img W H step stride u v) x y -
            moment kernel (pixel img W H step stride) x y *
              moment kernel (pixel img W H step stride) x y) + c2)) := by
  unfold ssimPixel ssimAt ssimCombine
  simp only
  have eB : moment kernel (pixel (fun i => 255 - img i) W H step stride) x y =
      255 - moment kernel (pixel img W H step stride) x y := by
    have e : moment kernel (pixel (fun i => 255 - img i) W H step stride) x y =
        moment kernel (fun u v => (-1) * pixel img W H step stride u v +
          0 * pixel img W H step stride u v + 255) x y := by
      apply moment_congr; intro u v; rw [pixel_neg img h255]; ring
    rw [e, moment_linear kernel hk]; ring
  have eB2 : moment kernel (fun u v => pixel (fun i => 255 - img i) W H step stride u v *
      pixel (fun i => 255 - img i) W H step stride u v) x y =
      moment kernel (fun u v => pixel img W H step stride u v *
        pixel img W H step stride u v) x y -
        510 * moment kernel (pixel img W H step stride) x y + 65025 := by
    have e : moment kernel (fun u v => pixel (fun i => 255 - img i) W H step stride u v *
        pixel (fun i => 255 - img i) W H step stride u v) x y =
        moment kernel (fun u v => 1 * (pixel img W H step stride u v *
          pixel img W H step stride u v) + (-510) * pixel img W H step stride u v +
            65025) x y := by
      apply moment_congr; intro u v; rw [pixel_neg img h255]; ring
    rw [e, moment_linear kernel hk]; ring
  have eAB : moment kernel (fun u v => pixel img W H step stride u v *
      pixel (fun i => 255 - img i) W H step stride u v) x y =
      255 * moment kernel (pixel img W H step stride) x y -
        moment kernel (fun u v => pixel img W H step stride u v *
          pixel img W H step stride u v) x y := by
    have e : moment kernel (fun u v => pixel img W H step stride u v *
        pixel (fun i => 255 - img i) W H step stride u v) x y =
        moment kernel (fun u v => (-1) * (pixel img W H step stride u v *
          pixel img W H step stride u v) + 255 * pixel img W H step stride u v + 0) x y := by
      apply moment_congr; intro u v; rw [pixel_neg img h255]; ring
    rw [e, moment_linear kernel hk]; ring
  rw [eB, eB2, eAB]
  congr 1 <;> ring

end

section
variable {K : Type} [LinearOrderedField K]

theorem clampTo_self (x W : Nat) (hx : x < W) : clampTo (x : Int) W = x := by
  unfold clampTo
  omega

/-- The value of a pixel against the negation is at most its value against the
increment, strictly so when the sample at the pixel is not 127. -/
theorem ssimPixel_neg_le_succ (kernel : Mem K) (hk : KernelOk kernel)
    (hpos : ∀ j i : Nat, j < 2 * radius + 1 → i < 2 * radius + 1 →
      0 < kernel ((j : Int) * (2 * (radius : Int) + 1) + i))
    (W H : Nat) (img : Int → Nat) (h255 : ∀ i, img i ≤ 255) (step stride : Int)
    (x y : Nat) :
    ssimPixel kernel W H img step stride (fun i => 255 - img i) step stride x y ≤
      ssimPixel kernel W H img step stride (fun i => img i + 1) step stride x y ∧
    (pixel (K := K) img W H step stride x y ≠ 127 →
      ssimPixel kernel W H img step stride (fun i => 255 - img i) step stride x y <
        ssimPixel kernel W H img step stride (fun i => img i + 1) step stride x y) := by
  rw [ssimPixel_neg kernel hk W H img h255, ssimPixel_succ kernel hk]
  have hm0 := moment_nonneg kernel hk _
    (fun u v => pixel_nonneg (K := K) img W H step stride u v) x y
  have hm1 := moment_le kernel hk _ 255
    (fun u v => pixel_le (K := K) img h255 W H step stride u v) x y
  have hs := moment_sq_le kernel hk (pixel img W H step stride) x y
  have hq := moment_int_var kernel hk img W H step stride x y
  have hcen : pixel (K := K) img W H step stride x y ≠ 127 →
      0 < moment kernel (fun u v => (pixel img W H step stride u v - 127) *
        (pixel img W H step stride u v - 127)) x y := by
    intro hne
    apply moment_pos_center kernel hpos _ (fun u v => mul_self_nonneg _)
    exact mul_self_pos.mpr (sub_ne_zero.mpr hne)
  have ecen : moment kernel (fun u v => (pixel (K := K) img W H step stride u v - 127) *
        (pixel img W H step stride u v - 127)) x y =
      moment kernel (fun u v => pixel img W H step stride u v *
        pixel img W H step stride u v) x y -
      254 * moment kernel (pixel img W H step stride) x y + 16129 := by
    have e : moment kernel (fun u v => (pixel (K := K) img W H step stride u v - 127) *
        (pixel img W H step stride u v - 127)) x y =
        moment kernel (fun u v => 1 * (pixel img W H step stride u v *
          pixel img W H step stride u v) + (-254) * pixel img W H step stride u v +
            16129) x y := by
      apply moment_congr; intro u v; ring
    rw [e, moment_linear kernel hk]; ring
  rw [ecen] at hcen
  generalize pixel (K := K) img W H step stride x y = p at hcen
  generalize moment kernel (fun u v => pixel img W H step stride u v *
        pixel img W H step stride u v) x y = e2 at *
  generalize moment kernel (pixel img W H step stride) x y = m at *
  have hs0 : 0 ≤ e2 - m * m := by linarith
  obtain ⟨hle, hlt⟩ := neg_succ_cross m (e2 - m * m) hm0 hm1 hs0 hq
  have hc1 := c1_pos (K := K)
  have hc2 := c2_pos (K := K)
  have hmm := mul_self_nonneg m
  have hnn := mul_self_nonneg (255 - m)
  have hNd : 0 < (m * m + (255 - m) * (255 - m) + c1) * (2 * (e2 - m * m) + c2) :=
    mul_pos (by linarith) (by linarith)
  have hId : 0 < 2 * (m * m) + 2 * m + 1 + c1 := by linarith
  constructor
  · rw [div_le_div_iff₀ hNd hId]
    linarith
  · intro hne
    rw [div_lt_div_iff₀ hNd hId]
    have h0 := hcen hne
    have hor : 0 < e2 - m * m ∨ m ≠ 127 := by
      by_contra hcon
      push_neg at hcon
      obtain ⟨h1, h2⟩ := hcon
      rw [h2] at h0 h1
      linarith
    have := hlt hor
    linarith

/-- C14 (amended): scenario C, in exact arithmetic. For every image `A` with samples
`≤ 254` (fewer than `2^32` pixels, within the range of the `int32_t` coordinates) that has
a sample different from 127, the value `compute_ssim` computes in exact arithmetic for `A`
against its negation `255 - A` is strictly lower than the one for `A` against its
increment `A + 1`. -/
theorem negation_scores_lower (expf : K → K) (pi : K) (fuel : Nat) (junk : Mem K)
    (W H : Nat) (img : Int → Nat) (step stride : Int)
    (ssimMap : Option (Mem K)) (ssimStep ssimStride : Int)
    (hexp : ∀ t, 0 < expf t) (hpi : 0 < pi) (h254 : ∀ i, img i ≤ 254)
    (hxr : W + 5 < 2 ^ 31) (hyr : H + 5 < 2 ^ 31) (hcount : W * H < 2 ^ 32)
    (hfw : (W + 63) / 64 < fuel) (hfh : (H + 63) / 64 < fuel)
    (x0 y0 : Nat) (hx0 : x0 < W) (hy0 : y0 < H)
    (hne : img ((x0 : Int) * step + (y0 : Int) * stride) ≠ 127) :
    ∃ sneg sinc mapn mapi,
      compute_ssim expf pi fuel junk W H (some img) step stride
        (some (fun i => 255 - img i)) step stride ssimMap ssimStep ssimStride =
        some (sneg, mapn) ∧
      compute_ssim expf pi fuel junk W H (some img) step stride
        (some (fun i => (img i + 1) % 256)) step stride ssimMap ssimStep ssimStride =
        some (sinc, mapi) ∧
      sneg < sinc := by
  have hk := precomputed_kernel_ok expf pi junk hexp hpi
  have hkpos := precomputed_kernel_pos expf pi junk hexp hpi
  have h255 : ∀ i, img i ≤ 255 := fun i => le_trans (h254 i) (by norm_num)
  have eB : (fun i => (img i + 1) % 256) = (fun i => img i + 1) :=
    funext (fun i => Nat.mod_eq_of_lt (by have := h254 i; omega))
  rw [eB]
  obtain ⟨m1, hrun1, _⟩ := compute_ssim_spec expf pi fuel junk W H img step stride
    (fun i => 255 - img i) step stride ssimMap ssimStep ssimStride hxr hyr hfw hfh
  obtain ⟨m2, hrun2, _⟩ := compute_ssim_spec expf pi fuel junk W H img step stride
    (fun i => img i + 1) step stride ssimMap ssimStep ssimStride hxr hyr hfw hfh
  rw [Nat.mod_eq_of_lt hcount] at hrun1 hrun2
  refine ⟨_, _, m1, m2, hrun1, hrun2, ?_⟩
  have hposWH : (0 : K) < ((W * H : Nat) : K) := by
    have : 0 < W * H := Nat.mul_pos (by omega) (by omega)
    exact_mod_cast this
  apply div_lt_div_of_pos_right _ hposWH
  apply sum_grid_strict _ _ W H
    (fun x y _ _ => (ssimPixel_neg_le_succ _ hk hkpos W H img h255 step stride x y).1)
    x0 y0 hx0 hy0
  apply (ssimPixel_neg_le_succ _ hk hkpos W H img h255 step stride x0 y0).2
  unfold pixel sampleAt
  rw [clampTo_self x0 W hx0, clampTo_self y0 H hy0]
  intro h
  apply hne
  have : ((img ((x0 : Int) * step + (y0 : Int) * stride) : Nat) : K) = ((127 : Nat) : K) := by
    rw [h]; norm_num
  exact_mod_cast this

end

/-- C14, witness: the 8x8 constant-gray 128 image, over the reals. -/
theorem negation_scores_lower_witness :
    ∃ sneg sinc mapn mapi,
      compute_ssim Real.exp Real.pi 2 (fun _ => 0) 8 8 (some (fun _ => 128)) 1 8
        (some (fun i => 255 - (fun _ => 128) i)) 1 8 none 0 0 = some (sneg, mapn) ∧
      compute_ssim Real.exp Real.pi 2 (fun _ => 0) 8 8 (some (fun _ => 128)) 1 8
        (some (fun i => ((fun _ => 128) i + 1) % 256)) 1 8 none 0 0 = some (sinc, mapi) ∧
      sneg < sinc :=
  negation_scores_lower Real.exp Real.pi 2 (fun _ => 0) 8 8 (fun _ => 128) 1 8 none 0 0
    Real.exp_pos Real.pi_pos (fun _ => by norm_num) (by norm_num) (by norm_num)
    (by norm_num) (by norm_num) (by norm_num) 0 0 (by norm_num) (by norm_num) (by norm_num)

/-- C14, counterexample: the 8x8 constant-gray 127 image. Its negation `255 - 127` and its
increment `127 + 1` are the same image, the constant 128, so the two scores are the same
number: the score against the negation is not strictly lower. -/
theorem negation_counterexample :
    ∃ s : ℝ,
      compute_ssim Real.exp Real.pi 2 (fun _ => 0) 8 8 (some (fun _ => 127)) 1 8
        (some (fun i => 255 - (fun _ => 127) i)) 1 8 none 0 0 = some (s, none) ∧
      compute_ssim Real.exp Real.pi 2 (fun _ => 0) 8 8 (some (fun _ => 127)) 1 8
        (some (fun i => ((fun _ => 127) i + 1) % 256)) 1 8 none 0 0 = some (s, none) ∧
      ¬ (s < s) := by
  obtain ⟨m1, hrun1, hmap⟩ := compute_ssim_spec Real.exp Real.pi 2 (fun _ => 0) 8 8
    (fun _ => 127) 1 8 (fun _ => 128) 1 8 none 0 0
    (by norm_num) (by norm_num) (by norm_num) (by norm_num)
  unfold MapOk at hmap
  simp only at hmap
  subst hmap
  exact ⟨_, hrun1, hrun1, lt_irrefl _⟩

section
variable {K : Type}

end

section
variable {K : Type} [NatCast K]

end

section
variable {K : Type} [NatCast K]

end

section
variable {K : Type} [Field K]

end

section
variable {K : Type} [Mul K]

end

section
variable {K : Type}

end

section
variable {K : Type} [Field K]

end

section
variable {K : Type} [Field K]

end

section
variable {K : Type}

end

section
variable {K : Type} [Field K]

end

section
variable {K : Type} [Field K]

end

section
variable {K : Type} [LinearOrderedField K]

end

end rmgr.ssim
